import Mathlib

/-!
# PGM image processor: a shallow embedding of `image_processor.c`

The C program keeps one current image (`PGMImage`) and replaces it by the
result of a resampling, filtering or edge-detection routine.  This file
embeds those routines as Lean functions and proves properties of them.

Conventions of the embedding.

* C `int` and `long` values are Lean `Int`; C `/` and `%` on them are
  `Int.tdiv` and `Int.tmod` (truncation toward zero).  The only `int`
  products that can leave the 32-bit range are the new dimensions computed by
  `resize_image` when zooming; they are checked there.
* A pixel (`unsigned char`) is a `Nat`; a conversion to `unsigned char` is
  `to_uchar`, reduction modulo `2^8`.
* `unsigned char** pixels` is a list of rows.  Every pixel read and write is
  bounds-checked against the rows that were really allocated: an access
  outside them (undefined behaviour in C) makes the routine return `none`.
* `malloc` and `calloc` are assumed to succeed; `free` is not modelled.
* A `for (int i = lo; i < hi; i++)` loop whose body does not assign `i` is
  `forLoop lo hi body`: it runs the body exactly `hi - lo` times (never, when
  `hi <= lo`), so every routine below is a total function.
-/

namespace PGM

/-! ## Loops -/

/-- Runs `body i`, `body (i+1)`, ... for `n` consecutive values of the loop
variable, threading the state; stops with `none` as soon as a body does. -/
def loopFrom {σ : Type} (body : Int → σ → Option σ) : Nat → Int → σ → Option σ
  | 0, _, s => some s
  | n + 1, i, s => (body i s).bind (fun s' => loopFrom body n (i + 1) s')

/-- The C loop `for (int i = lo; i < hi; i++) body`. -/
def forLoop {σ : Type} (lo hi : Int) (body : Int → σ → Option σ) (s : σ) : Option σ :=
  loopFrom body (hi - lo).toNat lo s

/-! ## Pixel buffers -/

/-- A pixel buffer `unsigned char**`: the allocated rows. -/
abbrev Pixels := List (List Nat)

/-- Conversion of an integer to `unsigned char`. -/
def to_uchar (x : Int) : Nat := (x % 256).toNat

/-- The read `p[i][j]`, defined only inside the allocated rows. -/
def readPx (p : Pixels) (i j : Int) : Option Nat :=
  if 0 ≤ i ∧ 0 ≤ j then
    match p[i.toNat]? with
    | some row => row[j.toNat]?
    | none => none
  else none

/-- The write `p[i][j] = v`, defined only inside the allocated rows. -/
def writePx (p : Pixels) (i j : Int) (v : Nat) : Option Pixels :=
  if 0 ≤ i ∧ 0 ≤ j then
    match p[i.toNat]? with
    | some row =>
      if j.toNat < row.length then some (p.set i.toNat (row.set j.toNat v)) else none
    | none => none
  else none

/-- The image structure of the program. -/
structure PGMImage where
  width : Int
  height : Int
  max_val : Int
  pixels : Pixels
  deriving DecidableEq, Repr

/-- A loaded image: `height` rows of `width` bytes each. -/
def WellFormed (img : PGMImage) : Prop :=
  0 ≤ img.width ∧ 0 ≤ img.height ∧ img.pixels.length = img.height.toNat ∧
    ∀ row ∈ img.pixels, row.length = img.width.toNat ∧ ∀ v ∈ row, v < 256

instance (img : PGMImage) : Decidable (WellFormed img) := by
  unfold WellFormed; infer_instance

/-- `create_new_image`: the new dimensions, the original's `max_val`, and
`new_h` rows of `new_w` zero bytes (`calloc`). -/
def create_new_image (original : PGMImage) (new_w new_h : Int) : PGMImage :=
  { width := new_w
    height := new_h
    max_val := original.max_val
    pixels := List.replicate new_h.toNat (List.replicate new_w.toNat 0) }

/-- The call `memcpy(dst, src, n)` on two rows. -/
def memcpy_row (dst src : List Nat) (n : Int) : Option (List Nat) :=
  if 0 ≤ n ∧ n.toNat ≤ dst.length ∧ n.toNat ≤ src.length then
    some (src.take n.toNat ++ dst.drop n.toNat)
  else none

/-- `deep_copy_image`: a fresh image of the original's size, then one
`memcpy` of `width` bytes per row. -/
def deep_copy_image (original : PGMImage) : Option PGMImage :=
  let copy := create_new_image original original.width original.height
  (forLoop 0 original.height (fun i px =>
      if 0 ≤ i then
        match px[i.toNat]?, original.pixels[i.toNat]? with
        | some dst, some src =>
          (memcpy_row dst src original.width).map (fun row => px.set i.toNat row)
        | _, _ => none
      else none)
    copy.pixels).map (fun px => { copy with pixels := px })

/-! ## Zoom and shrink -/

/-- `nearest_neighbor_zoom`: fills `new_img` from `original`. -/
def nearest_neighbor_zoom (original new_img : PGMImage) (factor : Int) : Option PGMImage :=
  (forLoop 0 new_img.height (fun i_new px =>
      forLoop 0 new_img.width (fun j_new px =>
        if factor = 0 then none
        else
          let i_orig := Int.tdiv i_new factor
          let j_orig := Int.tdiv j_new factor
          (readPx original.pixels i_orig j_orig).bind (fun v => writePx px i_new j_new v))
        px)
    new_img.pixels).map (fun px => { new_img with pixels := px })

/-- `subsample_shrink`: fills `new_img` from `original`. -/
def subsample_shrink (original new_img : PGMImage) (factor : Int) : Option PGMImage :=
  (forLoop 0 new_img.height (fun i_new px =>
      forLoop 0 new_img.width (fun j_new px =>
        let i_orig := i_new * factor
        let j_orig := j_new * factor
        (readPx original.pixels i_orig j_orig).bind (fun v => writePx px i_new j_new v))
        px)
    new_img.pixels).map (fun px => { new_img with pixels := px })

/-- The result a menu operation reports: `done` for a `SUCCESS:` message,
`failed` for an error message followed by an early `return`. -/
inductive Outcome where
  | done
  | failed
  deriving DecidableEq, Repr

/-- The largest `int`. -/
def INT_MAX : Int := 2147483647

/-- The smallest `int`. -/
def INT_MIN : Int := -2147483648

/-- An `int` product whose mathematical value is not an `int` overflows. -/
def mul_overflows (a b : Int) : Prop := a * b < INT_MIN ∨ INT_MAX < a * b

instance (a b : Int) : Decidable (mul_overflows a b) := by
  unfold mul_overflows; infer_instance

/-- The library function `atoi` on a text that starts with decimal digits. -/
def atoi (s : String) : Int :=
  (s.toList.takeWhile Char.isDigit).foldl (fun acc c => acc * 10 + ((c.toNat - 48 : Nat) : Int)) 0

/-- `resize_image`.  The argument `input_factor` is the token that
`scanf("%s", input_factor)` reads into `char input_factor[10]`: a token that
does not fit with its terminating zero overruns the array (no result).  The
products `w * factor` and `h * factor` are `int` products.  The result is the
reported outcome and the current image afterwards. -/
def resize_image (input_factor : String) (current_img : PGMImage) :
    Option (Outcome × PGMImage) :=
  if 10 < input_factor.utf8ByteSize + 1 then none
  else
    let w := current_img.width
    let h := current_img.height
    if input_factor = "2" ∨ input_factor = "3" then
      let factor := atoi input_factor
      if mul_overflows w factor ∨ mul_overflows h factor then none
      else
        let new_image := create_new_image current_img (w * factor) (h * factor)
        (nearest_neighbor_zoom current_img new_image factor).map
          (fun new_image => (Outcome.done, new_image))
    else if input_factor = "0.5" then
      let factor : Int := 2
      if Int.tmod w factor ≠ 0 ∨ Int.tmod h factor ≠ 0 then some (Outcome.failed, current_img)
      else
        let new_image := create_new_image current_img (Int.tdiv w factor) (Int.tdiv h factor)
        (subsample_shrink current_img new_image factor).map
          (fun new_image => (Outcome.done, new_image))
    else if input_factor = "0.25" then
      let factor : Int := 4
      if Int.tmod w factor ≠ 0 ∨ Int.tmod h factor ≠ 0 then some (Outcome.failed, current_img)
      else
        let new_image := create_new_image current_img (Int.tdiv w factor) (Int.tdiv h factor)
        (subsample_shrink current_img new_image factor).map
          (fun new_image => (Outcome.done, new_image))
    else some (Outcome.failed, current_img)

/-! ## Filters -/

/-- `average_filter`.  The inner loops `for (k = -1; k <= 1; k++)` run while
`k < 1 + 1`. -/
def average_filter (original : PGMImage) : Option PGMImage :=
  (deep_copy_image original).bind (fun new_img =>
    (forLoop 1 (new_img.height - 1) (fun i px =>
        forLoop 1 (new_img.width - 1) (fun j px =>
          (forLoop (-1) (1 + 1) (fun k sum =>
              forLoop (-1) (1 + 1) (fun l sum =>
                (readPx original.pixels (i + k) (j + l)).map (fun (v : Nat) => sum + (v : Int)))
                sum)
            (0 : Int)).bind
            (fun sum => writePx px i j (to_uchar (Int.tdiv sum 9))))
          px)
      new_img.pixels).map (fun px => { new_img with pixels := px }))

/-- The read `arr[i]` of a one-dimensional array. -/
def readAt (arr : List Nat) (i : Int) : Option Nat :=
  if 0 ≤ i then arr[i.toNat]? else none

/-- The write `arr[i] = v` of a one-dimensional array. -/
def writeAt (arr : List Nat) (i : Int) (v : Nat) : Option (List Nat) :=
  if 0 ≤ i ∧ i.toNat < arr.length then some (arr.set i.toNat v) else none

/-- `sort_nine`: the exchange sort of the source, in place on `arr`. -/
def sort_nine (arr : List Nat) : Option (List Nat) :=
  forLoop 0 8 (fun i arr =>
      forLoop (i + 1) 9 (fun j arr =>
        match readAt arr i, readAt arr j with
        | some ai, some aj =>
          if ai > aj then
            let temp := ai
            (writeAt arr i aj).bind (fun arr => writeAt arr j temp)
          else some arr
        | _, _ => none)
        arr)
    arr

/-- `median_filter`.  The loop state is the local array `window` together
with the output pixels; `window` is declared once, before the loops, and its
cells start out indeterminate (zero here).  The innermost state is the
counter `k` and the window. -/
def median_filter (original : PGMImage) : Option PGMImage :=
  (deep_copy_image original).bind (fun new_img =>
    let window : List Nat := List.replicate 9 0
    (forLoop 1 (new_img.height - 1) (fun i st =>
        forLoop 1 (new_img.width - 1) (fun j st =>
          let k : Int := 0
          (forLoop (-1) (1 + 1) (fun row kw =>
              forLoop (-1) (1 + 1) (fun col kw =>
                (readPx original.pixels (i + row) (j + col)).bind (fun v =>
                  (writeAt kw.2 kw.1 v).map (fun win => (kw.1 + 1, win))))
                kw)
            (k, st.1)).bind (fun kw =>
            (sort_nine kw.2).bind (fun win =>
              (readAt win 4).bind (fun m =>
                (writePx st.2 i j m).map (fun px => (win, px))))))
          st)
      (window, new_img.pixels)).map (fun st => { new_img with pixels := st.2 }))

/-- `apply_filter`.  The argument is what `scanf("%d", &filter_choice)`
delivers: `none` when the input is not a number. -/
def apply_filter (filter_choice : Option Int) (current_img : PGMImage) :
    Option (Outcome × PGMImage) :=
  match filter_choice with
  | none => some (Outcome.failed, current_img)
  | some c =>
    if c = 1 then
      (average_filter current_img).map (fun new_image => (Outcome.done, new_image))
    else if c = 2 then
      (median_filter current_img).map (fun new_image => (Outcome.done, new_image))
    else some (Outcome.failed, current_img)

/-! ## Edge detection -/

/-- The read `K[a][b]` of a constant kernel table. -/
def kernelAt (K : List (List Int)) (a b : Int) : Option Int :=
  if 0 ≤ a ∧ 0 ≤ b then
    match K[a.toNat]? with
    | some row => row[b.toNat]?
    | none => none
  else none

/-- The library function `labs`. -/
def labs (x : Int) : Int := (x.natAbs : Int)

/-- `sobel_edge_detection`. -/
def sobel_edge_detection (original : PGMImage) : Option PGMImage :=
  let Gx : List (List Int) := [[-1, 0, 1], [-2, 0, 2], [-1, 0, 1]]
  let Gy : List (List Int) := [[-1, -2, -1], [0, 0, 0], [1, 2, 1]]
  let new_img := create_new_image original original.width original.height
  (forLoop 1 (original.height - 1) (fun i px =>
      forLoop 1 (original.width - 1) (fun j px =>
        (forLoop (-1) (1 + 1) (fun k sums =>
            forLoop (-1) (1 + 1) (fun l sums =>
              match readPx original.pixels (i + k) (j + l),
                kernelAt Gx (k + 1) (l + 1), kernelAt Gy (k + 1) (l + 1) with
              | some pixel_val, some gx, some gy =>
                some (sums.1 + (pixel_val : Int) * gx, sums.2 + (pixel_val : Int) * gy)
              | _, _, _ => none)
              sums)
          ((0 : Int), (0 : Int))).bind (fun sums =>
          let magnitude := labs sums.1 + labs sums.2
          let final_value := to_uchar (if magnitude > 255 then 255 else magnitude)
          writePx px i j final_value))
        px)
    new_img.pixels).map (fun px => { new_img with pixels := px })

/-- `prewitt_edge_detection`. -/
def prewitt_edge_detection (original : PGMImage) : Option PGMImage :=
  let Gx : List (List Int) := [[-1, 0, 1], [-1, 0, 1], [-1, 0, 1]]
  let Gy : List (List Int) := [[-1, -1, -1], [0, 0, 0], [1, 1, 1]]
  let new_img := create_new_image original original.width original.height
  (forLoop 1 (original.height - 1) (fun i px =>
      forLoop 1 (original.width - 1) (fun j px =>
        (forLoop (-1) (1 + 1) (fun k sums =>
            forLoop (-1) (1 + 1) (fun l sums =>
              match readPx original.pixels (i + k) (j + l),
                kernelAt Gx (k + 1) (l + 1), kernelAt Gy (k + 1) (l + 1) with
              | some pixel_val, some gx, some gy =>
                some (sums.1 + (pixel_val : Int) * gx, sums.2 + (pixel_val : Int) * gy)
              | _, _, _ => none)
              sums)
          ((0 : Int), (0 : Int))).bind (fun sums =>
          let magnitude := labs sums.1 + labs sums.2
          let final_value := to_uchar (if magnitude > 255 then 255 else magnitude)
          writePx px i j final_value))
        px)
    new_img.pixels).map (fun px => { new_img with pixels := px })

/-- `edge_detection`.  The argument `edge_choice` is what
`scanf("%d", &edge_choice)` delivers (`none` when the input is not a number).
The Canny pipeline computes on `float` buffers; it enters as the parameter
`canny_edge_detector`, which returns the image it leaves as current. -/
def edge_detection (canny_edge_detector : PGMImage → Option PGMImage)
    (edge_choice : Option Int) (current_img : PGMImage) : Option (Outcome × PGMImage) :=
  match edge_choice with
  | none => some (Outcome.failed, current_img)
  | some c =>
    if c = 1 then
      (sobel_edge_detection current_img).map (fun new_image => (Outcome.done, new_image))
    else if c = 2 then
      (prewitt_edge_detection current_img).map (fun new_image => (Outcome.done, new_image))
    else if c = 3 then
      (canny_edge_detector current_img).map (fun new_image => (Outcome.done, new_image))
    else some (Outcome.failed, current_img)

/-! ## Local binary pattern -/

/-- `calculate_lbp`.  The accumulator `lbp_code` is a non-negative `int`; its
bit pattern is kept as a natural number, `|=` is the bitwise or and
`1 << (7 - k)` the shift of the natural number one. -/
def calculate_lbp (original : PGMImage) : Option PGMImage :=
  let new_img := create_new_image original original.width original.height
  let offsets : List (List Int) :=
    [[-1, -1], [-1, 0], [-1, 1], [0, 1], [1, 1], [1, 0], [1, -1], [0, -1]]
  (forLoop 1 (original.height - 1) (fun i px =>
      forLoop 1 (original.width - 1) (fun j px =>
        (readPx original.pixels i j).bind (fun center =>
          (forLoop 0 8 (fun k (lbp_code : Nat) =>
              match kernelAt offsets k 0, kernelAt offsets k 1 with
              | some di, some dj =>
                let ni := i + di
                let nj := j + dj
                (readPx original.pixels ni nj).bind (fun neighbor =>
                  if neighbor ≥ center then
                    (if 0 ≤ 7 - k then some (lbp_code ||| (1 <<< (7 - k).toNat)) else none)
                  else some lbp_code)
              | _, _ => none)
            (0 : Nat)).bind (fun lbp_code =>
            writePx px i j (to_uchar (lbp_code : Int)))))
        px)
    new_img.pixels).map (fun px => { new_img with pixels := px })

/-! ## Canny: hysteresis -/

/-- A natural number rounded to 53 significant bits, to nearest, ties to even:
the rounding of `double` arithmetic (binary64), on the numerator of a dyadic
rational. -/
def round_to_53_bits (n : Nat) : Nat :=
  if n < 2 ^ 53 then n
  else
    let shift := Nat.log2 n + 1 - 53
    let q := n / 2 ^ shift
    let r := n % 2 ^ shift
    let half := 2 ^ (shift - 1)
    let q := if half < r ∨ (r = half ∧ q % 2 = 1) then q + 1 else q
    q * 2 ^ shift

/-- The C expression `(int)(m * RATIO)` for an `int` `m` and the `double`
constant `RATIO = num / 2^scale`: `m` converts to `double` exactly, the
product is rounded to a `double`, the conversion to `int` truncates. -/
def double_product_to_int (m : Int) (num scale : Nat) : Int :=
  if 0 ≤ m then ((round_to_53_bits (m.toNat * num) / 2 ^ scale : Nat) : Int)
  else -((round_to_53_bits ((-m).toNat * num) / 2 ^ scale : Nat) : Int)

/-- `(int)(max_val * HIGH_THRESHOLD_RATIO)`: the `double` nearest to 0.18 is
`3242591731706757 / 2^54`. -/
def high_threshold (max_val : Int) : Int :=
  double_product_to_int max_val 3242591731706757 54

/-- `(int)(max_val * LOW_THRESHOLD_RATIO)`: the `double` nearest to 0.09 is
`3242591731706757 / 2^55`. -/
def low_threshold (max_val : Int) : Int :=
  double_product_to_int max_val 3242591731706757 55

/-- `edge_tracking`.  The first argument bounds the depth of the recursion:
a call at depth zero has no result. -/
def edge_tracking : Nat → Pixels → Int → Int → Int → Int → Int → Option Pixels
  | 0, _, _, _, _, _, _ => none
  | fuel + 1, edges, x, y, W, H, high_thresh =>
    forLoop (-1) (1 + 1) (fun i edges =>
        forLoop (-1) (1 + 1) (fun j edges =>
          if i = 0 ∧ j = 0 then some edges
          else
            let nx := x + i
            let ny := y + j
            if nx > 0 ∧ nx < H - 1 ∧ ny > 0 ∧ ny < W - 1 then
              (readPx edges nx ny).bind (fun v =>
                if v = 100 then
                  (writePx edges nx ny (to_uchar high_thresh)).bind (fun edges =>
                    edge_tracking fuel edges nx ny W H high_thresh)
                else some edges)
            else some edges)
          edges)
      edges

/-- `hysteresis_thresholding`, with the depth bound handed to
`edge_tracking`.  The result is the buffer `final_edges` afterwards. -/
def hysteresis_thresholding (fuel : Nat) (suppressed : Pixels) (W H : Int)
    (final_edges : Pixels) : Option Pixels :=
  (forLoop 0 H (fun i (max_val : Int) =>
      forLoop 0 W (fun j (max_val : Int) =>
        (readPx suppressed i j).map (fun v =>
          if (v : Int) > max_val then (v : Int) else max_val))
        max_val)
    (0 : Int)).bind (fun max_val =>
    let high_thresh := high_threshold max_val
    let low_thresh := low_threshold max_val
    (forLoop 0 H (fun i final_edges =>
        forLoop 0 W (fun j final_edges =>
          (readPx suppressed i j).bind (fun v =>
            if (v : Int) ≥ high_thresh then writePx final_edges i j 255
            else if (v : Int) ≥ low_thresh then writePx final_edges i j 100
            else writePx final_edges i j 0))
          final_edges)
      final_edges).bind (fun final_edges =>
      (forLoop 1 (H - 1) (fun i final_edges =>
          forLoop 1 (W - 1) (fun j final_edges =>
            (readPx final_edges i j).bind (fun v =>
              if v = 255 then edge_tracking fuel final_edges i j W H 255
              else some final_edges))
            final_edges)
        final_edges).bind (fun final_edges =>
        forLoop 0 H (fun i final_edges =>
            forLoop 0 W (fun j final_edges =>
              (readPx final_edges i j).bind (fun v =>
                if v = 100 then writePx final_edges i j 0 else some final_edges))
              final_edges)
          final_edges)))

/-! ## Canny: the stages on `float` buffers

A `float` is modelled by the rational number it denotes.  The operations
whose result depends on the floating-point format or on the mathematical
library are the fields of `FloatOps`: the rounding `fl` of an exact result to
a `float`, `sqrtf`, and the expression `atan2f(gy, gx) * 180.0f / PI` as the
`float` that is stored.  Comparisons, `fminf` and the conversions between
integers and `float`s of small magnitude are exact. -/

/-- A `float**` buffer: the allocated rows. -/
abbrev FloatGrid := List (List ℚ)

/-- The floating-point operations of the Canny stages. -/
structure FloatOps where
  fl : ℚ → ℚ
  sqrtf : ℚ → ℚ
  atan2f_degrees : ℚ → ℚ → ℚ

/-- The read `g[i][j]` of a `float` buffer, defined only inside the allocated
rows. -/
def readF (g : FloatGrid) (i j : Int) : Option ℚ :=
  if 0 ≤ i ∧ 0 ≤ j then
    match g[i.toNat]? with
    | some row => row[j.toNat]?
    | none => none
  else none

/-- The write `g[i][j] = v` of a `float` buffer, defined only inside the
allocated rows. -/
def writeF (g : FloatGrid) (i j : Int) (v : ℚ) : Option FloatGrid :=
  if 0 ≤ i ∧ 0 ≤ j then
    match g[i.toNat]? with
    | some row =>
      if j.toNat < row.length then some (g.set i.toNat (row.set j.toNat v)) else none
    | none => none
  else none

/-- `create_float_array`: `H` rows of `W` zeros (`calloc`). -/
def create_float_array (H W : Int) : FloatGrid :=
  List.replicate H.toNat (List.replicate W.toNat 0)

/-- The conversion `(unsigned char)x` of a `float`: truncation, defined when
the truncated value is a byte. -/
def float_to_uchar (x : ℚ) : Option Nat :=
  if -1 < x ∧ x < 256 then some (Rat.floor x).toNat else none

/-- `gaussian_blur`: writes into `blurred` where the 5x5 window fits. -/
def gaussian_blur (ops : FloatOps) (original : PGMImage) (blurred : FloatGrid) :
    Option FloatGrid :=
  let kernel : List (List Int) :=
    [[2, 4, 5, 4, 2], [4, 9, 12, 9, 4], [5, 12, 15, 12, 5], [4, 9, 12, 9, 4], [2, 4, 5, 4, 2]]
  let kernel_sum : Int := 159
  let W := original.width
  let H := original.height
  forLoop 2 (H - 2) (fun i blurred =>
      forLoop 2 (W - 2) (fun j blurred =>
        (forLoop (-2) (2 + 1) (fun k (sum : Int) =>
            forLoop (-2) (2 + 1) (fun l (sum : Int) =>
              match readPx original.pixels (i + k) (j + l), kernelAt kernel (k + 2) (l + 2) with
              | some v, some w => some (sum + (v : Int) * w)
              | _, _ => none)
              sum)
          (0 : Int)).bind (fun sum =>
          writeF blurred i j (ops.fl (ops.fl (sum : ℚ) / ops.fl (kernel_sum : ℚ)))))
        blurred)
    blurred

/-- `compute_gradient_and_magnitude`: the loop state is the two output
buffers and the local `max_mag`; the result is the two buffers. -/
def compute_gradient_and_magnitude (ops : FloatOps) (blurred : FloatGrid) (W H : Int)
    (magnitude angle : FloatGrid) : Option (FloatGrid × FloatGrid) :=
  let Gx : List (List Int) := [[-1, 0, 1], [-2, 0, 2], [-1, 0, 1]]
  let Gy : List (List Int) := [[-1, -2, -1], [0, 0, 0], [1, 2, 1]]
  let max_mag : ℚ := 0
  (forLoop 1 (H - 1) (fun i (st : FloatGrid × FloatGrid × ℚ) =>
      forLoop 1 (W - 1) (fun j (st : FloatGrid × FloatGrid × ℚ) =>
        (forLoop (-1) (1 + 1) (fun k (sums : ℚ × ℚ) =>
            forLoop (-1) (1 + 1) (fun l (sums : ℚ × ℚ) =>
              match readF blurred (i + k) (j + l),
                kernelAt Gx (k + 1) (l + 1), kernelAt Gy (k + 1) (l + 1) with
              | some pixel_val, some gx, some gy =>
                some (ops.fl (sums.1 + ops.fl (pixel_val * (gx : ℚ))),
                  ops.fl (sums.2 + ops.fl (pixel_val * (gy : ℚ))))
              | _, _, _ => none)
              sums)
          ((0 : ℚ), (0 : ℚ))).bind (fun sums =>
          let gx_sum := sums.1
          let gy_sum := sums.2
          let m := ops.sqrtf (ops.fl (ops.fl (gx_sum * gx_sum) + ops.fl (gy_sum * gy_sum)))
          (writeF st.1 i j m).bind (fun magnitude =>
            (writeF st.2.1 i j (ops.atan2f_degrees gy_sum gx_sum)).map (fun angle =>
              (magnitude, angle, if m > st.2.2 then m else st.2.2)))))
        st)
    (magnitude, angle, max_mag)).map (fun st => (st.1, st.2.1))

/-- The angle normalisation of `non_maximum_suppression`:
`if (current_angle < 0) current_angle += 180.0f`. -/
def normalize_angle (ops : FloatOps) (current_angle : ℚ) : ℚ :=
  if current_angle < 0 then ops.fl (current_angle + 180) else current_angle

/-- `non_maximum_suppression`: writes into `suppressed` at interior pixels. -/
def non_maximum_suppression (ops : FloatOps) (mag angle : FloatGrid) (W H : Int)
    (suppressed : Pixels) : Option Pixels :=
  forLoop 1 (H - 1) (fun i suppressed =>
      forLoop 1 (W - 1) (fun j suppressed =>
        (readF angle i j).bind (fun current_angle =>
          let current_angle := normalize_angle ops current_angle
          let qr : Option (ℚ × ℚ) :=
            if (current_angle ≥ 0 ∧ current_angle < 22.5) ∨
                (current_angle ≥ 157.5 ∧ current_angle ≤ 180) then
              (readF mag i (j + 1)).bind (fun q =>
                (readF mag i (j - 1)).map (fun r => (q, r)))
            else if current_angle ≥ 22.5 ∧ current_angle < 67.5 then
              (readF mag (i - 1) (j + 1)).bind (fun q =>
                (readF mag (i + 1) (j - 1)).map (fun r => (q, r)))
            else if current_angle ≥ 67.5 ∧ current_angle < 112.5 then
              (readF mag (i - 1) j).bind (fun q =>
                (readF mag (i + 1) j).map (fun r => (q, r)))
            else if current_angle ≥ 112.5 ∧ current_angle < 157.5 then
              (readF mag (i - 1) (j - 1)).bind (fun q =>
                (readF mag (i + 1) (j + 1)).map (fun r => (q, r)))
            else some ((255 : ℚ), (255 : ℚ))
          qr.bind (fun qr =>
            (readF mag i j).bind (fun m =>
              if m ≥ qr.1 ∧ m ≥ qr.2 then
                (float_to_uchar (min m 255)).bind (fun v => writePx suppressed i j v)
              else writePx suppressed i j 0))))
        suppressed)
    suppressed

/-- `canny_edge_detector`, with the floating-point operations and the depth
bound of the edge tracking as arguments: the four stages in sequence; the
result is the image left as current. -/
def canny_edge_detector (ops : FloatOps) (fuel : Nat) (current_img : PGMImage) :
    Option PGMImage :=
  let W := current_img.width
  let H := current_img.height
  let blurred := create_float_array H W
  let magnitude := create_float_array H W
  let angle := create_float_array H W
  (gaussian_blur ops current_img blurred).bind (fun blurred =>
    (compute_gradient_and_magnitude ops blurred W H magnitude angle).bind (fun ma =>
      let temp_img := create_new_image current_img W H
      (non_maximum_suppression ops ma.1 ma.2 W H temp_img.pixels).bind (fun suppressed =>
        let final_img := create_new_image current_img W H
        (hysteresis_thresholding fuel suppressed W H final_img.pixels).map (fun final_edges =>
          { final_img with pixels := final_edges }))))

/-! ## Vocabulary of the statements -/

/-- A buffer of `H` rows of `W` bytes. -/
def Shape (p : Pixels) (H W : Nat) : Prop :=
  p.length = H ∧ ∀ row ∈ p, row.length = W

/-- The pixel value at `(i, j)`; zero outside the buffer. -/
def pixelAt (p : Pixels) (i j : Int) : Nat := (readPx p i j).getD 0

/-- The nine samples of the 3x3 neighbourhood of `(i, j)`, row by row. -/
def window3x3 (p : Pixels) (i j : Int) : List Nat :=
  [pixelAt p (i - 1) (j - 1), pixelAt p (i - 1) j, pixelAt p (i - 1) (j + 1),
   pixelAt p i (j - 1), pixelAt p i j, pixelAt p i (j + 1),
   pixelAt p (i + 1) (j - 1), pixelAt p (i + 1) j, pixelAt p (i + 1) (j + 1)]

/-- The value `median_filter` stores for the neighbourhood of `(i, j)`: cell 4
of the sorted window. -/
def median_of_window (p : Pixels) (i j : Int) : Nat :=
  ((sort_nine (window3x3 p i j)).getD []).getD 4 0

/-- The two gradient operators of the source with their kernel tables turned
into arguments: the text of `sobel_edge_detection` and of
`prewitt_edge_detection` apart from the two `const int` tables. -/
def gradient_edge_detection (Gx Gy : List (List Int)) (original : PGMImage) :
    Option PGMImage :=
  let new_img := create_new_image original original.width original.height
  (forLoop 1 (original.height - 1) (fun i px =>
      forLoop 1 (original.width - 1) (fun j px =>
        (forLoop (-1) (1 + 1) (fun k sums =>
            forLoop (-1) (1 + 1) (fun l sums =>
              match readPx original.pixels (i + k) (j + l),
                kernelAt Gx (k + 1) (l + 1), kernelAt Gy (k + 1) (l + 1) with
              | some pixel_val, some gx, some gy =>
                some (sums.1 + (pixel_val : Int) * gx, sums.2 + (pixel_val : Int) * gy)
              | _, _, _ => none)
              sums)
          ((0 : Int), (0 : Int))).bind (fun sums =>
          let magnitude := labs sums.1 + labs sums.2
          let final_value := to_uchar (if magnitude > 255 then 255 else magnitude)
          writePx px i j final_value))
        px)
    new_img.pixels).map (fun px => { new_img with pixels := px })

/-- The Sobel kernels as the specification lists them. -/
def sobel_Gx : List (List Int) := [[-1, 0, 1], [-2, 0, 2], [-1, 0, 1]]

/-- The vertical Sobel kernel. -/
def sobel_Gy : List (List Int) := [[-1, -2, -1], [0, 0, 0], [1, 2, 1]]

/-- The Prewitt kernels as the specification lists them. -/
def prewitt_Gx : List (List Int) := [[-1, 0, 1], [-1, 0, 1], [-1, 0, 1]]

/-- The vertical Prewitt kernel. -/
def prewitt_Gy : List (List Int) := [[-1, -1, -1], [0, 0, 0], [1, 1, 1]]

/-- The weighted sum `K.I`: every sample of the 3x3 neighbourhood of `(i, j)`
times the kernel entry at the same place, summed over the nine places. -/
def weighted_sum (K : List (List Int)) (p : Pixels) (i j : Int) : Int :=
  (List.zipWith (fun (w : Int) (v : Nat) => w * (v : Int)) K.flatten (window3x3 p i j)).sum

/-- The clamped L1 magnitude `min(255, |Gx.I| + |Gy.I|)`. -/
def l1_magnitude (Gx Gy : List (List Int)) (p : Pixels) (i j : Int) : Int :=
  min 255 (|weighted_sum Gx p i j| + |weighted_sum Gy p i j|)

/-! ## Sample inputs -/

/-- A 2x2 image. -/
def sample2x2 : PGMImage := ⟨2, 2, 255, [[1, 2], [3, 4]]⟩

/-- A 4x4 image. -/
def sample4x4 : PGMImage :=
  ⟨4, 4, 255, [[1, 2, 3, 4], [5, 6, 7, 8], [9, 10, 11, 12], [13, 200, 15, 16]]⟩

/-- A 3x5 image (five rows of three pixels): neither dimension is even. -/
def sample3x5 : PGMImage :=
  ⟨3, 5, 255, [[7, 7, 7], [0, 255, 0], [9, 8, 7], [1, 2, 3], [4, 5, 6]]⟩

/-- The 5x5 image of constant value 100. -/
def flat5x5 : PGMImage := ⟨5, 5, 255, List.replicate 5 (List.replicate 5 100)⟩

/-- The eight neighbours of `(i, j)` in the order of the LBP offsets
`(-1,-1), (-1,0), (-1,1), (0,1), (1,1), (1,0), (1,-1), (0,-1)`. -/
def lbp_neighbours (p : Pixels) (i j : Int) : List Nat :=
  [pixelAt p (i - 1) (j - 1), pixelAt p (i - 1) j, pixelAt p (i - 1) (j + 1),
   pixelAt p i (j + 1), pixelAt p (i + 1) (j + 1), pixelAt p (i + 1) j,
   pixelAt p (i + 1) (j - 1), pixelAt p i (j - 1)]

/-- The code whose bit `7 - k` says whether the `k`-th entry of `bits` is set. -/
def code_of_bits (bits : List Bool) : Nat :=
  bits.foldl (fun acc b => 2 * acc + (if b then 1 else 0)) 0

/-- The LBP code of the neighbourhood of `(i, j)`. -/
def lbp_code_at (p : Pixels) (i j : Int) : Nat :=
  code_of_bits ((lbp_neighbours p i j).map (fun n => decide (n ≥ pixelAt p i j)))

/-- A 3x3 image with a bright centre and a dark border. -/
def bright_centre3x3 : PGMImage := ⟨3, 3, 255, [[0, 0, 0], [0, 5, 0], [0, 0, 0]]⟩

/-- The pixels `edge_tracking` may touch: rows `1..H-2`, columns `1..W-2`.
A position is (row, column). -/
def Interior (W H : Int) (p : Int × Int) : Prop :=
  0 < p.1 ∧ p.1 < H - 1 ∧ 0 < p.2 ∧ p.2 < W - 1

/-- Two different positions that are 8-adjacent. -/
def Adjacent8 (p q : Int × Int) : Prop :=
  p ≠ q ∧ q.1 - 1 ≤ p.1 ∧ p.1 ≤ q.1 + 1 ∧ q.2 - 1 ≤ p.2 ∧ p.2 ≤ q.2 + 1

/-- The number of cells of a buffer that hold the weak label 100. -/
def weak100 (e : Pixels) : Nat := (e.map (List.count 100)).sum

/-- One step of a promotion chain in a buffer of edge labels: to an
8-adjacent interior position that holds the weak label. -/
def WeakStep (e : Pixels) (W H : Int) (p q : Int × Int) : Prop :=
  Adjacent8 p q ∧ Interior W H q ∧ readPx e q.1 q.2 = some 100

/-- The buffer `e'` arises from `e` by promoting weak cells only: every cell
is unchanged, or was weak, is now 255, is interior and ends a chain of weak
steps that starts at `start`. -/
def Promoted (W H : Int) (e e' : Pixels) (start : Int × Int) : Prop :=
  ∀ p : Int × Int, readPx e' p.1 p.2 = readPx e p.1 p.2 ∨
    (readPx e p.1 p.2 = some 100 ∧ readPx e' p.1 p.2 = some 255 ∧ Interior W H p ∧
      Relation.ReflTransGen (WeakStep e W H) start p)

/-- No interior neighbour of `p` holds the weak label. -/
def Closed (W H : Int) (e : Pixels) (p : Int × Int) : Prop :=
  ∀ q : Int × Int, Adjacent8 p q → Interior W H q → readPx e q.1 q.2 ≠ some 100

/-- The label the classification loop of `hysteresis_thresholding` stores for
a suppressed value `v`. -/
def classify (high_thresh low_thresh : Int) (v : Nat) : Nat :=
  if (v : Int) ≥ high_thresh then 255 else if (v : Int) ≥ low_thresh then 100 else 0

/-- The value `m` is the maximum that `hysteresis_thresholding` computes: the
largest suppressed value, zero for a buffer without pixels. -/
def IsMaxOf (suppressed : Pixels) (m : Int) : Prop :=
  0 ≤ m ∧ (∀ a b v, readPx suppressed a b = some v → (v : Int) ≤ m) ∧
    (m = 0 ∨ ∃ a b v, readPx suppressed a b = some v ∧ (v : Int) = m)

/-- The label of a tracked cell after the final loop: weak becomes 0. -/
def demote (v : Nat) : Nat := if v = 100 then 0 else v

/-- The buffer `T` arises from the classified buffer `e0` by edge tracking:
every cell is unchanged, or was weak, is now 255, is interior and ends a
chain of weak steps that starts at an interior cell labelled 255 in `e0`. -/
def Tracked (W H : Int) (e0 T : Pixels) : Prop :=
  ∀ p : Int × Int, readPx T p.1 p.2 = readPx e0 p.1 p.2 ∨
    (readPx e0 p.1 p.2 = some 100 ∧ readPx T p.1 p.2 = some 255 ∧ Interior W H p ∧
      ∃ seed : Int × Int, Interior W H seed ∧ readPx e0 seed.1 seed.2 = some 255 ∧
        Relation.ReflTransGen (WeakStep e0 W H) seed p)

/-- One step of a promotion chain, on the suppressed values: to an
8-adjacent interior position whose value is weak (`low <= value < high`). -/
def SuppStep (suppressed : Pixels) (W H high low : Int) (p q : Int × Int) : Prop :=
  Adjacent8 p q ∧ Interior W H q ∧ low ≤ (pixelAt suppressed q.1 q.2 : Int) ∧
    (pixelAt suppressed q.1 q.2 : Int) < high

/-- The pixels that hysteresis keeps: the strong ones (`value >= high`), and
the weak interior ones joined to a strong interior pixel by a chain of
8-adjacent interior pixels that are weak after the first. -/
def IsEdge (suppressed : Pixels) (W H high low : Int) (p : Int × Int) : Prop :=
  (pixelAt suppressed p.1 p.2 : Int) ≥ high ∨
    (Interior W H p ∧ low ≤ (pixelAt suppressed p.1 p.2 : Int) ∧
      (pixelAt suppressed p.1 p.2 : Int) < high ∧
      ∃ seed : Int × Int, Interior W H seed ∧ (pixelAt suppressed seed.1 seed.2 : Int) ≥ high ∧
        Relation.ReflTransGen (SuppStep suppressed W H high low) seed p)

instance (p : Pixels) (H W : Nat) : Decidable (Shape p H W) := by
  unfold Shape; infer_instance

/-- The all-zero 3x3 buffer. -/
def zeros3x3 : Pixels := [[0, 0, 0], [0, 0, 0], [0, 0, 0]]

/-- A 5x5 buffer of suppressed magnitudes (maximum 200, thresholds 36 and
18): a strong interior pixel with a chain of weak ones, a strong and a weak
pixel on the border ring. -/
def suppressed5x5 : Pixels :=
  [[0, 0, 0, 0, 0], [0, 200, 20, 20, 0], [0, 0, 0, 20, 0], [0, 0, 0, 0, 0],
   [200, 20, 0, 0, 20]]

/-- A buffer of `H` rows of `W` `float`s. -/
def ShapeF (g : FloatGrid) (H W : Nat) : Prop :=
  g.length = H ∧ ∀ row ∈ g, row.length = W

instance (g : FloatGrid) (H W : Nat) : Decidable (ShapeF g H W) := by
  unfold ShapeF; infer_instance

/-- The `float` at `(i, j)`; zero outside the buffer. -/
def floatAt (g : FloatGrid) (i j : Int) : ℚ := (readF g i j).getD 0

/-- What the embedding uses of IEEE 754 arithmetic: rounding to a `float` is
monotone and leaves every integer of magnitude at most `2^24` unchanged (such
an integer is a `float`), and `sqrtf` is never negative. -/
def FloatOps.Sound (ops : FloatOps) : Prop :=
  (∀ x y : ℚ, x ≤ y → ops.fl x ≤ ops.fl y) ∧
    (∀ n : Int, |n| ≤ 2 ^ 24 → ops.fl (n : ℚ) = (n : ℚ)) ∧
    (∀ x : ℚ, 0 ≤ ops.sqrtf x)

/-- An instance of the floating-point operations, for evaluation: exact
results for `fl`, the integer square root, and the angle of the nearest
multiple of 45 degrees by the signs of the two arguments. -/
def sample_ops : FloatOps where
  fl := fun x => x
  sqrtf := fun x => ((Nat.sqrt (Rat.floor x).toNat : Nat) : ℚ)
  atan2f_degrees := fun gy gx =>
    if gy = 0 then (if gx < 0 then 180 else 0)
    else if gx = 0 then (if 0 < gy then 90 else -90)
    else if 0 < gy then (if 0 < gx then 45 else 135)
    else (if 0 < gx then -45 else -135)

/-- The Gaussian 5x5 kernel as the specification lists it. -/
def gaussian_kernel : List (List Int) :=
  [[2, 4, 5, 4, 2], [4, 9, 12, 9, 4], [5, 12, 15, 12, 5], [4, 9, 12, 9, 4], [2, 4, 5, 4, 2]]

/-- The 25 samples of the 5x5 neighbourhood of `(i, j)`, row by row. -/
def window5x5 (p : Pixels) (i j : Int) : List Nat :=
  [pixelAt p (i - 2) (j - 2), pixelAt p (i - 2) (j - 1), pixelAt p (i - 2) j,
   pixelAt p (i - 2) (j + 1), pixelAt p (i - 2) (j + 2),
   pixelAt p (i - 1) (j - 2), pixelAt p (i - 1) (j - 1), pixelAt p (i - 1) j,
   pixelAt p (i - 1) (j + 1), pixelAt p (i - 1) (j + 2),
   pixelAt p i (j - 2), pixelAt p i (j - 1), pixelAt p i j,
   pixelAt p i (j + 1), pixelAt p i (j + 2),
   pixelAt p (i + 1) (j - 2), pixelAt p (i + 1) (j - 1), pixelAt p (i + 1) j,
   pixelAt p (i + 1) (j + 1), pixelAt p (i + 1) (j + 2),
   pixelAt p (i + 2) (j - 2), pixelAt p (i + 2) (j - 1), pixelAt p (i + 2) j,
   pixelAt p (i + 2) (j + 1), pixelAt p (i + 2) (j + 2)]

/-- The integer sum of the 5x5 neighbourhood weighted by the Gaussian
kernel. -/
def gaussian_sum (p : Pixels) (i j : Int) : Int :=
  (List.zipWith (fun (w : Int) (v : Nat) => w * (v : Int)) gaussian_kernel.flatten
    (window5x5 p i j)).sum

/-- The Grid invariant of the specification: every row has exactly `width`
elements and every value lies in `[0, max_value]` (a sample is a natural
number, so the lower bound is built in). -/
def GridInvariant (img : PGMImage) : Prop :=
  (∀ row ∈ img.pixels, row.length = img.width.toNat) ∧
    ∀ row ∈ img.pixels, ∀ v ∈ row, (v : Int) ≤ img.max_val

instance (img : PGMImage) : Decidable (GridInvariant img) := by
  unfold GridInvariant; infer_instance

/-- The operation returns an image that satisfies the Grid invariant. -/
def PreservesGrid (result : Option PGMImage) : Prop :=
  ∃ out, result = some out ∧ GridInvariant out

/-- The operation returns an image that carries the input's `max_val`, whose
rows have exactly its width and whose values are bytes; it satisfies the Grid
invariant when the input's `max_val` is at least 255. -/
def KeepsRowsAndBytes (img : PGMImage) (result : Option PGMImage) : Prop :=
  ∃ out, result = some out ∧ out.max_val = img.max_val ∧
    (∀ row ∈ out.pixels, row.length = out.width.toNat) ∧
    (∀ row ∈ out.pixels, ∀ v ∈ row, v ≤ 255) ∧
    (255 ≤ img.max_val → GridInvariant out)

/-- A 3x3 image of maximum value 100 with a vertical step edge. -/
def dim_edge3x3 : PGMImage := ⟨3, 3, 100, [[0, 0, 100], [0, 0, 100], [0, 0, 100]]⟩

/-- The first direction-bucket condition of `non_maximum_suppression` (the
horizontal direction, 0 or 180 degrees), as the source writes it. -/
def bucket_0 (current_angle : ℚ) : Prop :=
  (current_angle ≥ 0 ∧ current_angle < 22.5) ∨ (current_angle ≥ 157.5 ∧ current_angle ≤ 180)

/-- The second direction-bucket condition (45 degrees). -/
def bucket_45 (current_angle : ℚ) : Prop := current_angle ≥ 22.5 ∧ current_angle < 67.5

/-- The third direction-bucket condition (90 degrees). -/
def bucket_90 (current_angle : ℚ) : Prop := current_angle ≥ 67.5 ∧ current_angle < 112.5

/-- The fourth direction-bucket condition (135 degrees). -/
def bucket_135 (current_angle : ℚ) : Prop := current_angle ≥ 112.5 ∧ current_angle < 157.5

instance (a : ℚ) : Decidable (bucket_0 a) := by unfold bucket_0; infer_instance

instance (a : ℚ) : Decidable (bucket_45 a) := by unfold bucket_45; infer_instance

instance (a : ℚ) : Decidable (bucket_90 a) := by unfold bucket_90; infer_instance

instance (a : ℚ) : Decidable (bucket_135 a) := by unfold bucket_135; infer_instance

/-- The positions of the two neighbours of `(i, j)` that lie along the
direction of the bucket of the angle: a selection among grid positions only,
with no placeholder. -/
def direction_neighbours (current_angle : ℚ) (i j : Int) : (Int × Int) × (Int × Int) :=
  if bucket_0 current_angle then ((i, j + 1), (i, j - 1))
  else if bucket_45 current_angle then ((i - 1, j + 1), (i + 1, j - 1))
  else if bucket_90 current_angle then ((i - 1, j), (i + 1, j))
  else ((i - 1, j - 1), (i + 1, j + 1))

/-- The value of non-maximum suppression at `(i, j)` when `q` and `r` are the
magnitudes of the two neighbours along the direction of the normalised angle:
the magnitude clamped to 255 and truncated if it is at least both, else 0. -/
def nms_value (ops : FloatOps) (mag angle : FloatGrid) (i j : Int) : Nat :=
  let n := direction_neighbours (normalize_angle ops (floatAt angle i j)) i j
  let m := floatAt mag i j
  if m ≥ floatAt mag n.1.1 n.1.2 ∧ m ≥ floatAt mag n.2.1 n.2.2 then
    (Rat.floor (min m 255)).toNat
  else 0

/-- A 3x3 buffer of magnitudes. -/
def sample_mag3x3 : FloatGrid := [[1, 2, 3], [4, 9, 6], [7, 8, 5]]

/-- A 3x3 buffer of angles in degrees. -/
def sample_angle3x3 : FloatGrid := [[0, 0, 0], [0, -45, 0], [0, 0, 0]]

/-- An image of width 8 and height 4: both are multiples of 4. -/
def sample8x4 : PGMImage :=
  ⟨8, 4, 255, [[1, 2, 3, 4, 5, 6, 7, 8], [9, 10, 11, 12, 13, 14, 15, 16],
    [17, 18, 19, 20, 21, 22, 23, 24], [25, 26, 27, 28, 29, 30, 31, 32]]⟩

/-! # Theorems -/


/-! ## Loop rules -/

theorem loopFrom_inv {σ : Type} (body : Int → σ → Option σ) (Inv : Int → σ → Prop) :
    ∀ (n : Nat) (i : Int) (s : σ), Inv i s →
      (∀ k t, i ≤ k → k < i + n → Inv k t → ∃ t', body k t = some t' ∧ Inv (k + 1) t') →
      ∃ s', loopFrom body n i s = some s' ∧ Inv (i + n) s' := by
  intro n
  induction n with
  | zero => intro i s h _; exact ⟨s, rfl, by simpa using h⟩
  | succ n ih =>
    intro i s h hstep
    obtain ⟨t, ht, hinv⟩ := hstep i s (le_refl _) (by omega) h
    obtain ⟨s', hs', hfin⟩ := ih (i + 1) t hinv
      (fun k u hk1 hk2 hu => hstep k u (by omega) (by push_cast; omega) hu)
    refine ⟨s', ?_, ?_⟩
    · simp [loopFrom, ht, hs']
    · have e : i + 1 + (n : Int) = i + ((n + 1 : Nat) : Int) := by push_cast; ring
      rw [← e]; exact hfin

theorem forLoop_empty {σ : Type} (lo hi : Int) (body : Int → σ → Option σ) (s : σ)
    (h : hi ≤ lo) : forLoop lo hi body s = some s := by
  have e : (hi - lo).toNat = 0 := by omega
  simp [forLoop, e, loopFrom]

theorem forLoop_inv {σ : Type} (lo hi : Int) (body : Int → σ → Option σ)
    (Inv : Int → σ → Prop) (s : σ) (hle : lo ≤ hi) (h0 : Inv lo s)
    (hstep : ∀ k t, lo ≤ k → k < hi → Inv k t → ∃ t', body k t = some t' ∧ Inv (k + 1) t') :
    ∃ s', forLoop lo hi body s = some s' ∧ Inv hi s' := by
  obtain ⟨s', hs', hfin⟩ := loopFrom_inv body Inv (hi - lo).toNat lo s h0
    (fun k t hk1 hk2 ht => hstep k t hk1 (by omega) ht)
  refine ⟨s', hs', ?_⟩
  have e : lo + ((hi - lo).toNat : Int) = hi := by omega
  rw [e] at hfin; exact hfin

/-! ## Reads and writes -/


theorem readPx_some_iff_of_shape {p : Pixels} {H W : Nat} (hp : Shape p H W) (i j : Int) :
    (∃ v, readPx p i j = some v) ↔ (0 ≤ i ∧ i < H ∧ 0 ≤ j ∧ j < W) := by
  obtain ⟨hlen, hrow⟩ := hp
  unfold readPx
  constructor
  · rintro ⟨v, hv⟩
    split at hv
    · rename_i hij
      split at hv
      · rename_i row hr
        have h1 := List.getElem?_eq_some_iff.mp hr
        obtain ⟨hlt, hget⟩ := h1
        have hmem : row ∈ p := hget ▸ List.getElem_mem hlt
        have h2 := List.getElem?_eq_some_iff.mp hv
        obtain ⟨hlt2, _⟩ := h2
        rw [hrow row hmem] at hlt2
        omega
      · simp at hv
    · simp at hv
  · rintro ⟨h1, h2, h3, h4⟩
    have hlt : i.toNat < p.length := by omega
    have hmem : p[i.toNat] ∈ p := List.getElem_mem hlt
    have hlt2 : j.toNat < (p[i.toNat]).length := by rw [hrow _ hmem]; omega
    refine ⟨(p[i.toNat])[j.toNat], ?_⟩
    simp [h1, h3, List.getElem?_eq_getElem hlt, List.getElem?_eq_getElem hlt2]

theorem writePx_spec {p : Pixels} {H W : Nat} (hp : Shape p H W) (i j : Int) (v : Nat)
    (hi0 : 0 ≤ i) (hi1 : i < H) (hj0 : 0 ≤ j) (hj1 : j < W) :
    ∃ p', writePx p i j v = some p' ∧ Shape p' H W ∧
      ∀ a b, readPx p' a b = if a = i ∧ b = j then some v else readPx p a b := by
  obtain ⟨hlen, hrow⟩ := hp
  have hlt : i.toNat < p.length := by omega
  have hmem : p[i.toNat] ∈ p := List.getElem_mem hlt
  have hlt2 : j.toNat < (p[i.toNat]).length := by rw [hrow _ hmem]; omega
  refine ⟨p.set i.toNat ((p[i.toNat]).set j.toNat v), ?_, ⟨?_, ?_⟩, ?_⟩
  · simp [writePx, hi0, hj0, List.getElem?_eq_getElem hlt, hlt2]
  · simp [hlen]
  · intro row hr
    rcases List.mem_or_eq_of_mem_set hr with h | h
    · exact hrow row h
    · rw [h, List.length_set]; exact hrow _ hmem
  · intro a b
    unfold readPx
    by_cases hab : 0 ≤ a ∧ 0 ≤ b
    · simp only [hab, and_self, if_true]
      by_cases hai : a = i
      · subst hai
        simp only [List.getElem?_set, if_true, hlt, true_and]
        by_cases hbj : b = j
        · subst hbj
          simp [hlt2]
        · have : ¬ j.toNat = b.toNat := by omega
          simp [hbj, this, List.getElem?_eq_getElem hlt]
      · have : ¬ i.toNat = a.toNat := by omega
        simp [hai, this, List.getElem?_set]
    · have : ¬ (a = i ∧ b = j) := by
        rintro ⟨rfl, rfl⟩; exact hab ⟨hi0, hj0⟩
      simp [hab, this]



/-- A row-major double loop that stores a value computed from its indices
alone into every pixel of a rectangle: the rectangle receives those values
and every other pixel keeps its old one. -/
theorem fill_rect {σ : Type} (proj : σ → Pixels) (P : σ → Prop)
    (body : Int → Int → σ → Option σ)
    (g : Int → Int → Nat) (r0 r1 c0 c1 : Int) (H W : Nat) (p0 : σ)
    (hp0 : Shape (proj p0) H W) (hP0 : P p0)
    (hr0 : 0 ≤ r0) (hr1 : r1 ≤ H) (hc0 : 0 ≤ c0) (hc1 : c1 ≤ W)
    (hbody : ∀ i j s, r0 ≤ i → i < r1 → c0 ≤ j → j < c1 → Shape (proj s) H W → P s →
      ∃ s', body i j s = some s' ∧ writePx (proj s) i j (g i j) = some (proj s') ∧ P s') :
    ∃ p', forLoop r0 r1 (fun i p => forLoop c0 c1 (fun j q => body i j q) p) p0 = some p' ∧
      P p' ∧ Shape (proj p') H W ∧
      ∀ a b, readPx (proj p') a b =
        if r0 ≤ a ∧ a < r1 ∧ c0 ≤ b ∧ b < c1 then some (g a b) else readPx (proj p0) a b := by
  by_cases hrows : r1 ≤ r0
  · refine ⟨p0, forLoop_empty _ _ _ _ hrows, hP0, hp0, ?_⟩
    intro a b
    have : ¬ (r0 ≤ a ∧ a < r1 ∧ c0 ≤ b ∧ b < c1) := by omega
    simp [this]
  · have hrows' : r0 ≤ r1 := by omega
    let Outer : Int → σ → Prop := fun i p =>
      P p ∧ Shape (proj p) H W ∧ ∀ a b, readPx (proj p) a b =
        if r0 ≤ a ∧ a < i ∧ c0 ≤ b ∧ b < c1 then some (g a b) else readPx (proj p0) a b
    have hout := forLoop_inv r0 r1 (fun i p => forLoop c0 c1 (fun j q => body i j q) p)
      Outer p0 hrows' ?_ ?_
    · obtain ⟨p', h1, h0, h2, h3⟩ := hout
      exact ⟨p', h1, h0, h2, h3⟩
    · refine ⟨hP0, hp0, ?_⟩
      intro a b
      have : ¬ (r0 ≤ a ∧ a < r0 ∧ c0 ≤ b ∧ b < c1) := by omega
      simp [this]
    · intro i p hi0 hi1 ⟨hPp, hshape, hread⟩
      by_cases hcols : c1 ≤ c0
      · refine ⟨p, forLoop_empty _ _ _ _ hcols, hPp, hshape, ?_⟩
        intro a b
        rw [hread a b]
        have h1 : ¬ (r0 ≤ a ∧ a < i ∧ c0 ≤ b ∧ b < c1) := by omega
        have h2 : ¬ (r0 ≤ a ∧ a < i + 1 ∧ c0 ≤ b ∧ b < c1) := by omega
        simp [h1, h2]
      · have hcols' : c0 ≤ c1 := by omega
        let Inner : Int → σ → Prop := fun j q =>
          P q ∧ Shape (proj q) H W ∧ ∀ a b, readPx (proj q) a b =
            if (r0 ≤ a ∧ a < i ∧ c0 ≤ b ∧ b < c1) ∨ (a = i ∧ c0 ≤ b ∧ b < j)
            then some (g a b) else readPx (proj p0) a b
        have hin := forLoop_inv c0 c1 (fun j q => body i j q) Inner p hcols' ?_ ?_
        · obtain ⟨q, h1, h0, h2, h3⟩ := hin
          refine ⟨q, h1, h0, h2, ?_⟩
          intro a b
          rw [h3 a b]
          by_cases hc : r0 ≤ a ∧ a < i + 1 ∧ c0 ≤ b ∧ b < c1
          · have : (r0 ≤ a ∧ a < i ∧ c0 ≤ b ∧ b < c1) ∨ (a = i ∧ c0 ≤ b ∧ b < c1) := by omega
            rw [if_pos hc, if_pos this]
          · have : ¬ ((r0 ≤ a ∧ a < i ∧ c0 ≤ b ∧ b < c1) ∨ (a = i ∧ c0 ≤ b ∧ b < c1)) := by
              omega
            rw [if_neg hc, if_neg this]
        · refine ⟨hPp, hshape, ?_⟩
          intro a b
          rw [hread a b]
          by_cases hc : r0 ≤ a ∧ a < i ∧ c0 ≤ b ∧ b < c1
          · rw [if_pos hc, if_pos (Or.inl hc)]
          · have : ¬ ((r0 ≤ a ∧ a < i ∧ c0 ≤ b ∧ b < c1) ∨ (a = i ∧ c0 ≤ b ∧ b < c0)) := by
              omega
            rw [if_neg hc, if_neg this]
        · intro j q hj0 hj1 ⟨hPq, hqs, hqr⟩
          obtain ⟨q', hw, hs', hr'⟩ :=
            writePx_spec hqs i j (g i j) (by omega) (by omega) (by omega) (by omega)
          obtain ⟨s', hb, hw', hPs⟩ := hbody i j q hi0 hi1 hj0 hj1 hqs hPq
          have hq' : proj s' = q' := by
            rw [hw] at hw'; exact (Option.some.inj hw').symm
          subst hq'
          refine ⟨s', hb, hPs, hs', ?_⟩
          · intro a b
            rw [hr' a b]
            by_cases hab : a = i ∧ b = j
            · obtain ⟨rfl, rfl⟩ := hab
              have : (r0 ≤ a ∧ a < a ∧ c0 ≤ b ∧ b < c1) ∨ (a = a ∧ c0 ≤ b ∧ b < b + 1) := by
                omega
              rw [if_pos ⟨rfl, rfl⟩, if_pos this]
            · rw [if_neg hab, hqr a b]
              by_cases hc : (r0 ≤ a ∧ a < i ∧ c0 ≤ b ∧ b < c1) ∨ (a = i ∧ c0 ≤ b ∧ b < j)
              · have : (r0 ≤ a ∧ a < i ∧ c0 ≤ b ∧ b < c1) ∨ (a = i ∧ c0 ≤ b ∧ b < j + 1) := by
                  omega
                rw [if_pos hc, if_pos this]
              · have : ¬ ((r0 ≤ a ∧ a < i ∧ c0 ≤ b ∧ b < c1) ∨
                    (a = i ∧ c0 ≤ b ∧ b < j + 1)) := by omega
                rw [if_neg hc, if_neg this]



/-! ## Shapes of the buffers the program builds -/

theorem shape_of_wellFormed {img : PGMImage} (h : WellFormed img) :
    Shape img.pixels img.height.toNat img.width.toNat :=
  ⟨h.2.2.1, fun row hr => (h.2.2.2 row hr).1⟩

theorem shape_replicate (H W : Nat) : Shape (List.replicate H (List.replicate W 0)) H W := by
  refine ⟨by simp, ?_⟩
  intro row hr
  rw [List.eq_of_mem_replicate hr]; simp

theorem shape_create_new_image (original : PGMImage) (new_w new_h : Int) :
    Shape (create_new_image original new_w new_h).pixels new_h.toNat new_w.toNat :=
  shape_replicate _ _

/-- Every pixel of a freshly created image reads as zero. -/
theorem readPx_replicate (H W : Nat) (i j : Int) (hi0 : 0 ≤ i) (hi1 : i < H) (hj0 : 0 ≤ j)
    (hj1 : j < W) : readPx (List.replicate H (List.replicate W 0)) i j = some 0 := by
  have h1 : i.toNat < H := by omega
  have h2 : j.toNat < W := by omega
  simp [readPx, hi0, hj0, List.getElem?_replicate, h1, h2]

/-- Two buffers of the same shape that read alike are equal. -/
theorem pixels_ext {p q : Pixels} {H W : Nat} (hp : Shape p H W) (hq : Shape q H W)
    (h : ∀ i j : Int, 0 ≤ i → i < H → 0 ≤ j → j < W → readPx p i j = readPx q i j) :
    p = q := by
  apply List.ext_getElem (by rw [hp.1, hq.1])
  intro n h1 h2
  have hpr : (p[n]).length = W := hp.2 _ (List.getElem_mem h1)
  have hqr : (q[n]).length = W := hq.2 _ (List.getElem_mem h2)
  apply List.ext_getElem (by rw [hpr, hqr])
  intro m h3 h4
  have := h (n : Int) (m : Int) (by omega) (by rw [hp.1] at h1; omega) (by omega)
    (by rw [hpr] at h3; omega)
  simp only [readPx, Int.toNat_ofNat, List.getElem?_eq_getElem h1,
    List.getElem?_eq_getElem h2, List.getElem?_eq_getElem h3, List.getElem?_eq_getElem h4] at this
  simpa using this

/-! ## Zoom and shrink -/

/-- The zoom loop into a buffer of `H` rows of `W` bytes: it succeeds as soon
as every index it derives lies inside the original, and then each output
pixel holds the original pixel at the quotient indices. -/
theorem nearest_neighbor_zoom_spec (original new_img : PGMImage) (factor : Int)
    (horig : WellFormed original) (hf : 1 ≤ factor)
    (hnew : Shape new_img.pixels new_img.height.toNat new_img.width.toNat)
    (hh : new_img.height ≤ original.height * factor)
    (hw : new_img.width ≤ original.width * factor) :
    ∃ out, nearest_neighbor_zoom original new_img factor = some out ∧
      out.width = new_img.width ∧ out.height = new_img.height ∧
      out.max_val = new_img.max_val ∧
      Shape out.pixels new_img.height.toNat new_img.width.toNat ∧
      ∀ i j, 0 ≤ i → i < new_img.height → 0 ≤ j → j < new_img.width →
        ∃ v, readPx out.pixels i j = some v ∧
          readPx original.pixels (i / factor) (j / factor) = some v := by
  have hos := shape_of_wellFormed horig
  have key : ∀ i j, 0 ≤ i → i < new_img.height → 0 ≤ j → j < new_img.width →
      ∃ v, readPx original.pixels (i / factor) (j / factor) = some v := by
    intro i j hi0 hi1 hj0 hj1
    apply (readPx_some_iff_of_shape hos _ _).mpr
    have hfpos : 0 < factor := by omega
    have h1 : i / factor < original.height :=
      (Int.ediv_lt_iff_lt_mul hfpos).mpr (by omega)
    have h2 : j / factor < original.width :=
      (Int.ediv_lt_iff_lt_mul hfpos).mpr (by omega)
    have h3 : 0 ≤ i / factor := Int.ediv_nonneg hi0 (by omega)
    have h4 : 0 ≤ j / factor := Int.ediv_nonneg hj0 (by omega)
    omega
  obtain ⟨p', hrun, -, hshape, hread⟩ := fill_rect (fun p : Pixels => p) (fun _ => True)
    (fun i_new j_new px =>
      if factor = 0 then none
      else
        let i_orig := Int.tdiv i_new factor
        let j_orig := Int.tdiv j_new factor
        (readPx original.pixels i_orig j_orig).bind (fun v => writePx px i_new j_new v))
    (fun i j => (readPx original.pixels (i / factor) (j / factor)).getD 0)
    0 new_img.height 0 new_img.width new_img.height.toNat new_img.width.toNat
    new_img.pixels hnew trivial (le_refl _) (by omega) (le_refl _) (by omega)
    (by
      intro i j s hi0 hi1 hj0 hj1 _ _
      obtain ⟨v, hv⟩ := key i j hi0 hi1 hj0 hj1
      have hne : factor ≠ 0 := by omega
      have e1 : Int.tdiv i factor = i / factor := Int.tdiv_eq_ediv hi0 (by omega)
      have e2 : Int.tdiv j factor = j / factor := Int.tdiv_eq_ediv hj0 (by omega)
      obtain ⟨q, hq, -, -⟩ := writePx_spec (p := s) (by assumption) i j v hi0 (by omega) hj0
        (by omega)
      refine ⟨q, ?_, ?_, trivial⟩
      · simp [hne, e1, e2, hv, hq]
      · simp [hv, hq])
  refine ⟨{ new_img with pixels := p' }, ?_, rfl, rfl, rfl, hshape, ?_⟩
  · simp only [nearest_neighbor_zoom]
    rw [hrun]; rfl
  · intro i j hi0 hi1 hj0 hj1
    obtain ⟨v, hv⟩ := key i j hi0 hi1 hj0 hj1
    refine ⟨v, ?_, hv⟩
    show readPx p' i j = some v
    rw [hread i j, if_pos ⟨hi0, hi1, hj0, hj1⟩, hv]; rfl


/-- The shrink loop into a buffer of `H` rows of `W` bytes: it succeeds as
soon as every index it derives lies inside the original, and then each output
pixel holds the original pixel at the multiplied indices. -/
theorem subsample_shrink_spec (original new_img : PGMImage) (factor : Int)
    (horig : WellFormed original) (hf : 1 ≤ factor)
    (hnew : Shape new_img.pixels new_img.height.toNat new_img.width.toNat)
    (hh : new_img.height ≤ original.height / factor)
    (hw : new_img.width ≤ original.width / factor) :
    ∃ out, subsample_shrink original new_img factor = some out ∧
      out.width = new_img.width ∧ out.height = new_img.height ∧
      out.max_val = new_img.max_val ∧
      Shape out.pixels new_img.height.toNat new_img.width.toNat ∧
      ∀ i j, 0 ≤ i → i < new_img.height → 0 ≤ j → j < new_img.width →
        ∃ v, readPx out.pixels i j = some v ∧
          readPx original.pixels (i * factor) (j * factor) = some v := by
  have hos := shape_of_wellFormed horig
  have hfpos : 0 < factor := by omega
  have bound : ∀ (x n m : Int), 0 ≤ x → x < n → n ≤ m / factor → x * factor < m := by
    intro x n m hx0 hx1 hn
    have h1 : (x + 1) * factor ≤ (m / factor) * factor :=
      Int.mul_le_mul_of_nonneg_right (by omega) (by omega)
    have h2 : (m / factor) * factor ≤ m := Int.ediv_mul_le m (by omega)
    have h3 : (x + 1) * factor = x * factor + factor := by ring
    omega
  have key : ∀ i j, 0 ≤ i → i < new_img.height → 0 ≤ j → j < new_img.width →
      ∃ v, readPx original.pixels (i * factor) (j * factor) = some v := by
    intro i j hi0 hi1 hj0 hj1
    apply (readPx_some_iff_of_shape hos _ _).mpr
    have h1 := bound i _ _ hi0 hi1 hh
    have h2 := bound j _ _ hj0 hj1 hw
    have h3 : 0 ≤ i * factor := Int.mul_nonneg hi0 (by omega)
    have h4 : 0 ≤ j * factor := Int.mul_nonneg hj0 (by omega)
    have h5 : 0 ≤ original.height := horig.2.1
    have h6 : 0 ≤ original.width := horig.1
    omega
  obtain ⟨p', hrun, -, hshape, hread⟩ := fill_rect (fun p : Pixels => p) (fun _ => True)
    (fun i_new j_new px =>
      let i_orig := i_new * factor
      let j_orig := j_new * factor
      (readPx original.pixels i_orig j_orig).bind (fun v => writePx px i_new j_new v))
    (fun i j => (readPx original.pixels (i * factor) (j * factor)).getD 0)
    0 new_img.height 0 new_img.width new_img.height.toNat new_img.width.toNat
    new_img.pixels hnew trivial (le_refl _) (by omega) (le_refl _) (by omega)
    (by
      intro i j s hi0 hi1 hj0 hj1 hs _
      obtain ⟨v, hv⟩ := key i j hi0 hi1 hj0 hj1
      obtain ⟨q, hq, -, -⟩ := writePx_spec hs i j v hi0 (by omega) hj0 (by omega)
      refine ⟨q, ?_, ?_, trivial⟩
      · simp [hv, hq]
      · simp [hv, hq])
  refine ⟨{ new_img with pixels := p' }, ?_, rfl, rfl, rfl, hshape, ?_⟩
  · simp only [subsample_shrink]
    rw [hrun]; rfl
  · intro i j hi0 hi1 hj0 hj1
    obtain ⟨v, hv⟩ := key i j hi0 hi1 hj0 hj1
    refine ⟨v, ?_, hv⟩
    show readPx p' i j = some v
    rw [hread i j, if_pos ⟨hi0, hi1, hj0, hj1⟩, hv]; rfl

/-- Zooming by `f` and then shrinking by `f` gives the original back. -/
theorem zoom_then_shrink (G : PGMImage) (f : Int) (hG : WellFormed G) (hf : 1 ≤ f) :
    ∃ Z, nearest_neighbor_zoom G (create_new_image G (G.width * f) (G.height * f)) f = some Z ∧
      subsample_shrink Z (create_new_image Z (Int.tdiv Z.width f) (Int.tdiv Z.height f)) f
        = some G := by
  have hw0 : 0 ≤ G.width := hG.1
  have hh0 : 0 ≤ G.height := hG.2.1
  have hfne : f ≠ 0 := by omega
  obtain ⟨Z, hZ, hZw, hZh, hZm, hZs, hZr⟩ := nearest_neighbor_zoom_spec G
    (create_new_image G (G.width * f) (G.height * f)) f hG hf
    (shape_create_new_image _ _ _) (le_refl _) (le_refl _)
  have hZw' : Z.width = G.width * f := hZw
  have hZh' : Z.height = G.height * f := hZh
  have hZm' : Z.max_val = G.max_val := hZm
  have hZs' : Shape Z.pixels (G.height * f).toNat (G.width * f).toNat := hZs
  have hZwf : WellFormed Z := by
    refine ⟨?_, ?_, ?_, ?_⟩
    · rw [hZw']; exact Int.mul_nonneg hw0 (by omega)
    · rw [hZh']; exact Int.mul_nonneg hh0 (by omega)
    · rw [hZh']; exact hZs'.1
    · intro row hr
      refine ⟨by rw [hZw']; exact hZs'.2 row hr, ?_⟩
      intro v hv
      obtain ⟨n, hn, hrow⟩ := List.mem_iff_getElem.mp hr
      obtain ⟨m, hm, hval⟩ := List.mem_iff_getElem.mp hv
      have hrl : row.length = (G.width * f).toNat := hZs'.2 row hr
      have hn' : n < (G.height * f).toNat := by rw [← hZs'.1]; exact hn
      have hnn : 0 ≤ G.height * f := Int.mul_nonneg hh0 (by omega)
      have hmm : 0 ≤ G.width * f := Int.mul_nonneg hw0 (by omega)
      obtain ⟨x, hx1, hx2⟩ := hZr (n : Int) (m : Int) (by omega)
        (by show (n : Int) < G.height * f; omega) (by omega)
        (by show (m : Int) < G.width * f; omega)
      have hxv : x = v := by
        have : readPx Z.pixels (n : Int) (m : Int) = some v := by
          subst hrow
          simp [readPx, List.getElem?_eq_getElem hn, List.getElem?_eq_getElem hm, hval]
        rw [this] at hx1; exact (Option.some.inj hx1).symm
      subst hxv
      -- the value comes from a pixel of `G`
      unfold readPx at hx2
      split at hx2
      · split at hx2
        · rename_i row' hr'
          have hin : row' ∈ G.pixels := List.getElem?_mem hr'
          exact (hG.2.2.2 row' hin).2 x (List.getElem?_mem hx2)
        · simp at hx2
      · simp at hx2
  have e1 : Int.tdiv Z.width f = G.width := by
    rw [hZw', Int.tdiv_eq_ediv (Int.mul_nonneg hw0 (by omega)) (by omega),
      Int.mul_ediv_cancel _ hfne]
  have e2 : Int.tdiv Z.height f = G.height := by
    rw [hZh', Int.tdiv_eq_ediv (Int.mul_nonneg hh0 (by omega)) (by omega),
      Int.mul_ediv_cancel _ hfne]
  obtain ⟨S, hS, hSw, hSh, hSm, hSs, hSr⟩ := subsample_shrink_spec Z
    (create_new_image Z G.width G.height) f hZwf hf (shape_create_new_image _ _ _)
    (by show G.height ≤ Z.height / f; rw [hZh', Int.mul_ediv_cancel _ hfne])
    (by show G.width ≤ Z.width / f; rw [hZw', Int.mul_ediv_cancel _ hfne])
  refine ⟨Z, hZ, ?_⟩
  rw [e1, e2, hS]
  have hpix : S.pixels = G.pixels := by
    apply pixels_ext (H := G.height.toNat) (W := G.width.toNat) hSs (shape_of_wellFormed hG)
    intro i j hi0 hi1 hj0 hj1
    obtain ⟨v, hv1, hv2⟩ := hSr i j hi0 (by show i < G.height; omega) hj0
      (by show j < G.width; omega)
    have hif : 0 ≤ i * f := Int.mul_nonneg hi0 (by omega)
    have hjf : 0 ≤ j * f := Int.mul_nonneg hj0 (by omega)
    obtain ⟨u, hu1, hu2⟩ := hZr (i * f) (j * f) hif
      (by show i * f < G.height * f
          exact Int.mul_lt_mul_of_pos_right (by omega) (by omega)) hjf
      (by show j * f < G.width * f
          exact Int.mul_lt_mul_of_pos_right (by omega) (by omega))
    rw [Int.mul_ediv_cancel _ hfne, Int.mul_ediv_cancel _ hfne] at hu2
    rw [hv1, hu2, ← hu1, hv2]
  cases S with
  | mk w h m p =>
    cases G with
    | mk w' h' m' p' =>
      simp only [PGMImage.mk.injEq] at *
      exact congrArg some (by
        simp only [PGMImage.mk.injEq]
        exact ⟨hSw, hSh, hSm.trans hZm', hpix⟩)

/-! ## Deep copy -/

/-- The deep copy of a loaded image succeeds and equals the image. -/
theorem deep_copy_image_spec (original : PGMImage) (h : WellFormed original) :
    deep_copy_image original = some original := by
  obtain ⟨hw0, hh0, hlen, hrows⟩ := h
  let Inv : Int → Pixels → Prop := fun i px =>
    px.length = original.height.toNat ∧
      ∀ n : Nat, n < original.height.toNat →
        px[n]? = if (n : Int) < i then original.pixels[n]?
          else some (List.replicate original.width.toNat 0)
  obtain ⟨px, hrun, hl, hpx⟩ := forLoop_inv 0 original.height
    (fun i px =>
      if 0 ≤ i then
        match px[i.toNat]?, original.pixels[i.toNat]? with
        | some dst, some src =>
          (memcpy_row dst src original.width).map (fun row => px.set i.toNat row)
        | _, _ => none
      else none)
    Inv (create_new_image original original.width original.height).pixels hh0
    (by
      refine ⟨by simp [create_new_image], ?_⟩
      intro n hn
      have : ¬ ((n : Int) < 0) := by omega
      simp [create_new_image, List.getElem?_replicate, hn, this])
    (by
      intro k px hk0 hk1 ⟨hpl, hpr⟩
      have hkn : k.toNat < original.height.toNat := by omega
      have hdst := hpr k.toNat hkn
      have hnot : ¬ (((k.toNat : Nat) : Int) < k) := by omega
      rw [if_neg hnot] at hdst
      have hklt : k.toNat < original.pixels.length := by omega
      have hsrc : original.pixels[k.toNat]? = some (original.pixels[k.toNat]) :=
        List.getElem?_eq_getElem hklt
      have hsl : (original.pixels[k.toNat]).length = original.width.toNat :=
        (hrows _ (List.getElem_mem hklt)).1
      have hcopy : memcpy_row (List.replicate original.width.toNat 0)
          (original.pixels[k.toNat]) original.width = some (original.pixels[k.toNat]) := by
        unfold memcpy_row
        rw [if_pos ⟨hw0, by simp, by omega⟩]
        have e1 : List.take original.width.toNat (original.pixels[k.toNat])
            = original.pixels[k.toNat] := List.take_of_length_le (by omega)
        have e2 : List.drop original.width.toNat (List.replicate original.width.toNat 0)
            = [] := List.drop_of_length_le (by simp)
        rw [e1, e2, List.append_nil]
      refine ⟨px.set k.toNat (original.pixels[k.toNat]), ?_, ?_, ?_⟩
      · simp only [hk0, if_true, hdst, hsrc, hcopy, Option.map_some']
      · simp [hpl]
      · intro n hn
        rw [List.getElem?_set]
        by_cases hkn' : k.toNat = n
        · have : (n : Int) < k + 1 := by omega
          rw [if_pos hkn', if_pos this, if_pos (by omega), ← hkn', hsrc]
        · rw [if_neg hkn', hpr n hn]
          by_cases hlt : (n : Int) < k
          · rw [if_pos hlt, if_pos (by omega)]
          · rw [if_neg hlt, if_neg (by omega)])
  have hfin : px = original.pixels := by
    apply List.ext_getElem? 
    intro n
    by_cases hn : n < original.height.toNat
    · rw [hpx n hn, if_pos (by omega)]
    · rw [List.getElem?_eq_none (by omega), List.getElem?_eq_none (by omega)]
  unfold deep_copy_image
  simp only []
  rw [hrun, hfin]
  rfl

/-! ## 3x3 neighbourhoods -/

/-- The loops `for (k = -1; k <= 1; k++)` run their body for `-1`, `0`, `1`. -/
theorem forLoop_offsets {σ : Type} (body : Int → σ → Option σ) (s : σ) :
    forLoop (-1) (1 + 1) body s
      = (body (-1) s).bind (fun s1 => (body 0 s1).bind (fun s2 => body 1 s2)) := by
  have e : ((1 : Int) + 1 - -1).toNat = 3 := by decide
  have a : (-1 : Int) + 1 = 0 := rfl
  have b : (0 : Int) + 1 = 1 := rfl
  simp only [forLoop, e, loopFrom, a, b, Option.bind_some]

theorem readPx_eq_pixelAt {p : Pixels} {H W : Nat} (hp : Shape p H W) (i j : Int)
    (hi0 : 0 ≤ i) (hi1 : i < H) (hj0 : 0 ≤ j) (hj1 : j < W) :
    readPx p i j = some (pixelAt p i j) := by
  obtain ⟨v, hv⟩ := (readPx_some_iff_of_shape hp i j).mpr ⟨hi0, hi1, hj0, hj1⟩
  simp [pixelAt, hv]

/-- Every sample of a loaded image is a byte. -/
theorem pixelAt_lt {img : PGMImage} (h : WellFormed img) (i j : Int) :
    pixelAt img.pixels i j < 256 := by
  unfold pixelAt
  cases hr : readPx img.pixels i j with
  | none => simp
  | some v =>
    simp only [Option.getD_some]
    unfold readPx at hr
    split at hr
    · split at hr
      · rename_i row hrow
        exact (h.2.2.2 row (List.getElem?_mem hrow)).2 v (List.getElem?_mem hr)
      · simp at hr
    · simp at hr

/-- The nine reads of a 3x3 neighbourhood that lies inside the buffer. -/
theorem reads3x3 {p : Pixels} {H W : Nat} (hp : Shape p H W) (i j : Int)
    (hi0 : 1 ≤ i) (hi1 : i + 1 < H) (hj0 : 1 ≤ j) (hj1 : j + 1 < W) :
    ∀ k l : Int, -1 ≤ k → k ≤ 1 → -1 ≤ l → l ≤ 1 →
      readPx p (i + k) (j + l) = some (pixelAt p (i + k) (j + l)) := by
  intro k l hk0 hk1 hl0 hl1
  exact readPx_eq_pixelAt hp _ _ (by omega) (by omega) (by omega) (by omega)

/-- The summation loops of `average_filter` at an interior pixel. -/
theorem average_sum (p : Pixels) {H W : Nat} (hp : Shape p H W) (i j : Int)
    (hi0 : 1 ≤ i) (hi1 : i + 1 < H) (hj0 : 1 ≤ j) (hj1 : j + 1 < W) :
    forLoop (-1) (1 + 1) (fun k sum =>
        forLoop (-1) (1 + 1) (fun l sum =>
          (readPx p (i + k) (j + l)).map (fun (v : Nat) => sum + (v : Int)))
          sum)
      (0 : Int) = some (((window3x3 p i j).sum : Nat) : Int) := by
  have hr := reads3x3 hp i j hi0 hi1 hj0 hj1
  simp only [forLoop_offsets]
  rw [hr (-1) (-1) (by omega) (by omega) (by omega) (by omega),
    hr (-1) 0 (by omega) (by omega) (by omega) (by omega),
    hr (-1) 1 (by omega) (by omega) (by omega) (by omega),
    hr 0 (-1) (by omega) (by omega) (by omega) (by omega),
    hr 0 0 (by omega) (by omega) (by omega) (by omega),
    hr 0 1 (by omega) (by omega) (by omega) (by omega),
    hr 1 (-1) (by omega) (by omega) (by omega) (by omega),
    hr 1 0 (by omega) (by omega) (by omega) (by omega),
    hr 1 1 (by omega) (by omega) (by omega) (by omega)]
  simp only [Option.map_some', Option.bind, window3x3, List.sum_cons, List.sum_nil]
  have e1 : i + -1 = i - 1 := by ring
  have e2 : j + -1 = j - 1 := by ring
  rw [e1, e2, add_zero, add_zero]
  congr 1
  push_cast
  ring

/-- The rectangle rule for a loop whose state is the output buffer alone. -/
theorem fill_rect_pixels (body : Int → Int → Pixels → Option Pixels) (g : Int → Int → Nat)
    (r0 r1 c0 c1 : Int) (H W : Nat) (p0 : Pixels) (hp0 : Shape p0 H W)
    (hr0 : 0 ≤ r0) (hr1 : r1 ≤ H) (hc0 : 0 ≤ c0) (hc1 : c1 ≤ W)
    (hbody : ∀ i j s, r0 ≤ i → i < r1 → c0 ≤ j → j < c1 → Shape s H W →
      body i j s = writePx s i j (g i j)) :
    ∃ p', forLoop r0 r1 (fun i p => forLoop c0 c1 (fun j q => body i j q) p) p0 = some p' ∧
      Shape p' H W ∧
      ∀ a b, readPx p' a b =
        if r0 ≤ a ∧ a < r1 ∧ c0 ≤ b ∧ b < c1 then some (g a b) else readPx p0 a b := by
  obtain ⟨p', h1, -, h2, h3⟩ := fill_rect (fun p : Pixels => p) (fun _ => True) body g
    r0 r1 c0 c1 H W p0 hp0 trivial hr0 hr1 hc0 hc1
    (by
      intro i j s hi0 hi1 hj0 hj1 hs _
      obtain ⟨q, hq, -, -⟩ := writePx_spec hs i j (g i j) (by omega) (by omega) (by omega)
        (by omega)
      exact ⟨q, by rw [hbody i j s hi0 hi1 hj0 hj1 hs, hq], hq, trivial⟩)
  exact ⟨p', h1, h2, h3⟩

/-! ## Average filter -/

/-- What `average_filter` returns on a loaded image: the interior pixels
hold the converted quotient of the neighbourhood sum of the original, every
other pixel is the original one. -/
theorem average_filter_spec (original : PGMImage) (h : WellFormed original) :
    ∃ out, average_filter original = some out ∧
      out.width = original.width ∧ out.height = original.height ∧
      out.max_val = original.max_val ∧
      Shape out.pixels original.height.toNat original.width.toNat ∧
      ∀ a b, readPx out.pixels a b =
        if 1 ≤ a ∧ a < original.height - 1 ∧ 1 ≤ b ∧ b < original.width - 1 then
          some (to_uchar (Int.tdiv (((window3x3 original.pixels a b).sum : Nat) : Int) 9))
        else readPx original.pixels a b := by
  have hs := shape_of_wellFormed h
  have hw0 : 0 ≤ original.width := h.1
  have hh0 : 0 ≤ original.height := h.2.1
  obtain ⟨p', hrun, hshape, hread⟩ := fill_rect_pixels
    (fun i j px =>
      (forLoop (-1) (1 + 1) (fun k sum =>
          forLoop (-1) (1 + 1) (fun l sum =>
            (readPx original.pixels (i + k) (j + l)).map (fun (v : Nat) => sum + (v : Int)))
            sum)
        (0 : Int)).bind
        (fun sum => writePx px i j (to_uchar (Int.tdiv sum 9))))
    (fun a b => to_uchar (Int.tdiv (((window3x3 original.pixels a b).sum : Nat) : Int) 9))
    1 (original.height - 1) 1 (original.width - 1)
    original.height.toNat original.width.toNat original.pixels hs
    (by omega) (by omega) (by omega) (by omega)
    (by
      intro i j s hi0 hi1 hj0 hj1 _
      simp only []
      rw [average_sum original.pixels hs i j hi0 (by omega) hj0 (by omega)]
      rfl)
  refine ⟨{ original with pixels := p' }, ?_, rfl, rfl, rfl, hshape, hread⟩
  unfold average_filter
  rw [deep_copy_image_spec original h]
  simp only [Option.some_bind]
  rw [hrun]
  rfl

/-- The quotient stored by `average_filter` is the truncated mean and needs
no reduction modulo 256. -/
theorem average_value {img : PGMImage} (h : WellFormed img) (i j : Int) :
    Int.tdiv (((window3x3 img.pixels i j).sum : Nat) : Int) 9
        = (((window3x3 img.pixels i j).sum / 9 : Nat) : Int) ∧
      (window3x3 img.pixels i j).sum / 9 < 256 ∧
      to_uchar (Int.tdiv (((window3x3 img.pixels i j).sum : Nat) : Int) 9)
        = (window3x3 img.pixels i j).sum / 9 := by
  have hlt : (window3x3 img.pixels i j).sum / 9 < 256 := by
    have b1 := pixelAt_lt h (i - 1) (j - 1)
    have b2 := pixelAt_lt h (i - 1) j
    have b3 := pixelAt_lt h (i - 1) (j + 1)
    have b4 := pixelAt_lt h i (j - 1)
    have b5 := pixelAt_lt h i j
    have b6 := pixelAt_lt h i (j + 1)
    have b7 := pixelAt_lt h (i + 1) (j - 1)
    have b8 := pixelAt_lt h (i + 1) j
    have b9 := pixelAt_lt h (i + 1) (j + 1)
    simp only [window3x3, List.sum_cons, List.sum_nil]
    omega
  have e : Int.tdiv (((window3x3 img.pixels i j).sum : Nat) : Int) 9
      = (((window3x3 img.pixels i j).sum / 9 : Nat) : Int) := by
    rw [Int.tdiv_eq_ediv (by omega) (by omega)]
    norm_cast
  refine ⟨e, hlt, ?_⟩
  rw [e]
  unfold to_uchar
  omega

/-! ## The exchange sort of nine samples -/

theorem swap_perm (l : List Nat) (i j : Nat) (hi : i < l.length) (hj : j < l.length) :
    ((l.set i l[j]).set j l[i]).Perm l := by
  rw [List.perm_iff_count]
  intro b
  have hj' : j < (l.set i l[j]).length := by simpa using hj
  rw [List.count_set _ _ _ _ hj', List.count_set _ _ _ _ hi]
  have e : (l.set i l[j])[j] = l[j] := by
    rw [List.getElem_set]; split <;> rfl
  rw [e]
  have h1 : (if (l[i] == b) = true then 1 else 0) ≤ List.count b l := by
    split
    · rename_i hb
      have : l[i] = b := by simpa using hb
      exact List.count_pos_iff.mpr (this ▸ List.getElem_mem hi)
    · omega
  omega

theorem getD_set (l : List Nat) (i n v : Nat) :
    (l.set i v).getD n 0 = if i = n ∧ i < l.length then v else l.getD n 0 := by
  rw [List.getD_eq_getElem?_getD, List.getD_eq_getElem?_getD, List.getElem?_set]
  by_cases h : i = n
  · subst h
    by_cases h2 : i < l.length
    · simp [h2]
    · simp [h2, List.getElem?_eq_none (Nat.le_of_not_lt h2)]
  · simp [h]

/-- One compare-and-exchange of `sort_nine`: afterwards `arr[i] <= arr[j]`,
the two cells hold the two old values, every other cell is untouched. -/
theorem exchange_step (arr : List Nat) (i j : Int) (hi : 0 ≤ i) (hij : i < j)
    (hj : j < arr.length) :
    ∃ arr', (match readAt arr i, readAt arr j with
        | some ai, some aj =>
          if ai > aj then
            let temp := ai
            (writeAt arr i aj).bind (fun arr => writeAt arr j temp)
          else some arr
        | _, _ => none) = some arr' ∧
      arr'.length = arr.length ∧ arr'.Perm arr ∧
      (∀ n, n ≠ i.toNat → n ≠ j.toNat → arr'.getD n 0 = arr.getD n 0) ∧
      arr'.getD i.toNat 0 ≤ arr'.getD j.toNat 0 ∧
      (arr'.getD i.toNat 0 = arr.getD i.toNat 0 ∨ arr'.getD i.toNat 0 = arr.getD j.toNat 0) ∧
      (arr'.getD j.toNat 0 = arr.getD i.toNat 0 ∨ arr'.getD j.toNat 0 = arr.getD j.toNat 0) ∧
      arr'.getD i.toNat 0 ≤ arr.getD i.toNat 0 := by
  have hin : i.toNat < arr.length := by omega
  have hjn : j.toNat < arr.length := by omega
  have hne : i.toNat ≠ j.toNat := by omega
  have hj0 : 0 ≤ j := by omega
  have ri : readAt arr i = some arr[i.toNat] := by
    simp [readAt, hi, List.getElem?_eq_getElem hin]
  have rj : readAt arr j = some arr[j.toNat] := by
    simp [readAt, hj0, List.getElem?_eq_getElem hjn]
  have gi : arr.getD i.toNat 0 = arr[i.toNat] := List.getD_eq_getElem _ _ hin
  have gj : arr.getD j.toNat 0 = arr[j.toNat] := List.getD_eq_getElem _ _ hjn
  rw [ri, rj]
  by_cases hgt : arr[i.toNat] > arr[j.toNat]
  · refine ⟨(arr.set i.toNat arr[j.toNat]).set j.toNat arr[i.toNat], ?_, ?_, ?_, ?_, ?_, ?_, ?_, ?_⟩
    · simp only [hgt, if_true, writeAt, hi, hin, hj0, true_and, Option.some_bind,
        List.length_set, hjn]
    · simp
    · exact swap_perm arr _ _ hin hjn
    · intro n h1 h2
      rw [getD_set, getD_set]
      simp [Ne.symm h1, Ne.symm h2]
    · rw [getD_set, getD_set, getD_set, getD_set]
      simp [hne, Ne.symm hne, hin, hjn]
      omega
    · right
      rw [getD_set, getD_set]
      simp [hne, Ne.symm hne, hin, hjn, gj]
    · left
      rw [getD_set]
      simp [hin, hjn, gi]
    · rw [getD_set, getD_set]
      simp [hne, Ne.symm hne, hin, hjn, gi]
      omega
  · refine ⟨arr, ?_, rfl, List.Perm.refl _, fun _ _ _ => rfl, ?_, Or.inl rfl, Or.inr rfl,
      le_refl _⟩
    · simp only [hgt, if_false]
    · rw [gi, gj]; omega

/-- `sort_nine` returns, for every array of nine cells, a sorted permutation
of it. -/
theorem sort_nine_spec (orig : List Nat) (h9 : orig.length = 9) :
    ∃ out, sort_nine orig = some out ∧ out.length = 9 ∧ out.Perm orig ∧
      ∀ a b : Nat, a < b → b < 9 → out.getD a 0 ≤ out.getD b 0 := by
  let Outer : Int → List Nat → Prop := fun i arr =>
    arr.length = 9 ∧ arr.Perm orig ∧
      ∀ a b : Nat, (a : Int) < i → a < b → b < 9 → arr.getD a 0 ≤ arr.getD b 0
  obtain ⟨out, hrun, hlen, hperm, hsorted⟩ := forLoop_inv 0 8
    (fun i arr =>
      forLoop (i + 1) 9 (fun j arr =>
        match readAt arr i, readAt arr j with
        | some ai, some aj =>
          if ai > aj then
            let temp := ai
            (writeAt arr i aj).bind (fun arr => writeAt arr j temp)
          else some arr
        | _, _ => none)
        arr)
    Outer orig (by omega)
    ⟨h9, List.Perm.refl _, fun a b ha _ _ => absurd ha (by omega)⟩
    (by
      intro i arr hi0 hi1 ⟨hl, hp, hpre⟩
      let Inner : Int → List Nat → Prop := fun j arr =>
        arr.length = 9 ∧ arr.Perm orig ∧
          (∀ a b : Nat, (a : Int) < i → a < b → b < 9 → arr.getD a 0 ≤ arr.getD b 0) ∧
          ∀ b : Nat, i < (b : Int) → (b : Int) < j → arr.getD i.toNat 0 ≤ arr.getD b 0
      obtain ⟨arr1, hrun1, hl1, hp1, hpre1, hrow1⟩ := forLoop_inv (i + 1) 9
        (fun j arr =>
          match readAt arr i, readAt arr j with
          | some ai, some aj =>
            if ai > aj then
              let temp := ai
              (writeAt arr i aj).bind (fun arr => writeAt arr j temp)
            else some arr
          | _, _ => none)
        Inner arr (by omega)
        ⟨hl, hp, hpre, fun b hb1 hb2 => absurd hb2 (by omega)⟩
        (by
          intro j cur hj0 hj1 ⟨hcl, hcp, hcpre, hcrow⟩
          obtain ⟨nxt, hstep, hnl, hnp, hother, hle, hni, hnj, hdec⟩ :=
            exchange_step cur i j hi0 (by omega) (by omega)
          refine ⟨nxt, hstep, by omega, hnp.trans hcp, ?_, ?_⟩
          · intro a b ha hab hb
            have hai : a ≠ i.toNat := by omega
            have haj : a ≠ j.toNat := by omega
            rw [hother a hai haj]
            by_cases hbi : b = i.toNat
            · subst hbi
              rcases hni with e | e
              · rw [e]; exact hcpre a _ ha hab hb
              · rw [e]; exact hcpre a _ ha (by omega) (by omega)
            · by_cases hbj : b = j.toNat
              · subst hbj
                rcases hnj with e | e
                · rw [e]; exact hcpre a _ ha (by omega) (by omega)
                · rw [e]; exact hcpre a _ ha hab hb
              · rw [hother b hbi hbj]; exact hcpre a b ha hab hb
          · intro b hb1 hb2
            by_cases hbj : b = j.toNat
            · subst hbj; exact hle
            · have hbi : b ≠ i.toNat := by omega
              rw [hother b hbi hbj]
              exact le_trans hdec (hcrow b hb1 (by omega)))
      refine ⟨arr1, hrun1, hl1, hp1, ?_⟩
      intro a b ha hab hb
      by_cases hai : (a : Int) < i
      · exact hpre1 a b hai hab hb
      · have e : a = i.toNat := by omega
        subst e
        exact hrow1 b (by omega) (by omega))
  exact ⟨out, hrun, hlen, hperm, fun a b hab hb => hsorted a b (by omega) hab hb⟩

/-- The fifth cell of a sorted permutation of nine samples is their median:
it is one of them, five of them are at most it and five are at least it. -/
theorem fifth_is_median (win out : List Nat) (hlen : out.length = 9) (hperm : out.Perm win)
    (hsorted : ∀ a b : Nat, a < b → b < 9 → out.getD a 0 ≤ out.getD b 0) :
    out.getD 4 0 ∈ win ∧
      5 ≤ win.countP (fun x => decide (x ≤ out.getD 4 0)) ∧
      5 ≤ win.countP (fun x => decide (out.getD 4 0 ≤ x)) := by
  rw [← hperm.countP_eq, ← hperm.countP_eq]
  match out, hlen with
  | [x0, x1, x2, x3, x4, x5, x6, x7, x8], _ =>
    have h04 := hsorted 0 4 (by omega) (by omega)
    have h14 := hsorted 1 4 (by omega) (by omega)
    have h24 := hsorted 2 4 (by omega) (by omega)
    have h34 := hsorted 3 4 (by omega) (by omega)
    have h45 := hsorted 4 5 (by omega) (by omega)
    have h46 := hsorted 4 6 (by omega) (by omega)
    have h47 := hsorted 4 7 (by omega) (by omega)
    have h48 := hsorted 4 8 (by omega) (by omega)
    simp only [List.getD_cons_zero, List.getD_cons_succ] at h04 h14 h24 h34 h45 h46 h47 h48 ⊢
    refine ⟨hperm.subset (by simp), ?_, ?_⟩
    · simp only [List.countP_cons, List.countP_nil, h04, h14, h24, h34, le_refl, decide_True,
        if_true]
      omega
    · simp only [List.countP_cons, List.countP_nil, h45, h46, h47, h48, le_refl, decide_True,
        if_true]
      omega

/-! ## Median filter -/

/-- The window-filling loops of `median_filter` at an interior pixel
overwrite all nine cells with the neighbourhood, whatever the window held. -/
theorem window_fill (p : Pixels) {H W : Nat} (hp : Shape p H W) (i j : Int)
    (hi0 : 1 ≤ i) (hi1 : i + 1 < H) (hj0 : 1 ≤ j) (hj1 : j + 1 < W)
    (win : List Nat) (hwin : win.length = 9) :
    forLoop (-1) (1 + 1) (fun row (kw : Int × List Nat) =>
        forLoop (-1) (1 + 1) (fun col (kw : Int × List Nat) =>
          (readPx p (i + row) (j + col)).bind (fun v =>
            (writeAt kw.2 kw.1 v).map (fun win => (kw.1 + 1, win))))
          kw)
      ((0 : Int), win) = some ((9 : Int), window3x3 p i j) := by
  have hr := reads3x3 hp i j hi0 hi1 hj0 hj1
  simp only [forLoop_offsets]
  rw [hr (-1) (-1) (by omega) (by omega) (by omega) (by omega),
    hr (-1) 0 (by omega) (by omega) (by omega) (by omega),
    hr (-1) 1 (by omega) (by omega) (by omega) (by omega),
    hr 0 (-1) (by omega) (by omega) (by omega) (by omega),
    hr 0 0 (by omega) (by omega) (by omega) (by omega),
    hr 0 1 (by omega) (by omega) (by omega) (by omega),
    hr 1 (-1) (by omega) (by omega) (by omega) (by omega),
    hr 1 0 (by omega) (by omega) (by omega) (by omega),
    hr 1 1 (by omega) (by omega) (by omega) (by omega)]
  have e1 : i + -1 = i - 1 := by ring
  have e2 : j + -1 = j - 1 := by ring
  rw [e1, e2, add_zero, add_zero]
  match win, hwin with
  | [w0, w1, w2, w3, w4, w5, w6, w7, w8], _ => rfl

/-- What `median_filter` returns on a loaded image. -/
theorem median_filter_spec (original : PGMImage) (h : WellFormed original) :
    ∃ out, median_filter original = some out ∧
      out.width = original.width ∧ out.height = original.height ∧
      out.max_val = original.max_val ∧
      Shape out.pixels original.height.toNat original.width.toNat ∧
      ∀ a b, readPx out.pixels a b =
        if 1 ≤ a ∧ a < original.height - 1 ∧ 1 ≤ b ∧ b < original.width - 1 then
          some (median_of_window original.pixels a b)
        else readPx original.pixels a b := by
  have hs := shape_of_wellFormed h
  have hw0 : 0 ≤ original.width := h.1
  have hh0 : 0 ≤ original.height := h.2.1
  obtain ⟨st, hrun, -, hshape, hread⟩ := fill_rect
    (fun st : List Nat × Pixels => st.2) (fun st => st.1.length = 9)
    (fun i j st =>
      let k : Int := 0
      (forLoop (-1) (1 + 1) (fun row (kw : Int × List Nat) =>
          forLoop (-1) (1 + 1) (fun col (kw : Int × List Nat) =>
            (readPx original.pixels (i + row) (j + col)).bind (fun v =>
              (writeAt kw.2 kw.1 v).map (fun win => (kw.1 + 1, win))))
            kw)
        (k, st.1)).bind (fun kw =>
        (sort_nine kw.2).bind (fun win =>
          (readAt win 4).bind (fun m =>
            (writePx st.2 i j m).map (fun px => (win, px))))))
    (fun a b => median_of_window original.pixels a b)
    1 (original.height - 1) 1 (original.width - 1)
    original.height.toNat original.width.toNat
    (List.replicate 9 0, original.pixels) hs (by simp)
    (by omega) (by omega) (by omega) (by omega)
    (by
      intro i j s hi0 hi1 hj0 hj1 hss hwin
      obtain ⟨sorted, hsort, hlen, -, -⟩ := sort_nine_spec (window3x3 original.pixels i j) rfl
      obtain ⟨q, hq, -, -⟩ := writePx_spec hss i j (median_of_window original.pixels i j)
        (by omega) (by omega) (by omega) (by omega)
      have hmed : median_of_window original.pixels i j = sorted.getD 4 0 := by
        simp [median_of_window, hsort]
      have hread4 : readAt sorted 4 = some (sorted.getD 4 0) := by
        have h4 : (4 : Int).toNat < sorted.length := by rw [hlen]; decide
        rw [List.getD_eq_getElem _ _ (by omega)]
        simp only [readAt]
        rw [if_pos (by decide)]
        exact List.getElem?_eq_getElem h4
      refine ⟨(sorted, q), ?_, hq, hlen⟩
      simp only []
      rw [window_fill original.pixels hs i j hi0 (by omega) hj0 (by omega) s.1 hwin]
      simp only [Option.some_bind, hsort, hread4]
      rw [← hmed, hq]
      rfl)
  refine ⟨{ original with pixels := st.2 }, ?_, rfl, rfl, rfl, hshape, hread⟩
  unfold median_filter
  rw [deep_copy_image_spec original h]
  simp only [Option.some_bind]
  rw [hrun]
  rfl

/-! ## Gradient operators -/

/-- The accumulation loops of a gradient operator at an interior pixel. -/
theorem gradient_sums (p : Pixels) {H W : Nat} (hp : Shape p H W) (i j : Int)
    (hi0 : 1 ≤ i) (hi1 : i + 1 < H) (hj0 : 1 ≤ j) (hj1 : j + 1 < W)
    (x0 x1 x2 x3 x4 x5 x6 x7 x8 y0 y1 y2 y3 y4 y5 y6 y7 y8 : Int) :
    forLoop (-1) (1 + 1) (fun k (sums : Int × Int) =>
        forLoop (-1) (1 + 1) (fun l (sums : Int × Int) =>
          match readPx p (i + k) (j + l),
            kernelAt [[x0, x1, x2], [x3, x4, x5], [x6, x7, x8]] (k + 1) (l + 1),
            kernelAt [[y0, y1, y2], [y3, y4, y5], [y6, y7, y8]] (k + 1) (l + 1) with
          | some pixel_val, some gx, some gy =>
            some (sums.1 + (pixel_val : Int) * gx, sums.2 + (pixel_val : Int) * gy)
          | _, _, _ => none)
          sums)
      ((0 : Int), (0 : Int))
      = some (weighted_sum [[x0, x1, x2], [x3, x4, x5], [x6, x7, x8]] p i j,
          weighted_sum [[y0, y1, y2], [y3, y4, y5], [y6, y7, y8]] p i j) := by
  have hr := reads3x3 hp i j hi0 hi1 hj0 hj1
  simp only [forLoop_offsets]
  rw [hr (-1) (-1) (by omega) (by omega) (by omega) (by omega),
    hr (-1) 0 (by omega) (by omega) (by omega) (by omega),
    hr (-1) 1 (by omega) (by omega) (by omega) (by omega),
    hr 0 (-1) (by omega) (by omega) (by omega) (by omega),
    hr 0 0 (by omega) (by omega) (by omega) (by omega),
    hr 0 1 (by omega) (by omega) (by omega) (by omega),
    hr 1 (-1) (by omega) (by omega) (by omega) (by omega),
    hr 1 0 (by omega) (by omega) (by omega) (by omega),
    hr 1 1 (by omega) (by omega) (by omega) (by omega)]
  have e1 : i + -1 = i - 1 := by ring
  have e2 : j + -1 = j - 1 := by ring
  rw [e1, e2, add_zero, add_zero]
  have k00 : ∀ (a0 a1 a2 a3 a4 a5 a6 a7 a8 : Int),
      kernelAt [[a0, a1, a2], [a3, a4, a5], [a6, a7, a8]] (-1 + 1) (-1 + 1) = some a0 :=
    fun _ _ _ _ _ _ _ _ _ => rfl
  have k01 : ∀ (a0 a1 a2 a3 a4 a5 a6 a7 a8 : Int),
      kernelAt [[a0, a1, a2], [a3, a4, a5], [a6, a7, a8]] (-1 + 1) (0 + 1) = some a1 :=
    fun _ _ _ _ _ _ _ _ _ => rfl
  have k02 : ∀ (a0 a1 a2 a3 a4 a5 a6 a7 a8 : Int),
      kernelAt [[a0, a1, a2], [a3, a4, a5], [a6, a7, a8]] (-1 + 1) (1 + 1) = some a2 :=
    fun _ _ _ _ _ _ _ _ _ => rfl
  have k10 : ∀ (a0 a1 a2 a3 a4 a5 a6 a7 a8 : Int),
      kernelAt [[a0, a1, a2], [a3, a4, a5], [a6, a7, a8]] (0 + 1) (-1 + 1) = some a3 :=
    fun _ _ _ _ _ _ _ _ _ => rfl
  have k11 : ∀ (a0 a1 a2 a3 a4 a5 a6 a7 a8 : Int),
      kernelAt [[a0, a1, a2], [a3, a4, a5], [a6, a7, a8]] (0 + 1) (0 + 1) = some a4 :=
    fun _ _ _ _ _ _ _ _ _ => rfl
  have k12 : ∀ (a0 a1 a2 a3 a4 a5 a6 a7 a8 : Int),
      kernelAt [[a0, a1, a2], [a3, a4, a5], [a6, a7, a8]] (0 + 1) (1 + 1) = some a5 :=
    fun _ _ _ _ _ _ _ _ _ => rfl
  have k20 : ∀ (a0 a1 a2 a3 a4 a5 a6 a7 a8 : Int),
      kernelAt [[a0, a1, a2], [a3, a4, a5], [a6, a7, a8]] (1 + 1) (-1 + 1) = some a6 :=
    fun _ _ _ _ _ _ _ _ _ => rfl
  have k21 : ∀ (a0 a1 a2 a3 a4 a5 a6 a7 a8 : Int),
      kernelAt [[a0, a1, a2], [a3, a4, a5], [a6, a7, a8]] (1 + 1) (0 + 1) = some a7 :=
    fun _ _ _ _ _ _ _ _ _ => rfl
  have k22 : ∀ (a0 a1 a2 a3 a4 a5 a6 a7 a8 : Int),
      kernelAt [[a0, a1, a2], [a3, a4, a5], [a6, a7, a8]] (1 + 1) (1 + 1) = some a8 :=
    fun _ _ _ _ _ _ _ _ _ => rfl
  simp only [k00, k01, k02, k10, k11, k12, k20, k21, k22, Option.some_bind]
  simp only [weighted_sum, window3x3, List.flatten_cons, List.flatten_nil, List.cons_append,
    List.nil_append, List.append_nil, List.zipWith_cons_cons, List.zipWith_nil_right,
    List.sum_cons, List.sum_nil]
  congr 1
  refine Prod.ext ?_ ?_ <;> simp only [] <;> ring

/-- The byte a gradient operator stores is the clamped L1 magnitude. -/
theorem clamp_value (a b : Int) :
    (to_uchar
        (let magnitude := labs a + labs b
         if magnitude > 255 then 255 else magnitude) : Nat)
      = (min 255 (|a| + |b|)).toNat := by
  have ha : labs a = |a| := by simp [labs]
  have hb : labs b = |b| := by simp [labs]
  simp only [ha, hb]
  have h1 : 0 ≤ |a| := abs_nonneg a
  have h2 : 0 ≤ |b| := abs_nonneg b
  generalize |a| = x at *
  generalize |b| = y at *
  unfold to_uchar
  by_cases h : x + y > 255
  · rw [if_pos h, min_eq_left (by omega)]; rfl
  · rw [if_neg h, min_eq_right (by omega)]
    omega

/-- What a gradient operator with 3x3 kernel tables returns on a loaded
image: the clamped L1 magnitude at interior pixels, the zero of the fresh
buffer elsewhere. -/
theorem gradient_edge_detection_spec
    (x0 x1 x2 x3 x4 x5 x6 x7 x8 y0 y1 y2 y3 y4 y5 y6 y7 y8 : Int)
    (original : PGMImage) (h : WellFormed original) :
    ∃ out, gradient_edge_detection [[x0, x1, x2], [x3, x4, x5], [x6, x7, x8]]
        [[y0, y1, y2], [y3, y4, y5], [y6, y7, y8]] original = some out ∧
      out.width = original.width ∧ out.height = original.height ∧
      out.max_val = original.max_val ∧
      Shape out.pixels original.height.toNat original.width.toNat ∧
      ∀ a b, readPx out.pixels a b =
        if 1 ≤ a ∧ a < original.height - 1 ∧ 1 ≤ b ∧ b < original.width - 1 then
          some (l1_magnitude [[x0, x1, x2], [x3, x4, x5], [x6, x7, x8]]
            [[y0, y1, y2], [y3, y4, y5], [y6, y7, y8]] original.pixels a b).toNat
        else readPx (create_new_image original original.width original.height).pixels a b := by
  have hs := shape_of_wellFormed h
  have hw0 : 0 ≤ original.width := h.1
  have hh0 : 0 ≤ original.height := h.2.1
  obtain ⟨p', hrun, hshape, hread⟩ := fill_rect_pixels
    (fun i j px =>
      (forLoop (-1) (1 + 1) (fun k (sums : Int × Int) =>
          forLoop (-1) (1 + 1) (fun l (sums : Int × Int) =>
            match readPx original.pixels (i + k) (j + l),
              kernelAt [[x0, x1, x2], [x3, x4, x5], [x6, x7, x8]] (k + 1) (l + 1),
              kernelAt [[y0, y1, y2], [y3, y4, y5], [y6, y7, y8]] (k + 1) (l + 1) with
            | some pixel_val, some gx, some gy =>
              some (sums.1 + (pixel_val : Int) * gx, sums.2 + (pixel_val : Int) * gy)
            | _, _, _ => none)
            sums)
        ((0 : Int), (0 : Int))).bind (fun sums =>
        let magnitude := labs sums.1 + labs sums.2
        let final_value := to_uchar (if magnitude > 255 then 255 else magnitude)
        writePx px i j final_value))
    (fun a b => (l1_magnitude [[x0, x1, x2], [x3, x4, x5], [x6, x7, x8]]
      [[y0, y1, y2], [y3, y4, y5], [y6, y7, y8]] original.pixels a b).toNat)
    1 (original.height - 1) 1 (original.width - 1)
    original.height.toNat original.width.toNat
    (create_new_image original original.width original.height).pixels
    (shape_create_new_image _ _ _)
    (by omega) (by omega) (by omega) (by omega)
    (by
      intro i j s hi0 hi1 hj0 hj1 _
      simp only []
      rw [gradient_sums original.pixels hs i j hi0 (by omega) hj0 (by omega)]
      simp only [Option.some_bind]
      rw [clamp_value]
      rfl)
  refine ⟨{ create_new_image original original.width original.height with pixels := p' },
    ?_, rfl, rfl, rfl, hshape, hread⟩
  unfold gradient_edge_detection
  simp only []
  rw [hrun]
  rfl

theorem sobel_eq_gradient (original : PGMImage) :
    sobel_edge_detection original = gradient_edge_detection sobel_Gx sobel_Gy original := rfl

theorem prewitt_eq_gradient (original : PGMImage) :
    prewitt_edge_detection original
      = gradient_edge_detection prewitt_Gx prewitt_Gy original := rfl

/-! ## The menu operations -/

theorem resize_image_two (img : PGMImage) :
    resize_image "2" img =
      if mul_overflows img.width 2 ∨ mul_overflows img.height 2 then none
      else (nearest_neighbor_zoom img
        (create_new_image img (img.width * 2) (img.height * 2)) 2).map
          (fun new_image => (Outcome.done, new_image)) := rfl

theorem resize_image_three (img : PGMImage) :
    resize_image "3" img =
      if mul_overflows img.width 3 ∨ mul_overflows img.height 3 then none
      else (nearest_neighbor_zoom img
        (create_new_image img (img.width * 3) (img.height * 3)) 3).map
          (fun new_image => (Outcome.done, new_image)) := rfl

theorem resize_image_half (img : PGMImage) :
    resize_image "0.5" img =
      if Int.tmod img.width 2 ≠ 0 ∨ Int.tmod img.height 2 ≠ 0 then some (Outcome.failed, img)
      else (subsample_shrink img
        (create_new_image img (Int.tdiv img.width 2) (Int.tdiv img.height 2)) 2).map
          (fun new_image => (Outcome.done, new_image)) := rfl

theorem resize_image_quarter (img : PGMImage) :
    resize_image "0.25" img =
      if Int.tmod img.width 4 ≠ 0 ∨ Int.tmod img.height 4 ≠ 0 then some (Outcome.failed, img)
      else (subsample_shrink img
        (create_new_image img (Int.tdiv img.width 4) (Int.tdiv img.height 4)) 4).map
          (fun new_image => (Outcome.done, new_image)) := rfl

/-- A shrink request on a loaded image either fails on the divisibility test,
leaving the image as it is, or succeeds; it fails exactly when a dimension is
not a multiple of the factor. -/
theorem shrink_request (img : PGMImage) (himg : WellFormed img) (f : Int) (hf : 1 ≤ f)
    (res : Option (Outcome × PGMImage))
    (hres : res =
      if Int.tmod img.width f ≠ 0 ∨ Int.tmod img.height f ≠ 0 then some (Outcome.failed, img)
      else (subsample_shrink img
        (create_new_image img (Int.tdiv img.width f) (Int.tdiv img.height f)) f).map
          (fun new_image => (Outcome.done, new_image))) :
    ∃ r img', res = some (r, img') ∧
      (r = Outcome.failed ↔ (¬ f ∣ img.width ∨ ¬ f ∣ img.height)) ∧
      (r = Outcome.failed → img' = img) := by
  have hw0 : 0 ≤ img.width := himg.1
  have hh0 : 0 ≤ img.height := himg.2.1
  have ew : Int.tmod img.width f = img.width % f := Int.tmod_eq_emod hw0 (by omega)
  have eh : Int.tmod img.height f = img.height % f := Int.tmod_eq_emod hh0 (by omega)
  have dw : f ∣ img.width ↔ img.width % f = 0 := Int.dvd_iff_emod_eq_zero
  have dh : f ∣ img.height ↔ img.height % f = 0 := Int.dvd_iff_emod_eq_zero
  rw [ew, eh] at hres
  by_cases hc : img.width % f ≠ 0 ∨ img.height % f ≠ 0
  · rw [if_pos hc] at hres
    refine ⟨Outcome.failed, img, hres, ?_, fun _ => rfl⟩
    rw [dw, dh]
    exact ⟨fun _ => hc, fun _ => rfl⟩
  · rw [if_neg hc] at hres
    obtain ⟨out, hout, -⟩ := subsample_shrink_spec img
      (create_new_image img (Int.tdiv img.width f) (Int.tdiv img.height f)) f himg hf
      (shape_create_new_image _ _ _)
      (by show Int.tdiv img.height f ≤ img.height / f
          rw [Int.tdiv_eq_ediv hh0 (by omega)])
      (by show Int.tdiv img.width f ≤ img.width / f
          rw [Int.tdiv_eq_ediv hw0 (by omega)])
    rw [hout] at hres
    refine ⟨Outcome.done, out, hres, ?_, fun h => by cases h⟩
    rw [dw, dh]
    constructor
    · intro h; cases h
    · intro h; exact absurd h hc

/-- Every unrecognized option whose text fits the input buffer is rejected
with the current image untouched. -/
theorem unrecognized_option_rejected :
    (∀ (input_factor : String) (img : PGMImage), input_factor.utf8ByteSize + 1 ≤ 10 →
      input_factor ≠ "2" → input_factor ≠ "3" → input_factor ≠ "0.5" →
      input_factor ≠ "0.25" → resize_image input_factor img = some (Outcome.failed, img)) ∧
    (∀ (c : Int) (img : PGMImage), c ≠ 1 → c ≠ 2 →
      apply_filter (some c) img = some (Outcome.failed, img)) ∧
    (∀ (img : PGMImage), apply_filter none img = some (Outcome.failed, img)) ∧
    (∀ (canny : PGMImage → Option PGMImage) (c : Int) (img : PGMImage),
      c ≠ 1 → c ≠ 2 → c ≠ 3 → edge_detection canny (some c) img = some (Outcome.failed, img)) ∧
    (∀ (canny : PGMImage → Option PGMImage) (img : PGMImage),
      edge_detection canny none img = some (Outcome.failed, img)) := by
  refine ⟨?_, ?_, fun _ => rfl, ?_, fun _ _ => rfl⟩
  · intro s img hlen h2 h3 h5 h25
    have hl : ¬ (10 < s.utf8ByteSize + 1) := by omega
    simp only [resize_image, hl, if_false, h2, h3, h5, h25, or_self]
  · intro c img h1 h2
    simp only [apply_filter, h1, h2, if_false]
  · intro canny c img h1 h2 h3
    simp only [edge_detection, h1, h2, h3, if_false]

/-! ## Consequences for the filters -/

/-- At an interior pixel the nine samples of `window3x3` are the nine reads
`src[i+k][j+l]`, none of them outside the image. -/
theorem window3x3_reads {p : Pixels} {H W : Nat} (hp : Shape p H W) (i j : Int)
    (hi0 : 1 ≤ i) (hi1 : i + 1 < H) (hj0 : 1 ≤ j) (hj1 : j + 1 < W) :
    (window3x3 p i j).map some =
      [readPx p (i - 1) (j - 1), readPx p (i - 1) j, readPx p (i - 1) (j + 1),
       readPx p i (j - 1), readPx p i j, readPx p i (j + 1),
       readPx p (i + 1) (j - 1), readPx p (i + 1) j, readPx p (i + 1) (j + 1)] := by
  have hr : ∀ a b : Int, i - 1 ≤ a → a ≤ i + 1 → j - 1 ≤ b → b ≤ j + 1 →
      readPx p a b = some (pixelAt p a b) := fun a b h1 h2 h3 h4 =>
    readPx_eq_pixelAt hp a b (by omega) (by omega) (by omega) (by omega)
  simp only [window3x3, List.map_cons, List.map_nil]
  rw [hr (i - 1) (j - 1) (by omega) (by omega) (by omega) (by omega),
    hr (i - 1) j (by omega) (by omega) (by omega) (by omega),
    hr (i - 1) (j + 1) (by omega) (by omega) (by omega) (by omega),
    hr i (j - 1) (by omega) (by omega) (by omega) (by omega),
    hr i j (by omega) (by omega) (by omega) (by omega),
    hr i (j + 1) (by omega) (by omega) (by omega) (by omega),
    hr (i + 1) (j - 1) (by omega) (by omega) (by omega) (by omega),
    hr (i + 1) j (by omega) (by omega) (by omega) (by omega),
    hr (i + 1) (j + 1) (by omega) (by omega) (by omega) (by omega)]

/-- The value `median_filter` stores is the fifth smallest sample of the
window. -/
theorem median_of_window_spec (p : Pixels) (i j : Int) :
    median_of_window p i j ∈ window3x3 p i j ∧
      5 ≤ (window3x3 p i j).countP (fun x => decide (x ≤ median_of_window p i j)) ∧
      5 ≤ (window3x3 p i j).countP (fun x => decide (median_of_window p i j ≤ x)) ∧
      median_of_window p i j
        = ((window3x3 p i j).insertionSort (fun x y => x ≤ y)).getD 4 0 := by
  obtain ⟨sorted, hsort, hlen, hperm, hle⟩ := sort_nine_spec (window3x3 p i j) rfl
  have hmed : median_of_window p i j = sorted.getD 4 0 := by
    simp [median_of_window, hsort]
  obtain ⟨h1, h2, h3⟩ := fifth_is_median (window3x3 p i j) sorted hlen hperm hle
  rw [hmed]
  refine ⟨h1, h2, h3, ?_⟩
  have hs : List.Sorted (fun x y : Nat => x ≤ y) sorted := by
    apply List.pairwise_iff_getElem.mpr
    intro a b ha hb hab
    have := hle a b hab (by omega)
    rwa [List.getD_eq_getElem _ _ ha, List.getD_eq_getElem _ _ hb] at this
  have heq : sorted = (window3x3 p i j).insertionSort (fun x y => x ≤ y) :=
    List.eq_of_perm_of_sorted
      (hperm.trans (List.perm_insertionSort _ _).symm) hs (List.sorted_insertionSort _ _)
  rw [← heq]

/-- Every sample read from a flat image is the constant. -/
theorem pixelAt_flat {img : PGMImage} {H W : Nat} (hs : Shape img.pixels H W) (c : Nat)
    (hflat : ∀ row ∈ img.pixels, ∀ v ∈ row, v = c) (i j : Int)
    (hi0 : 0 ≤ i) (hi1 : i < H) (hj0 : 0 ≤ j) (hj1 : j < W) :
    readPx img.pixels i j = some c := by
  obtain ⟨v, hv⟩ := (readPx_some_iff_of_shape hs i j).mpr ⟨hi0, hi1, hj0, hj1⟩
  rw [hv]
  unfold readPx at hv
  split at hv
  · split at hv
    · rename_i row hrow
      rw [hflat row (List.getElem?_mem hrow) v (List.getElem?_mem hv)]
    · simp at hv
  · simp at hv

/-! ## Range and border of the gradient operators -/

/-- Every pixel a gradient operator returns is at most 255, and it is zero
outside the interior. -/
theorem gradient_edge_detection_range
    (x0 x1 x2 x3 x4 x5 x6 x7 x8 y0 y1 y2 y3 y4 y5 y6 y7 y8 : Int)
    (original : PGMImage) (h : WellFormed original) :
    ∃ out, gradient_edge_detection [[x0, x1, x2], [x3, x4, x5], [x6, x7, x8]]
        [[y0, y1, y2], [y3, y4, y5], [y6, y7, y8]] original = some out ∧
      out.width = original.width ∧ out.height = original.height ∧
      out.max_val = original.max_val ∧
      Shape out.pixels original.height.toNat original.width.toNat ∧
      ∀ i j, 0 ≤ i → i < original.height → 0 ≤ j → j < original.width →
        ∃ v, readPx out.pixels i j = some v ∧ v ≤ 255 ∧
          (¬ (1 ≤ i ∧ i < original.height - 1 ∧ 1 ≤ j ∧ j < original.width - 1) → v = 0) := by
  obtain ⟨out, hrun, hw, hh, hm, hs, hread⟩ :=
    gradient_edge_detection_spec x0 x1 x2 x3 x4 x5 x6 x7 x8 y0 y1 y2 y3 y4 y5 y6 y7 y8
      original h
  refine ⟨out, hrun, hw, hh, hm, hs, ?_⟩
  intro i j hi0 hi1 hj0 hj1
  by_cases hint : 1 ≤ i ∧ i < original.height - 1 ∧ 1 ≤ j ∧ j < original.width - 1
  · refine ⟨_, by rw [hread i j, if_pos hint], ?_, fun hn => absurd hint hn⟩
    have : l1_magnitude [[x0, x1, x2], [x3, x4, x5], [x6, x7, x8]]
        [[y0, y1, y2], [y3, y4, y5], [y6, y7, y8]] original.pixels i j ≤ 255 :=
      min_le_left _ _
    omega
  · refine ⟨0, ?_, by omega, fun _ => rfl⟩
    rw [hread i j, if_neg hint]
    exact readPx_replicate _ _ i j hi0 (by omega) hj0 (by omega)

/-! ## Local binary pattern -/

/-- The loop `for (k = 0; k < 8; k++)` runs its body for `0, ..., 7`. -/
theorem forLoop_eight {σ : Type} (body : Int → σ → Option σ) (s : σ) :
    forLoop 0 8 body s
      = (body 0 s).bind (fun s => (body 1 s).bind (fun s => (body 2 s).bind (fun s =>
          (body 3 s).bind (fun s => (body 4 s).bind (fun s => (body 5 s).bind (fun s =>
            (body 6 s).bind (fun s => body 7 s))))))) := by
  have e : ((8 : Int) - 0).toNat = 8 := by decide
  have a1 : (0 : Int) + 1 = 1 := rfl
  have a2 : (1 : Int) + 1 = 2 := rfl
  have a3 : (2 : Int) + 1 = 3 := rfl
  have a4 : (3 : Int) + 1 = 4 := rfl
  have a5 : (4 : Int) + 1 = 5 := rfl
  have a6 : (5 : Int) + 1 = 6 := rfl
  have a7 : (6 : Int) + 1 = 7 := rfl
  simp only [forLoop, e, loopFrom, a1, a2, a3, a4, a5, a6, a7, Option.bind_some]

/-- The bits of an eight-bit code, and its range. -/
theorem code_of_bits_spec (b0 b1 b2 b3 b4 b5 b6 b7 : Bool) :
    code_of_bits [b0, b1, b2, b3, b4, b5, b6, b7] < 256 ∧
      Nat.testBit (code_of_bits [b0, b1, b2, b3, b4, b5, b6, b7]) 7 = b0 ∧
      Nat.testBit (code_of_bits [b0, b1, b2, b3, b4, b5, b6, b7]) 6 = b1 ∧
      Nat.testBit (code_of_bits [b0, b1, b2, b3, b4, b5, b6, b7]) 5 = b2 ∧
      Nat.testBit (code_of_bits [b0, b1, b2, b3, b4, b5, b6, b7]) 4 = b3 ∧
      Nat.testBit (code_of_bits [b0, b1, b2, b3, b4, b5, b6, b7]) 3 = b4 ∧
      Nat.testBit (code_of_bits [b0, b1, b2, b3, b4, b5, b6, b7]) 2 = b5 ∧
      Nat.testBit (code_of_bits [b0, b1, b2, b3, b4, b5, b6, b7]) 1 = b6 ∧
      Nat.testBit (code_of_bits [b0, b1, b2, b3, b4, b5, b6, b7]) 0 = b7 := by
  revert b0 b1 b2 b3 b4 b5 b6 b7
  decide

/-- The accumulation of `calculate_lbp`, on the eight comparison results. -/
theorem lbp_accumulate (b0 b1 b2 b3 b4 b5 b6 b7 : Bool) :
    ((((((((0 : Nat) ||| (if b0 then 1 <<< 7 else 0)) ||| (if b1 then 1 <<< 6 else 0))
        ||| (if b2 then 1 <<< 5 else 0)) ||| (if b3 then 1 <<< 4 else 0))
        ||| (if b4 then 1 <<< 3 else 0)) ||| (if b5 then 1 <<< 2 else 0))
        ||| (if b6 then 1 <<< 1 else 0)) ||| (if b7 then 1 <<< 0 else 0)
      = code_of_bits [b0, b1, b2, b3, b4, b5, b6, b7] := by
  revert b0 b1 b2 b3 b4 b5 b6 b7
  decide

/-- One round of the LBP loop, as an or with a conditional mask. -/
theorem lbp_round (neighbor center lbp_code : Nat) (k : Int) (hk : 0 ≤ 7 - k) :
    (if neighbor ≥ center then
        (if 0 ≤ 7 - k then some (lbp_code ||| (1 <<< (7 - k).toNat)) else none)
      else some lbp_code)
      = some (lbp_code ||| (if decide (neighbor ≥ center) then 1 <<< (7 - k).toNat else 0)) := by
  by_cases h : neighbor ≥ center
  · simp [h, hk]
  · simp [h]

/-- The code loop of `calculate_lbp` at an interior pixel. -/
theorem lbp_loop (p : Pixels) {H W : Nat} (hp : Shape p H W) (i j : Int)
    (hi0 : 1 ≤ i) (hi1 : i + 1 < H) (hj0 : 1 ≤ j) (hj1 : j + 1 < W) (center : Nat)
    (hc : center = pixelAt p i j) :
    forLoop 0 8 (fun k (lbp_code : Nat) =>
        match kernelAt [[-1, -1], [-1, 0], [-1, 1], [0, 1], [1, 1], [1, 0], [1, -1], [0, -1]]
            k 0,
          kernelAt [[-1, -1], [-1, 0], [-1, 1], [0, 1], [1, 1], [1, 0], [1, -1], [0, -1]]
            k 1 with
        | some di, some dj =>
          let ni := i + di
          let nj := j + dj
          (readPx p ni nj).bind (fun neighbor =>
            if neighbor ≥ center then
              (if 0 ≤ 7 - k then some (lbp_code ||| (1 <<< (7 - k).toNat)) else none)
            else some lbp_code)
        | _, _ => none)
      (0 : Nat) = some (lbp_code_at p i j) := by
  have hr := reads3x3 hp i j hi0 hi1 hj0 hj1
  have o : ∀ (k : Int) (c : Int),
      (k = 0 ∨ k = 1 ∨ k = 2 ∨ k = 3 ∨ k = 4 ∨ k = 5 ∨ k = 6 ∨ k = 7) → (c = 0 ∨ c = 1) →
      kernelAt [[-1, -1], [-1, 0], [-1, 1], [0, 1], [1, 1], [1, 0], [1, -1], [0, -1]] k c
        = some (if c = 0 then
            (if k = 0 ∨ k = 1 ∨ k = 2 then -1 else if k = 3 ∨ k = 7 then 0 else 1)
          else (if k = 0 ∨ k = 6 ∨ k = 7 then -1 else if k = 1 ∨ k = 5 then 0 else 1)) := by
    intro k c hk hc
    rcases hk with h | h | h | h | h | h | h | h <;> rcases hc with h' | h' <;>
      subst h <;> subst h' <;> rfl
  rw [forLoop_eight]
  simp only [o 0 0 (by decide) (by decide), o 0 1 (by decide) (by decide),
    o 1 0 (by decide) (by decide), o 1 1 (by decide) (by decide),
    o 2 0 (by decide) (by decide), o 2 1 (by decide) (by decide),
    o 3 0 (by decide) (by decide), o 3 1 (by decide) (by decide),
    o 4 0 (by decide) (by decide), o 4 1 (by decide) (by decide),
    o 5 0 (by decide) (by decide), o 5 1 (by decide) (by decide),
    o 6 0 (by decide) (by decide), o 6 1 (by decide) (by decide),
    o 7 0 (by decide) (by decide), o 7 1 (by decide) (by decide)]
  simp only [show ((0 : Int) = 0) = True from eq_self 0, if_true, true_or, or_true,
    show ((1 : Int) = 0) = False by decide, show ((2 : Int) = 0) = False by decide,
    show ((3 : Int) = 0) = False by decide, show ((4 : Int) = 0) = False by decide,
    show ((5 : Int) = 0) = False by decide, show ((6 : Int) = 0) = False by decide,
    show ((7 : Int) = 0) = False by decide, show ((0 : Int) = 1) = False by decide,
    show ((0 : Int) = 2) = False by decide, show ((0 : Int) = 3) = False by decide,
    show ((0 : Int) = 6) = False by decide, show ((0 : Int) = 7) = False by decide,
    show ((1 : Int) = 1) = True from eq_self 1, show ((1 : Int) = 2) = False by decide,
    show ((1 : Int) = 5) = False by decide, show ((1 : Int) = 6) = False by decide,
    show ((1 : Int) = 7) = False by decide, show ((2 : Int) = 1) = False by decide,
    show ((2 : Int) = 2) = True from eq_self 2, show ((2 : Int) = 5) = False by decide,
    show ((2 : Int) = 6) = False by decide, show ((2 : Int) = 7) = False by decide,
    show ((3 : Int) = 1) = False by decide, show ((3 : Int) = 2) = False by decide,
    show ((3 : Int) = 3) = True from eq_self 3, show ((3 : Int) = 5) = False by decide,
    show ((3 : Int) = 6) = False by decide, show ((3 : Int) = 7) = False by decide,
    show ((4 : Int) = 1) = False by decide, show ((4 : Int) = 2) = False by decide,
    show ((4 : Int) = 3) = False by decide, show ((4 : Int) = 5) = False by decide,
    show ((4 : Int) = 6) = False by decide, show ((4 : Int) = 7) = False by decide,
    show ((5 : Int) = 1) = False by decide, show ((5 : Int) = 2) = False by decide,
    show ((5 : Int) = 3) = False by decide, show ((5 : Int) = 5) = True from eq_self 5,
    show ((5 : Int) = 6) = False by decide, show ((5 : Int) = 7) = False by decide,
    show ((6 : Int) = 1) = False by decide, show ((6 : Int) = 2) = False by decide,
    show ((6 : Int) = 3) = False by decide, show ((6 : Int) = 5) = False by decide,
    show ((6 : Int) = 6) = True from eq_self 6, show ((6 : Int) = 7) = False by decide,
    show ((7 : Int) = 1) = False by decide, show ((7 : Int) = 2) = False by decide,
    show ((7 : Int) = 3) = False by decide, show ((7 : Int) = 5) = False by decide,
    show ((7 : Int) = 6) = False by decide, show ((7 : Int) = 7) = True from eq_self 7,
    or_self, or_false, false_or, if_false]
  rw [hr (-1) (-1) (by omega) (by omega) (by omega) (by omega),
    hr (-1) 0 (by omega) (by omega) (by omega) (by omega),
    hr (-1) 1 (by omega) (by omega) (by omega) (by omega),
    hr 0 1 (by omega) (by omega) (by omega) (by omega),
    hr 1 1 (by omega) (by omega) (by omega) (by omega),
    hr 1 0 (by omega) (by omega) (by omega) (by omega),
    hr 1 (-1) (by omega) (by omega) (by omega) (by omega),
    hr 0 (-1) (by omega) (by omega) (by omega) (by omega)]
  simp only [Option.some_bind]
  rw [lbp_round _ _ _ 0 (by decide)]
  simp only [Option.some_bind]
  rw [lbp_round _ _ _ 1 (by decide)]
  simp only [Option.some_bind]
  rw [lbp_round _ _ _ 2 (by decide)]
  simp only [Option.some_bind]
  rw [lbp_round _ _ _ 3 (by decide)]
  simp only [Option.some_bind]
  rw [lbp_round _ _ _ 4 (by decide)]
  simp only [Option.some_bind]
  rw [lbp_round _ _ _ 5 (by decide)]
  simp only [Option.some_bind]
  rw [lbp_round _ _ _ 6 (by decide)]
  simp only [Option.some_bind]
  rw [lbp_round _ _ _ 7 (by decide)]
  have e1 : i + -1 = i - 1 := by ring
  have e2 : j + -1 = j - 1 := by ring
  have t7 : ((7 : Int) - 0).toNat = 7 := by decide
  have t6 : ((7 : Int) - 1).toNat = 6 := by decide
  have t5 : ((7 : Int) - 2).toNat = 5 := by decide
  have t4 : ((7 : Int) - 3).toNat = 4 := by decide
  have t3 : ((7 : Int) - 4).toNat = 3 := by decide
  have t2 : ((7 : Int) - 5).toNat = 2 := by decide
  have t1 : ((7 : Int) - 6).toNat = 1 := by decide
  have t0 : ((7 : Int) - 7).toNat = 0 := by decide
  rw [e1, e2, add_zero, add_zero, t7, t6, t5, t4, t3, t2, t1, t0, lbp_accumulate, hc]
  rfl

theorem lbp_code_at_lt (p : Pixels) (i j : Int) : lbp_code_at p i j < 256 := by
  simp only [lbp_code_at, lbp_neighbours, List.map_cons, List.map_nil]
  exact (code_of_bits_spec _ _ _ _ _ _ _ _).1

/-- What `calculate_lbp` returns on a loaded image: the LBP code at interior
pixels, the zero of the fresh buffer elsewhere. -/
theorem calculate_lbp_spec (original : PGMImage) (h : WellFormed original) :
    ∃ out, calculate_lbp original = some out ∧
      out.width = original.width ∧ out.height = original.height ∧
      out.max_val = original.max_val ∧
      Shape out.pixels original.height.toNat original.width.toNat ∧
      ∀ a b, readPx out.pixels a b =
        if 1 ≤ a ∧ a < original.height - 1 ∧ 1 ≤ b ∧ b < original.width - 1 then
          some (lbp_code_at original.pixels a b)
        else readPx (create_new_image original original.width original.height).pixels a b := by
  have hs := shape_of_wellFormed h
  have hw0 : 0 ≤ original.width := h.1
  have hh0 : 0 ≤ original.height := h.2.1
  obtain ⟨p', hrun, hshape, hread⟩ := fill_rect_pixels
    (fun i j px =>
      (readPx original.pixels i j).bind (fun center =>
        (forLoop 0 8 (fun k (lbp_code : Nat) =>
            match kernelAt
                [[-1, -1], [-1, 0], [-1, 1], [0, 1], [1, 1], [1, 0], [1, -1], [0, -1]] k 0,
              kernelAt
                [[-1, -1], [-1, 0], [-1, 1], [0, 1], [1, 1], [1, 0], [1, -1], [0, -1]] k 1 with
            | some di, some dj =>
              let ni := i + di
              let nj := j + dj
              (readPx original.pixels ni nj).bind (fun neighbor =>
                if neighbor ≥ center then
                  (if 0 ≤ 7 - k then some (lbp_code ||| (1 <<< (7 - k).toNat)) else none)
                else some lbp_code)
            | _, _ => none)
          (0 : Nat)).bind (fun lbp_code =>
          writePx px i j (to_uchar (lbp_code : Int)))))
    (fun a b => lbp_code_at original.pixels a b)
    1 (original.height - 1) 1 (original.width - 1)
    original.height.toNat original.width.toNat
    (create_new_image original original.width original.height).pixels
    (shape_create_new_image _ _ _)
    (by omega) (by omega) (by omega) (by omega)
    (by
      intro i j s hi0 hi1 hj0 hj1 _
      simp only []
      rw [readPx_eq_pixelAt hs i j (by omega) (by omega) (by omega) (by omega)]
      simp only [Option.some_bind]
      rw [lbp_loop original.pixels hs i j hi0 (by omega) hj0 (by omega) _ rfl]
      simp only [Option.some_bind]
      have hlt := lbp_code_at_lt original.pixels i j
      have e : to_uchar ((lbp_code_at original.pixels i j : Nat) : Int)
          = lbp_code_at original.pixels i j := by
        unfold to_uchar; omega
      rw [e])
  refine ⟨{ create_new_image original original.width original.height with pixels := p' },
    ?_, rfl, rfl, rfl, hshape, hread⟩
  unfold calculate_lbp
  simp only []
  rw [hrun]
  rfl

/-- The code is 255 exactly when all eight comparisons succeed. -/
theorem code_of_bits_all (b0 b1 b2 b3 b4 b5 b6 b7 : Bool) :
    decide (code_of_bits [b0, b1, b2, b3, b4, b5, b6, b7] = 255)
      = (b0 && b1 && b2 && b3 && b4 && b5 && b6 && b7) := by
  revert b0 b1 b2 b3 b4 b5 b6 b7
  decide

/-- At an interior pixel the eight entries of `lbp_neighbours` are the eight
reads `original[i + di][j + dj]`, none of them outside the image. -/
theorem lbp_neighbours_reads {p : Pixels} {H W : Nat} (hp : Shape p H W) (i j : Int)
    (hi0 : 1 ≤ i) (hi1 : i + 1 < H) (hj0 : 1 ≤ j) (hj1 : j + 1 < W) :
    (lbp_neighbours p i j).map some =
      [readPx p (i - 1) (j - 1), readPx p (i - 1) j, readPx p (i - 1) (j + 1),
       readPx p i (j + 1), readPx p (i + 1) (j + 1), readPx p (i + 1) j,
       readPx p (i + 1) (j - 1), readPx p i (j - 1)] := by
  have hr : ∀ a b : Int, i - 1 ≤ a → a ≤ i + 1 → j - 1 ≤ b → b ≤ j + 1 →
      readPx p a b = some (pixelAt p a b) := fun a b h1 h2 h3 h4 =>
    readPx_eq_pixelAt hp a b (by omega) (by omega) (by omega) (by omega)
  simp only [lbp_neighbours, List.map_cons, List.map_nil]
  rw [hr (i - 1) (j - 1) (by omega) (by omega) (by omega) (by omega),
    hr (i - 1) j (by omega) (by omega) (by omega) (by omega),
    hr (i - 1) (j + 1) (by omega) (by omega) (by omega) (by omega),
    hr i (j + 1) (by omega) (by omega) (by omega) (by omega),
    hr (i + 1) (j + 1) (by omega) (by omega) (by omega) (by omega),
    hr (i + 1) j (by omega) (by omega) (by omega) (by omega),
    hr (i + 1) (j - 1) (by omega) (by omega) (by omega) (by omega),
    hr i (j - 1) (by omega) (by omega) (by omega) (by omega)]

/-- Bit `7 - k` of the LBP code is the comparison of the `k`-th neighbour
with the centre. -/
theorem lbp_code_at_bits (p : Pixels) (i j : Int) (k : Nat) (hk : k < 8) :
    Nat.testBit (lbp_code_at p i j) (7 - k) = true ↔
      (lbp_neighbours p i j).getD k 0 ≥ pixelAt p i j := by
  simp only [lbp_code_at, lbp_neighbours, List.map_cons, List.map_nil]
  obtain ⟨-, h7, h6, h5, h4, h3, h2, h1, h0⟩ := code_of_bits_spec
    (decide (pixelAt p (i - 1) (j - 1) ≥ pixelAt p i j))
    (decide (pixelAt p (i - 1) j ≥ pixelAt p i j))
    (decide (pixelAt p (i - 1) (j + 1) ≥ pixelAt p i j))
    (decide (pixelAt p i (j + 1) ≥ pixelAt p i j))
    (decide (pixelAt p (i + 1) (j + 1) ≥ pixelAt p i j))
    (decide (pixelAt p (i + 1) j ≥ pixelAt p i j))
    (decide (pixelAt p (i + 1) (j - 1) ≥ pixelAt p i j))
    (decide (pixelAt p i (j - 1) ≥ pixelAt p i j))
  interval_cases k
  · rw [show 7 - 0 = 7 from rfl, h7]; simp
  · rw [show 7 - 1 = 6 from rfl, h6]; simp
  · rw [show 7 - 2 = 5 from rfl, h5]; simp
  · rw [show 7 - 3 = 4 from rfl, h4]; simp
  · rw [show 7 - 4 = 3 from rfl, h3]; simp
  · rw [show 7 - 5 = 2 from rfl, h2]; simp
  · rw [show 7 - 6 = 1 from rfl, h1]; simp
  · rw [show 7 - 7 = 0 from rfl, h0]; simp

/-- The LBP code is 255 as soon as no neighbour is below the centre. -/
theorem lbp_code_at_all (p : Pixels) (i j : Int)
    (h : ∀ a b : Int, i - 1 ≤ a → a ≤ i + 1 → j - 1 ≤ b → b ≤ j + 1 →
      pixelAt p a b ≥ pixelAt p i j) :
    lbp_code_at p i j = 255 := by
  simp only [lbp_code_at, lbp_neighbours, List.map_cons, List.map_nil]
  rw [decide_eq_true (h (i - 1) (j - 1) (by omega) (by omega) (by omega) (by omega)),
    decide_eq_true (h (i - 1) j (by omega) (by omega) (by omega) (by omega)),
    decide_eq_true (h (i - 1) (j + 1) (by omega) (by omega) (by omega) (by omega)),
    decide_eq_true (h i (j + 1) (by omega) (by omega) (by omega) (by omega)),
    decide_eq_true (h (i + 1) (j + 1) (by omega) (by omega) (by omega) (by omega)),
    decide_eq_true (h (i + 1) j (by omega) (by omega) (by omega) (by omega)),
    decide_eq_true (h (i + 1) (j - 1) (by omega) (by omega) (by omega) (by omega)),
    decide_eq_true (h i (j - 1) (by omega) (by omega) (by omega) (by omega))]
  rfl

/-! ## Row-major scans -/

/-- The rule for a row-major double loop with a state invariant `G` and a
fact `Q a b` established when cell `(a, b)` is visited and kept by every later
step. -/
theorem scan_rect {σ : Type} (body : Int → Int → σ → Option σ) (G : σ → Prop)
    (Q : Int → Int → σ → Prop) (r0 r1 c0 c1 : Int) (s0 : σ) (hG0 : G s0)
    (hstep : ∀ i j s, r0 ≤ i → i < r1 → c0 ≤ j → j < c1 → G s →
      ∃ s', body i j s = some s' ∧ G s' ∧ Q i j s' ∧ ∀ a b, Q a b s → Q a b s') :
    ∃ s', forLoop r0 r1 (fun i s => forLoop c0 c1 (fun j t => body i j t) s) s0 = some s' ∧
      G s' ∧ ∀ a b, r0 ≤ a → a < r1 → c0 ≤ b → b < c1 → Q a b s' := by
  by_cases hrows : r1 ≤ r0
  · exact ⟨s0, forLoop_empty _ _ _ _ hrows, hG0, fun a b h1 h2 _ _ => absurd h2 (by omega)⟩
  · have hrows' : r0 ≤ r1 := by omega
    let Outer : Int → σ → Prop := fun i s =>
      G s ∧ ∀ a b, r0 ≤ a → a < i → c0 ≤ b → b < c1 → Q a b s
    obtain ⟨s', hrun, hG, hQ⟩ := forLoop_inv r0 r1
      (fun i s => forLoop c0 c1 (fun j t => body i j t) s) Outer s0 hrows'
      ⟨hG0, fun a b h1 h2 _ _ => absurd h2 (by omega)⟩
      (by
        intro i s hi0 hi1 ⟨hGs, hQs⟩
        by_cases hcols : c1 ≤ c0
        · exact ⟨s, forLoop_empty _ _ _ _ hcols, hGs,
            fun a b _ _ h3 h4 => absurd h4 (by omega)⟩
        · have hcols' : c0 ≤ c1 := by omega
          let Inner : Int → σ → Prop := fun j t =>
            G t ∧ (∀ a b, r0 ≤ a → a < i → c0 ≤ b → b < c1 → Q a b t) ∧
              ∀ b, c0 ≤ b → b < j → Q i b t
          obtain ⟨t, htrun, hGt, hQt, hQrow⟩ := forLoop_inv c0 c1 (fun j t => body i j t)
            Inner s hcols' ⟨hGs, hQs, fun b h1 h2 => absurd h2 (by omega)⟩
            (by
              intro j t hj0 hj1 ⟨hGt, hQt, hQrow⟩
              obtain ⟨t', hb, hG', hQ', hstable⟩ := hstep i j t hi0 hi1 hj0 hj1 hGt
              refine ⟨t', hb, hG', fun a b h1 h2 h3 h4 => hstable a b (hQt a b h1 h2 h3 h4), ?_⟩
              intro b hb0 hb1
              by_cases hbj : b = j
              · subst hbj; exact hQ'
              · exact hstable i b (hQrow b hb0 (by omega)))
          refine ⟨t, htrun, hGt, ?_⟩
          intro a b ha0 ha1 hb0 hb1
          by_cases hai : a = i
          · subst hai; exact hQrow b hb0 hb1
          · exact hQt a b ha0 (by omega) hb0 hb1)
    exact ⟨s', hrun, hG, hQ⟩

/-! ## Counting weak labels -/

theorem sum_set_add (l : List Nat) (i a : Nat) (hi : i < l.length) :
    (l.set i a).sum + l[i] = l.sum + a := by
  induction l generalizing i with
  | nil => simp at hi
  | cons x xs ih =>
    cases i with
    | zero => simp; omega
    | succ n =>
      have := ih n (by simpa using hi)
      simp only [List.set_cons_succ, List.sum_cons, List.getElem_cons_succ]
      omega

/-- Overwriting a weak label by another value removes one weak label. -/
theorem weak100_write {e e' : Pixels} {H W : Nat} (he : Shape e H W) (i j : Int) (v : Nat)
    (hold : readPx e i j = some 100) (hv : v ≠ 100) (hw : writePx e i j v = some e') :
    weak100 e' + 1 = weak100 e := by
  obtain ⟨⟨hi0, hi1, hj0, hj1⟩⟩ : Nonempty (0 ≤ i ∧ i < H ∧ 0 ≤ j ∧ j < W) :=
    ⟨(readPx_some_iff_of_shape he i j).mp ⟨100, hold⟩⟩
  have hlt : i.toNat < e.length := by rw [he.1]; omega
  have hrl : (e[i.toNat]).length = W := he.2 _ (List.getElem_mem hlt)
  have hlt2 : j.toNat < (e[i.toNat]).length := by rw [hrl]; omega
  have hval : (e[i.toNat])[j.toNat] = 100 := by
    simp only [readPx, hi0, hj0, and_self, if_true, List.getElem?_eq_getElem hlt,
      List.getElem?_eq_getElem hlt2] at hold
    exact Option.some.inj hold
  have he' : e' = e.set i.toNat ((e[i.toNat]).set j.toNat v) := by
    simp only [writePx, hi0, hj0, and_self, if_true, List.getElem?_eq_getElem hlt, hlt2]
      at hw
    exact (Option.some.inj hw).symm
  subst he'
  unfold weak100
  rw [List.map_set]
  have hlt' : i.toNat < (e.map (List.count 100)).length := by simpa using hlt
  have h1 := sum_set_add (e.map (List.count 100)) i.toNat
    (List.count 100 ((e[i.toNat]).set j.toNat v)) hlt'
  rw [List.getElem_map] at h1
  have h2 : List.count 100 ((e[i.toNat]).set j.toNat v) + 1 = List.count 100 (e[i.toNat]) := by
    rw [List.count_set _ _ _ _ hlt2, hval]
    have hpos : 0 < List.count 100 (e[i.toNat]) :=
      List.count_pos_iff.mpr (hval ▸ List.getElem_mem hlt2)
    have e1 : (if ((100 : Nat) == 100) = true then 1 else 0) = 1 := rfl
    have e2 : (if (v == 100) = true then 1 else 0) = 0 := by
      have : ¬ ((v == 100) = true) := by simpa using hv
      rw [if_neg this]
    rw [e1, e2]
    omega
  omega

/-- A buffer of `H` rows of `W` cells holds at most `H * W` weak labels. -/
theorem weak100_le {e : Pixels} {H W : Nat} (he : Shape e H W) : weak100 e ≤ H * W := by
  obtain ⟨hlen, hrow⟩ := he
  unfold weak100
  subst hlen
  induction e with
  | nil => simp
  | cons r rs ih =>
    have hr : r.length = W := hrow r (List.mem_cons_self _ _)
    have := ih (fun row h => hrow row (List.mem_cons_of_mem _ h))
    have hc : List.count 100 r ≤ W := hr ▸ List.count_le_length _ _
    simp only [List.map_cons, List.sum_cons, List.length_cons]
    rw [Nat.succ_mul]
    omega

/-! ## Edge tracking -/

theorem promoted_no_new_weak {W H : Int} {e e' : Pixels} {start : Int × Int}
    (h : Promoted W H e e' start) (p : Int × Int) (hp : readPx e' p.1 p.2 = some 100) :
    readPx e p.1 p.2 = some 100 := by
  rcases h p with h1 | ⟨_, h2, _, _⟩
  · rw [← h1]; exact hp
  · rw [h2] at hp; cases hp

theorem closed_mono {W H : Int} {e e' : Pixels} {p : Int × Int}
    (h : ∀ q : Int × Int, readPx e' q.1 q.2 = some 100 → readPx e q.1 q.2 = some 100)
    (hc : Closed W H e p) : Closed W H e' p :=
  fun q hadj hint hq => hc q hadj hint (h q hq)

theorem weak_chain_mono {W H : Int} {e e' : Pixels} {a b : Int × Int}
    (h : ∀ q : Int × Int, readPx e' q.1 q.2 = some 100 → readPx e q.1 q.2 = some 100)
    (hc : Relation.ReflTransGen (WeakStep e' W H) a b) :
    Relation.ReflTransGen (WeakStep e W H) a b :=
  Relation.ReflTransGen.mono (fun _ q hs => ⟨hs.1, hs.2.1, h q hs.2.2⟩) hc

/-- `edge_tracking` with the strong label 255: whenever the depth bound
exceeds the number of weak labels, the call returns; it only promotes weak
interior cells that a chain of weak steps joins to the start, it leaves no
weak interior neighbour around the start or around a promoted cell, and it
does not add weak labels. -/
theorem edge_tracking_spec (W H : Int) :
    ∀ (fuel : Nat) (e : Pixels) (x y : Int), Shape e H.toNat W.toNat → weak100 e < fuel →
      ∃ e', edge_tracking fuel e x y W H 255 = some e' ∧
        Shape e' H.toNat W.toNat ∧ Promoted W H e e' (x, y) ∧ Closed W H e' (x, y) ∧
        (∀ p : Int × Int, readPx e p.1 p.2 = some 100 → readPx e' p.1 p.2 = some 255 →
          Closed W H e' p) ∧
        weak100 e' ≤ weak100 e := by
  intro fuel
  induction fuel with
  | zero => intro e x y _ h; exact absurd h (Nat.not_lt_zero _)
  | succ fuel ih =>
    intro e x y hshape hfuel
    obtain ⟨e', hrun, ⟨hs', hprom, hclosedp, hcount⟩, hQ⟩ := scan_rect
      (fun i j edges =>
        if i = 0 ∧ j = 0 then some edges
        else
          let nx := x + i
          let ny := y + j
          if nx > 0 ∧ nx < H - 1 ∧ ny > 0 ∧ ny < W - 1 then
            (readPx edges nx ny).bind (fun v =>
              if v = 100 then
                (writePx edges nx ny (to_uchar 255)).bind (fun edges =>
                  edge_tracking fuel edges nx ny W H 255)
              else some edges)
          else some edges)
      (fun s => Shape s H.toNat W.toNat ∧ Promoted W H e s (x, y) ∧
        (∀ p : Int × Int, readPx e p.1 p.2 = some 100 → readPx s p.1 p.2 = some 255 →
          Closed W H s p) ∧ weak100 s ≤ weak100 e)
      (fun i j s => ¬ (i = 0 ∧ j = 0) → Interior W H (x + i, y + j) →
        readPx s (x + i) (y + j) ≠ some 100)
      (-1) (1 + 1) (-1) (1 + 1) e
      ⟨hshape, fun p => Or.inl rfl, fun p h1 h2 => (by rw [h1] at h2; cases h2), le_refl _⟩
      (by
        intro i j s hi0 hi1 hj0 hj1 ⟨hss, hsp, hsc, hsw⟩
        have hnn := promoted_no_new_weak hsp
        by_cases h00 : i = 0 ∧ j = 0
        · refine ⟨s, by simp only [h00, and_self, if_true], ⟨hss, hsp, hsc, hsw⟩,
            fun hn => absurd h00 hn, fun a b hq => hq⟩
        · by_cases hint : x + i > 0 ∧ x + i < H - 1 ∧ y + j > 0 ∧ y + j < W - 1
          · have hInt : Interior W H (x + i, y + j) := hint
            obtain ⟨v, hv⟩ := (readPx_some_iff_of_shape hss (x + i) (y + j)).mpr
              ⟨by omega, by omega, by omega, by omega⟩
            by_cases hv100 : v = 100
            · subst hv100
              obtain ⟨s1, hw1, hs1, hr1⟩ := writePx_spec hss (x + i) (y + j) 255
                (by omega) (by omega) (by omega) (by omega)
              have hcnt := weak100_write hss (x + i) (y + j) 255 hv (by decide) hw1
              obtain ⟨s2, hrec, hs2, hp2, hc2, hcp2, hw2⟩ :=
                ih s1 (x + i) (y + j) hs1 (by omega)
              have hnn2 := promoted_no_new_weak hp2
              have hs1weak : ∀ q : Int × Int, readPx s1 q.1 q.2 = some 100 →
                  readPx s q.1 q.2 = some 100 := by
                intro q hq
                rw [hr1 q.1 q.2] at hq
                by_cases hqn : q.1 = x + i ∧ q.2 = y + j
                · rw [if_pos hqn] at hq; cases hq
                · rw [if_neg hqn] at hq; exact hq
              have hs2weak : ∀ q : Int × Int, readPx s2 q.1 q.2 = some 100 →
                  readPx s q.1 q.2 = some 100 := fun q hq => hs1weak q (hnn2 q hq)
              have hn_e : readPx e (x + i) (y + j) = some 100 := hnn (x + i, y + j) hv
              have hstep0 : WeakStep e W H (x, y) (x + i, y + j) := by
                refine ⟨⟨?_, ?_, ?_, ?_, ?_⟩, hInt, hn_e⟩
                · intro heq
                  have h1 : x = x + i := congrArg Prod.fst heq
                  have h2 : y = y + j := congrArg Prod.snd heq
                  exact h00 ⟨by omega, by omega⟩
                · show x + i - 1 ≤ x; omega
                · show x ≤ x + i + 1; omega
                · show y + j - 1 ≤ y; omega
                · show y ≤ y + j + 1; omega
              have hn2 : readPx s2 (x + i) (y + j) = some 255 := by
                rcases hp2 (x + i, y + j) with h1 | ⟨h1, _, _, _⟩
                · have h1' : readPx s2 (x + i) (y + j) = readPx s1 (x + i) (y + j) := h1
                  rw [h1', hr1, if_pos ⟨rfl, rfl⟩]
                · have h1' : readPx s1 (x + i) (y + j) = some 100 := h1
                  rw [hr1, if_pos ⟨rfl, rfl⟩] at h1'; cases h1'
              refine ⟨s2, ?_, ⟨hs2, ?_, ?_, by omega⟩, ?_, ?_⟩
              · have hu : to_uchar 255 = 255 := rfl
                simp only [h00, if_false, hint, and_self, if_true, hv, Option.some_bind, hu,
                  hw1, hrec]
              · -- promoted relative to `e`
                intro p
                by_cases hpn : p.1 = x + i ∧ p.2 = y + j
                · right
                  have hp : p = (x + i, y + j) := Prod.ext hpn.1 hpn.2
                  subst hp
                  exact ⟨hn_e, hn2, hInt, Relation.ReflTransGen.single hstep0⟩
                · have h1p : readPx s1 p.1 p.2 = readPx s p.1 p.2 := by
                    rw [hr1, if_neg hpn]
                  rcases hp2 p with h2 | ⟨h2, h3, h4, h5⟩
                  · rcases hsp p with h6 | h6
                    · left; rw [h2, h1p, h6]
                    · right
                      exact ⟨h6.1, by rw [h2, h1p]; exact h6.2.1, h6.2.2.1, h6.2.2.2⟩
                  · right
                    have hps : readPx s p.1 p.2 = some 100 := by rw [← h1p]; exact h2
                    refine ⟨hnn p hps, h3, h4, ?_⟩
                    have hchain : Relation.ReflTransGen (WeakStep e W H) (x + i, y + j) p :=
                      weak_chain_mono (fun q hq => hnn q (hs1weak q hq)) h5
                    exact Relation.ReflTransGen.head hstep0 hchain
              · -- promoted cells are closed
                intro p hpe hp2'
                by_cases hps : readPx s p.1 p.2 = some 255
                · exact closed_mono hs2weak (hsc p hpe hps)
                · by_cases hpn : p.1 = x + i ∧ p.2 = y + j
                  · have hp : p = (x + i, y + j) := Prod.ext hpn.1 hpn.2
                    subst hp
                    exact hc2
                  · have h1p : readPx s1 p.1 p.2 = readPx s p.1 p.2 := by
                      rw [hr1, if_neg hpn]
                    have hps100 : readPx s p.1 p.2 = some 100 := by
                      rcases hsp p with h6 | h6
                      · rw [h6]; exact hpe
                      · exact absurd h6.2.1 hps
                    exact hcp2 p (by rw [h1p]; exact hps100) hp2'
              · intro _ _
                rw [hn2]; decide
              · intro a b hq hn0 hI hcontra
                exact hq hn0 hI (hs2weak (x + a, y + b) hcontra)
            · refine ⟨s, ?_, ⟨hss, hsp, hsc, hsw⟩, ?_, fun a b hq => hq⟩
              · simp only [h00, if_false, hint, and_self, if_true, hv, Option.some_bind,
                  hv100]
              · intro _ _
                rw [hv]
                intro hc
                exact hv100 (Option.some.inj hc)
          · refine ⟨s, ?_, ⟨hss, hsp, hsc, hsw⟩, fun _ hI => absurd hI hint, fun a b hq => hq⟩
            simp only [h00, if_false, hint])
    refine ⟨e', ?_, hs', hprom, ?_, hclosedp, hcount⟩
    · rw [← hrun]; rfl
    · intro q hadj hI
      obtain ⟨hne, h1, h2, h3, h4⟩ := hadj
      have h1' : q.1 - 1 ≤ x := h1
      have h2' : x ≤ q.1 + 1 := h2
      have h3' : q.2 - 1 ≤ y := h3
      have h4' : y ≤ q.2 + 1 := h4
      have hq := hQ (q.1 - x) (q.2 - y) (by omega) (by omega) (by omega) (by omega)
        (by
          intro ⟨ha, hb⟩
          apply hne
          exact Prod.ext (by show x = q.1; omega) (by show y = q.2; omega))
        (by
          have e1 : x + (q.1 - x) = q.1 := by ring
          have e2 : y + (q.2 - y) = q.2 := by ring
          rw [e1, e2]; exact hI)
      have e1 : x + (q.1 - x) = q.1 := by ring
      have e2 : y + (q.2 - y) = q.2 := by ring
      rw [e1, e2] at hq
      exact hq

/-! ## The four loops of hysteresis thresholding -/

/-- The maximum loop returns the largest suppressed value. -/
theorem max_loop_spec (suppressed : Pixels) (W H : Int)
    (hs : Shape suppressed H.toNat W.toNat) :
    ∃ m, forLoop 0 H (fun i (max_val : Int) =>
        forLoop 0 W (fun j (max_val : Int) =>
          (readPx suppressed i j).map (fun v =>
            if (v : Int) > max_val then (v : Int) else max_val))
          max_val)
      (0 : Int) = some m ∧ IsMaxOf suppressed m := by
  obtain ⟨m, hrun, ⟨hm0, hatt⟩, hQ⟩ := scan_rect
    (fun i j (max_val : Int) =>
      (readPx suppressed i j).map (fun v => if (v : Int) > max_val then (v : Int) else max_val))
    (fun m => 0 ≤ m ∧ (m = 0 ∨ ∃ a b v, readPx suppressed a b = some v ∧ (v : Int) = m))
    (fun a b m => ∀ v, readPx suppressed a b = some v → (v : Int) ≤ m)
    0 H 0 W 0 ⟨le_refl _, Or.inl rfl⟩
    (by
      intro i j m hi0 hi1 hj0 hj1 ⟨hm0, hatt⟩
      obtain ⟨v, hv⟩ := (readPx_some_iff_of_shape hs i j).mpr
        ⟨hi0, by omega, hj0, by omega⟩
      by_cases hgt : (v : Int) > m
      · refine ⟨(v : Int), by simp [hv, hgt], ⟨by omega, Or.inr ⟨i, j, v, hv, rfl⟩⟩, ?_, ?_⟩
        · intro u hu
          rw [hv] at hu
          have := Option.some.inj hu
          omega
        · intro a b hq u hu
          have := hq u hu
          omega
      · refine ⟨m, by simp [hv, hgt], ⟨hm0, hatt⟩, ?_, fun a b hq => hq⟩
        intro u hu
        rw [hv] at hu
        have := Option.some.inj hu
        omega)
  refine ⟨m, hrun, hm0, ?_, hatt⟩
  intro a b v hv
  obtain ⟨h1, h2, h3, h4⟩ := (readPx_some_iff_of_shape hs a b).mp ⟨v, hv⟩
  exact hQ a b h1 (by omega) h3 (by omega) v hv

/-- The classification loop labels every pixel. -/
theorem classification_spec (suppressed final_edges : Pixels) (W H high low : Int)
    (hs : Shape suppressed H.toNat W.toNat) (hf : Shape final_edges H.toNat W.toNat) :
    ∃ e0, forLoop 0 H (fun i final_edges =>
        forLoop 0 W (fun j final_edges =>
          (readPx suppressed i j).bind (fun v =>
            if (v : Int) ≥ high then writePx final_edges i j 255
            else if (v : Int) ≥ low then writePx final_edges i j 100
            else writePx final_edges i j 0))
          final_edges)
      final_edges = some e0 ∧ Shape e0 H.toNat W.toNat ∧
      ∀ a b, 0 ≤ a → a < H → 0 ≤ b → b < W →
        readPx e0 a b = some (classify high low (pixelAt suppressed a b)) := by
  obtain ⟨e0, hrun, hshape, hread⟩ := fill_rect_pixels
    (fun i j final_edges =>
      (readPx suppressed i j).bind (fun v =>
        if (v : Int) ≥ high then writePx final_edges i j 255
        else if (v : Int) ≥ low then writePx final_edges i j 100
        else writePx final_edges i j 0))
    (fun a b => classify high low (pixelAt suppressed a b))
    0 H 0 W H.toNat W.toNat final_edges hf (le_refl _) (by omega) (le_refl _) (by omega)
    (by
      intro i j s hi0 hi1 hj0 hj1 _
      simp only []
      rw [readPx_eq_pixelAt hs i j hi0 (by omega) hj0 (by omega)]
      simp only [Option.some_bind, classify]
      split
      · rfl
      · split <;> rfl)
  refine ⟨e0, hrun, hshape, ?_⟩
  intro a b ha0 ha1 hb0 hb1
  rw [hread a b, if_pos ⟨ha0, ha1, hb0, hb1⟩]

/-- The final loop turns every remaining weak label into 0. -/
theorem demotion_spec (T : Pixels) (W H : Int) (hT : Shape T H.toNat W.toNat) :
    ∃ D, forLoop 0 H (fun i final_edges =>
        forLoop 0 W (fun j final_edges =>
          (readPx final_edges i j).bind (fun v =>
            if v = 100 then writePx final_edges i j 0 else some final_edges))
          final_edges)
      T = some D ∧ Shape D H.toNat W.toNat ∧
      ∀ a b, readPx D a b = (readPx T a b).map demote := by
  obtain ⟨D, hrun, ⟨hshape, hG⟩, hQ⟩ := scan_rect
    (fun i j final_edges =>
      (readPx final_edges i j).bind (fun v =>
        if v = 100 then writePx final_edges i j 0 else some final_edges))
    (fun s => Shape s H.toNat W.toNat ∧
      ∀ a b, readPx s a b = readPx T a b ∨ readPx s a b = (readPx T a b).map demote)
    (fun a b s => readPx s a b = (readPx T a b).map demote)
    0 H 0 W T ⟨hT, fun a b => Or.inl rfl⟩
    (by
      intro i j s hi0 hi1 hj0 hj1 ⟨hss, hsT⟩
      obtain ⟨v, hv⟩ := (readPx_some_iff_of_shape hss i j).mpr
        ⟨hi0, by omega, hj0, by omega⟩
      have hcell : v = 100 → readPx T i j = some 100 := by
        intro h100
        rcases hsT i j with h | h
        · rw [← h, hv, h100]
        · rw [hv] at h
          cases hT' : readPx T i j with
          | none => rw [hT'] at h; cases h
          | some t =>
            rw [hT'] at h
            simp only [Option.map_some', Option.some.injEq, demote] at h
            split at h <;> omega
      by_cases h100 : v = 100
      · obtain ⟨s', hw, hs', hr'⟩ := writePx_spec hss i j 0 hi0 (by omega) hj0 (by omega)
        have hTij := hcell h100
        refine ⟨s', by simp [hv, h100, hw], ⟨hs', ?_⟩, ?_, ?_⟩
        · intro a b
          rw [hr' a b]
          by_cases hab : a = i ∧ b = j
          · obtain ⟨rfl, rfl⟩ := hab
            right
            rw [if_pos ⟨rfl, rfl⟩, hTij]; rfl
          · rw [if_neg hab]; exact hsT a b
        · show readPx s' i j = (readPx T i j).map demote
          rw [hr' i j, if_pos ⟨rfl, rfl⟩, hTij]; rfl
        · intro a b hq
          show readPx s' a b = (readPx T a b).map demote
          have hq' : readPx s a b = (readPx T a b).map demote := hq
          rw [hr' a b]
          by_cases hab : a = i ∧ b = j
          · obtain ⟨rfl, rfl⟩ := hab
            rw [if_pos ⟨rfl, rfl⟩, hTij]; rfl
          · rw [if_neg hab]; exact hq'
      · refine ⟨s, by simp [hv, h100], ⟨hss, hsT⟩, ?_, fun a b hq => hq⟩
        show readPx s i j = (readPx T i j).map demote
        rcases hsT i j with h | h
        · rw [h]
          rw [h] at hv
          rw [hv]
          simp [demote, h100]
        · exact h)
  refine ⟨D, hrun, hshape, ?_⟩
  intro a b
  by_cases hin : 0 ≤ a ∧ a < H ∧ 0 ≤ b ∧ b < W
  · exact hQ a b hin.1 hin.2.1 hin.2.2.1 hin.2.2.2
  · have h1 : readPx D a b = none := by
      cases h : readPx D a b with
      | none => rfl
      | some v =>
        exact absurd ((readPx_some_iff_of_shape hshape a b).mp ⟨v, h⟩) (by omega)
    have h2 : readPx T a b = none := by
      cases h : readPx T a b with
      | none => rfl
      | some v =>
        exact absurd ((readPx_some_iff_of_shape hT a b).mp ⟨v, h⟩) (by omega)
    rw [h1, h2]; rfl

theorem tracked_no_new_weak {W H : Int} {e0 T : Pixels} (h : Tracked W H e0 T)
    (p : Int × Int) (hp : readPx T p.1 p.2 = some 100) : readPx e0 p.1 p.2 = some 100 := by
  rcases h p with h1 | ⟨_, h2, _, _⟩
  · rw [← h1]; exact hp
  · rw [h2] at hp; cases hp

/-- The scan that starts `edge_tracking` at every interior cell labelled 255:
it returns whenever the depth bound exceeds the number of weak labels; the
result is tracked from the classified buffer, and no interior cell labelled
255 keeps a weak interior neighbour. -/
theorem tracking_scan_spec (fuel : Nat) (e0 : Pixels) (W H : Int)
    (hs : Shape e0 H.toNat W.toNat) (hfuel : weak100 e0 < fuel) :
    ∃ T, forLoop 1 (H - 1) (fun i final_edges =>
        forLoop 1 (W - 1) (fun j final_edges =>
          (readPx final_edges i j).bind (fun v =>
            if v = 255 then edge_tracking fuel final_edges i j W H 255
            else some final_edges))
          final_edges)
      e0 = some T ∧ Shape T H.toNat W.toNat ∧ Tracked W H e0 T ∧
      ∀ a b, 1 ≤ a → a < H - 1 → 1 ≤ b → b < W - 1 → readPx T a b = some 255 →
        Closed W H T (a, b) := by
  obtain ⟨T, hrun, ⟨hshape, htr, -⟩, hQ⟩ := scan_rect
    (fun i j final_edges =>
      (readPx final_edges i j).bind (fun v =>
        if v = 255 then edge_tracking fuel final_edges i j W H 255
        else some final_edges))
    (fun s => Shape s H.toNat W.toNat ∧ Tracked W H e0 s ∧ weak100 s ≤ weak100 e0)
    (fun a b s => readPx s a b = some 255 → Closed W H s (a, b))
    1 (H - 1) 1 (W - 1) e0 ⟨hs, fun p => Or.inl rfl, le_refl _⟩
    (by
      intro i j s hi0 hi1 hj0 hj1 ⟨hss, hst, hsw⟩
      have hnn := tracked_no_new_weak hst
      obtain ⟨v, hv⟩ := (readPx_some_iff_of_shape hss i j).mpr
        ⟨by omega, by omega, by omega, by omega⟩
      by_cases h255 : v = 255
      · subst h255
        obtain ⟨s', hrec, hs', hp', hc', hcp', hw'⟩ :=
          edge_tracking_spec W H fuel s i j hss (by omega)
        have hnn' := promoted_no_new_weak hp'
        -- the seed `(i, j)` is strong in `e0` or was promoted from a strong seed
        have hseed : ∃ seed : Int × Int, Interior W H seed ∧
            readPx e0 seed.1 seed.2 = some 255 ∧
            Relation.ReflTransGen (WeakStep e0 W H) seed (i, j) := by
          rcases hst (i, j) with h | ⟨_, _, _, seed, h1, h2, h3⟩
          · refine ⟨(i, j), ⟨by show 0 < i; omega, by show i < H - 1; omega,
              by show 0 < j; omega, by show j < W - 1; omega⟩, ?_, Relation.ReflTransGen.refl⟩
            have h' : readPx s i j = readPx e0 i j := h
            rw [← h', hv]
          · exact ⟨seed, h1, h2, h3⟩
        refine ⟨s', by simp [hv, hrec], ⟨hs', ?_, by omega⟩, fun _ => hc', ?_⟩
        · intro p
          rcases hp' p with h | ⟨h1, h2, h3, h4⟩
          · rcases hst p with h5 | h5
            · left; rw [h, h5]
            · right; exact ⟨h5.1, by rw [h]; exact h5.2.1, h5.2.2.1, h5.2.2.2⟩
          · right
            obtain ⟨seed, hs1, hs2, hs3⟩ := hseed
            exact ⟨hnn p h1, h2, h3, seed, hs1, hs2,
              hs3.trans (weak_chain_mono (fun q hq => hnn q hq) h4)⟩
        · intro a b hq hab'
          have hab : readPx s' a b = some 255 := hab'
          by_cases hsab : readPx s a b = some 255
          · exact closed_mono hnn' (hq hsab)
          · rcases hp' (a, b) with h | ⟨h1, _, _, _⟩
            · have h' : readPx s' a b = readPx s a b := h
              rw [h'] at hab; exact absurd hab hsab
            · exact hcp' (a, b) h1 hab
      · refine ⟨s, by simp [hv, h255], ⟨hss, hst, hsw⟩, ?_, fun a b hq => hq⟩
        intro hc
        have hc' : readPx s i j = some 255 := hc
        rw [hv] at hc'
        exact absurd (Option.some.inj hc') h255)
  exact ⟨T, hrun, hshape, htr, fun a b h1 h2 h3 h4 h5 => hQ a b h1 h2 h3 h4 h5⟩

/-- After the scan, a cell is labelled 255 exactly when it was labelled 255
by the classification or is a weak interior cell that a chain of weak steps
joins to an interior cell labelled 255. -/
theorem tracked_strong_iff {W H : Int} {e0 T : Pixels} (htr : Tracked W H e0 T)
    (hclosed : ∀ a b, 1 ≤ a → a < H - 1 → 1 ≤ b → b < W - 1 → readPx T a b = some 255 →
      Closed W H T (a, b)) (p : Int × Int) :
    readPx T p.1 p.2 = some 255 ↔
      (readPx e0 p.1 p.2 = some 255 ∨
        (readPx e0 p.1 p.2 = some 100 ∧ Interior W H p ∧
          ∃ seed : Int × Int, Interior W H seed ∧ readPx e0 seed.1 seed.2 = some 255 ∧
            Relation.ReflTransGen (WeakStep e0 W H) seed p)) := by
  have keep : ∀ q : Int × Int, readPx e0 q.1 q.2 = some 255 → readPx T q.1 q.2 = some 255 := by
    intro q hq
    rcases htr q with h | ⟨h, _⟩
    · rw [h]; exact hq
    · rw [hq] at h; cases h
  constructor
  · intro hT
    rcases htr p with h | ⟨h1, _, h3, h4⟩
    · left; rw [← h]; exact hT
    · right; exact ⟨h1, h3, h4⟩
  · rintro (h | ⟨h100, hIp, seed, hs1, hs2, hchain⟩)
    · exact keep p h
    · have key : Interior W H p ∧ readPx T p.1 p.2 = some 255 := by
        clear h100 hIp
        induction hchain with
        | refl => exact ⟨hs1, keep seed hs2⟩
        | @tail u v _ hstep ih =>
          obtain ⟨hIu, hTu⟩ := ih
          obtain ⟨hadj, hIv, hv100⟩ := hstep
          refine ⟨hIv, ?_⟩
          have hcl := hclosed u.1 u.2 (by have := hIu.1; omega) hIu.2.1
            (by have := hIu.2.2.1; omega) hIu.2.2.2 hTu
          have hnot := hcl v hadj hIv
          rcases htr v with h | ⟨_, h2, _⟩
          · rw [h] at hnot; exact absurd hv100 hnot
          · exact h2
      exact key.2

/-! ## Hysteresis thresholding as a whole -/

theorem classify_eq_255 (high low : Int) (v : Nat) :
    classify high low v = 255 ↔ (v : Int) ≥ high := by
  unfold classify
  split
  · simp [*]
  · split <;> simp [*]

theorem classify_eq_100 (high low : Int) (v : Nat) :
    classify high low v = 100 ↔ (low ≤ (v : Int) ∧ (v : Int) < high) := by
  unfold classify
  split
  · constructor
    · intro h; cases h
    · intro h; omega
  · split
    · constructor
      · intro _; omega
      · intro _; rfl
    · constructor
      · intro h; cases h
      · intro h; omega

theorem classify_values (high low : Int) (v : Nat) :
    classify high low v = 255 ∨ classify high low v = 100 ∨ classify high low v = 0 := by
  unfold classify
  split
  · left; rfl
  · split
    · right; left; rfl
    · right; right; rfl

/-- `hysteresis_thresholding` on buffers of `H` rows of `W` cells: whenever
the depth bound exceeds the number of cells, the routine returns; with the
thresholds of the maximum `m`, the result holds 255 exactly at the kept
pixels and 0 everywhere else. -/
theorem hysteresis_thresholding_spec (fuel : Nat) (suppressed final_edges : Pixels)
    (W H : Int) (hs : Shape suppressed H.toNat W.toNat)
    (hf : Shape final_edges H.toNat W.toNat) (hfuel : H.toNat * W.toNat < fuel) :
    ∃ m D, IsMaxOf suppressed m ∧
      hysteresis_thresholding fuel suppressed W H final_edges = some D ∧
      Shape D H.toNat W.toNat ∧
      ∀ a b, 0 ≤ a → a < H → 0 ≤ b → b < W →
        (readPx D a b = some 255 ↔
          IsEdge suppressed W H (high_threshold m) (low_threshold m) (a, b)) ∧
        (readPx D a b = some 255 ∨ readPx D a b = some 0) := by
  obtain ⟨m, hmax, hm⟩ := max_loop_spec suppressed W H hs
  obtain ⟨e0, hclass, he0, hr0⟩ := classification_spec suppressed final_edges W H
    (high_threshold m) (low_threshold m) hs hf
  have hw0 : weak100 e0 < fuel := lt_of_le_of_lt (weak100_le he0) hfuel
  obtain ⟨T, htrack, hT, htr, hclosed⟩ := tracking_scan_spec fuel e0 W H he0 hw0
  obtain ⟨D, hdem, hD, hrD⟩ := demotion_spec T W H hT
  refine ⟨m, D, hm, ?_, hD, ?_⟩
  · unfold hysteresis_thresholding
    rw [hmax]
    simp only [Option.some_bind]
    rw [hclass]
    simp only [Option.some_bind]
    rw [htrack]
    simp only [Option.some_bind]
    exact hdem
  · -- translation between labels and suppressed values
    have inb : ∀ q : Int × Int, Interior W H q → 0 ≤ q.1 ∧ q.1 < H ∧ 0 ≤ q.2 ∧ q.2 < W := by
      intro q hq
      obtain ⟨h1, h2, h3, h4⟩ := hq
      exact ⟨by omega, by omega, by omega, by omega⟩
    have lab : ∀ q : Int × Int, 0 ≤ q.1 → q.1 < H → 0 ≤ q.2 → q.2 < W →
        readPx e0 q.1 q.2 = some (classify (high_threshold m) (low_threshold m)
          (pixelAt suppressed q.1 q.2)) := fun q h1 h2 h3 h4 => hr0 q.1 q.2 h1 h2 h3 h4
    have strong : ∀ q : Int × Int, 0 ≤ q.1 → q.1 < H → 0 ≤ q.2 → q.2 < W →
        (readPx e0 q.1 q.2 = some 255 ↔
          (pixelAt suppressed q.1 q.2 : Int) ≥ high_threshold m) := by
      intro q h1 h2 h3 h4
      rw [lab q h1 h2 h3 h4]
      constructor
      · intro h; exact (classify_eq_255 _ _ _).mp (Option.some.inj h)
      · intro h; rw [(classify_eq_255 _ _ _).mpr h]
    have weak : ∀ q : Int × Int, 0 ≤ q.1 → q.1 < H → 0 ≤ q.2 → q.2 < W →
        (readPx e0 q.1 q.2 = some 100 ↔
          (low_threshold m ≤ (pixelAt suppressed q.1 q.2 : Int) ∧
            (pixelAt suppressed q.1 q.2 : Int) < high_threshold m)) := by
      intro q h1 h2 h3 h4
      rw [lab q h1 h2 h3 h4]
      constructor
      · intro h; exact (classify_eq_100 _ _ _).mp (Option.some.inj h)
      · intro h; rw [(classify_eq_100 _ _ _).mpr h]
    have step1 : ∀ u v : Int × Int, WeakStep e0 W H u v →
        SuppStep suppressed W H (high_threshold m) (low_threshold m) u v := by
      intro u v ⟨h1, h2, h3⟩
      obtain ⟨b1, b2, b3, b4⟩ := inb v h2
      have := (weak v b1 b2 b3 b4).mp h3
      exact ⟨h1, h2, this.1, this.2⟩
    have step2 : ∀ u v : Int × Int,
        SuppStep suppressed W H (high_threshold m) (low_threshold m) u v →
        WeakStep e0 W H u v := by
      intro u v ⟨h1, h2, h3, h4⟩
      obtain ⟨b1, b2, b3, b4⟩ := inb v h2
      exact ⟨h1, h2, (weak v b1 b2 b3 b4).mpr ⟨h3, h4⟩⟩
    intro a b ha0 ha1 hb0 hb1
    have hT255 := tracked_strong_iff htr hclosed (a, b)
    have hDab : readPx D a b = (readPx T a b).map demote := hrD a b
    obtain ⟨t, ht⟩ := (readPx_some_iff_of_shape hT a b).mpr
      ⟨ha0, by omega, hb0, by omega⟩
    have ht' : readPx T (a, b).1 (a, b).2 = some t := ht
    -- the label of the tracked cell is 255, 100 or 0
    have htv : t = 255 ∨ t = 100 ∨ t = 0 := by
      rcases htr (a, b) with h | ⟨_, h2, _⟩
      · rw [ht', lab (a, b) ha0 ha1 hb0 hb1] at h
        have := Option.some.inj h
        rw [this]
        exact classify_values _ _ _
      · rw [ht'] at h2; left; exact Option.some.inj h2
    have hD255 : readPx D a b = some 255 ↔ readPx T a b = some 255 := by
      rw [hDab, ht]
      simp only [Option.map_some', Option.some.injEq, demote]
      rcases htv with h | h | h <;> subst h <;> decide
    refine ⟨?_, ?_⟩
    · rw [hD255]
      constructor
      · intro h
        rcases hT255.mp h with h1 | ⟨h1, h2, seed, h3, h4, h5⟩
        · left; exact (strong (a, b) ha0 ha1 hb0 hb1).mp h1
        · right
          have hw := (weak (a, b) ha0 ha1 hb0 hb1).mp h1
          obtain ⟨b1, b2, b3, b4⟩ := inb seed h3
          exact ⟨h2, hw.1, hw.2, seed, h3, (strong seed b1 b2 b3 b4).mp h4,
            Relation.ReflTransGen.mono step1 h5⟩
      · intro h
        apply hT255.mpr
        rcases h with h1 | ⟨h1, h2, h3, seed, h4, h5, h6⟩
        · left; exact (strong (a, b) ha0 ha1 hb0 hb1).mpr h1
        · right
          obtain ⟨b1, b2, b3, b4⟩ := inb seed h4
          exact ⟨(weak (a, b) ha0 ha1 hb0 hb1).mpr ⟨h2, h3⟩, h1, seed, h4,
            (strong seed b1 b2 b3 b4).mpr h5, Relation.ReflTransGen.mono step2 h6⟩
    · rw [hDab, ht]
      simp only [Option.map_some', Option.some.injEq, demote]
      rcases htv with h | h | h <;> subst h <;> decide

/-- The thresholds of a zero maximum are zero. -/
theorem thresholds_of_zero : high_threshold 0 = 0 ∧ low_threshold 0 = 0 := by decide

/-- For an all-zero suppressed buffer every pixel of the result is 255: the
maximum is 0, the high threshold is 0, and `0 >= 0` labels every pixel
strong. -/
theorem hysteresis_all_zero (fuel : Nat) (suppressed final_edges : Pixels)
    (W H : Int) (hs : Shape suppressed H.toNat W.toNat)
    (hf : Shape final_edges H.toNat W.toNat) (hfuel : H.toNat * W.toNat < fuel)
    (hzero : ∀ a b v, readPx suppressed a b = some v → v = 0) :
    ∃ D, hysteresis_thresholding fuel suppressed W H final_edges = some D ∧
      Shape D H.toNat W.toNat ∧
      ∀ a b, 0 ≤ a → a < H → 0 ≤ b → b < W → readPx D a b = some 255 := by
  obtain ⟨m, D, hm, hrun, hD, hchar⟩ :=
    hysteresis_thresholding_spec fuel suppressed final_edges W H hs hf hfuel
  have hm0 : m = 0 := by
    rcases hm.2.2 with h | ⟨a, b, v, hv, hvm⟩
    · exact h
    · rw [← hvm, hzero a b v hv]; rfl
  subst hm0
  refine ⟨D, hrun, hD, ?_⟩
  intro a b ha0 ha1 hb0 hb1
  apply (hchar a b ha0 ha1 hb0 hb1).1.mpr
  left
  rw [thresholds_of_zero.1]
  show (0 : Int) ≤ _
  omega

/-! ## Reads and writes of `float` buffers -/

theorem readF_some_iff_of_shape {p : FloatGrid} {H W : Nat} (hp : ShapeF p H W) (i j : Int) :
    (∃ v, readF p i j = some v) ↔ (0 ≤ i ∧ i < H ∧ 0 ≤ j ∧ j < W) := by
  obtain ⟨hlen, hrow⟩ := hp
  unfold readF
  constructor
  · rintro ⟨v, hv⟩
    split at hv
    · rename_i hij
      split at hv
      · rename_i row hr
        have h1 := List.getElem?_eq_some_iff.mp hr
        obtain ⟨hlt, hget⟩ := h1
        have hmem : row ∈ p := hget ▸ List.getElem_mem hlt
        have h2 := List.getElem?_eq_some_iff.mp hv
        obtain ⟨hlt2, _⟩ := h2
        rw [hrow row hmem] at hlt2
        omega
      · simp at hv
    · simp at hv
  · rintro ⟨h1, h2, h3, h4⟩
    have hlt : i.toNat < p.length := by omega
    have hmem : p[i.toNat] ∈ p := List.getElem_mem hlt
    have hlt2 : j.toNat < (p[i.toNat]).length := by rw [hrow _ hmem]; omega
    refine ⟨(p[i.toNat])[j.toNat], ?_⟩
    simp [h1, h3, List.getElem?_eq_getElem hlt, List.getElem?_eq_getElem hlt2]

theorem writeF_spec {p : FloatGrid} {H W : Nat} (hp : ShapeF p H W) (i j : Int) (v : ℚ)
    (hi0 : 0 ≤ i) (hi1 : i < H) (hj0 : 0 ≤ j) (hj1 : j < W) :
    ∃ p', writeF p i j v = some p' ∧ ShapeF p' H W ∧
      ∀ a b, readF p' a b = if a = i ∧ b = j then some v else readF p a b := by
  obtain ⟨hlen, hrow⟩ := hp
  have hlt : i.toNat < p.length := by omega
  have hmem : p[i.toNat] ∈ p := List.getElem_mem hlt
  have hlt2 : j.toNat < (p[i.toNat]).length := by rw [hrow _ hmem]; omega
  refine ⟨p.set i.toNat ((p[i.toNat]).set j.toNat v), ?_, ⟨?_, ?_⟩, ?_⟩
  · simp [writeF, hi0, hj0, List.getElem?_eq_getElem hlt, hlt2]
  · simp [hlen]
  · intro row hr
    rcases List.mem_or_eq_of_mem_set hr with h | h
    · exact hrow row h
    · rw [h, List.length_set]; exact hrow _ hmem
  · intro a b
    unfold readF
    by_cases hab : 0 ≤ a ∧ 0 ≤ b
    · simp only [hab, and_self, if_true]
      by_cases hai : a = i
      · subst hai
        simp only [List.getElem?_set, if_true, hlt, true_and]
        by_cases hbj : b = j
        · subst hbj
          simp [hlt2]
        · have : ¬ j.toNat = b.toNat := by omega
          simp [hbj, this, List.getElem?_eq_getElem hlt]
      · have : ¬ i.toNat = a.toNat := by omega
        simp [hai, this, List.getElem?_set]
    · have : ¬ (a = i ∧ b = j) := by
        rintro ⟨rfl, rfl⟩; exact hab ⟨hi0, hj0⟩
      simp [hab, this]

theorem shapeF_create_float_array (H W : Int) :
    ShapeF (create_float_array H W) H.toNat W.toNat := by
  refine ⟨by simp [create_float_array], ?_⟩
  intro row hr
  rw [List.eq_of_mem_replicate hr]; simp

theorem readF_create_float_array (H W : Int) (i j : Int) (hi0 : 0 ≤ i) (hi1 : i < H)
    (hj0 : 0 ≤ j) (hj1 : j < W) : readF (create_float_array H W) i j = some 0 := by
  have h1 : i.toNat < H.toNat := by omega
  have h2 : j.toNat < W.toNat := by omega
  simp [readF, create_float_array, hi0, hj0, List.getElem?_replicate, h1, h2]

theorem readF_eq_floatAt {g : FloatGrid} {H W : Nat} (hg : ShapeF g H W) (i j : Int)
    (hi0 : 0 ≤ i) (hi1 : i < H) (hj0 : 0 ≤ j) (hj1 : j < W) :
    readF g i j = some (floatAt g i j) := by
  obtain ⟨v, hv⟩ := (readF_some_iff_of_shape hg i j).mpr ⟨hi0, hi1, hj0, hj1⟩
  simp [floatAt, hv]

/-- The rectangle rule for a `float` buffer: a row-major double loop that
stores a value computed from its indices alone into every cell of a rectangle
fills the rectangle with those values and keeps every other cell. -/
theorem fill_rect_float (body : Int → Int → FloatGrid → Option FloatGrid)
    (g : Int → Int → ℚ) (r0 r1 c0 c1 : Int) (H W : Nat) (p0 : FloatGrid)
    (hp0 : ShapeF p0 H W) (hr0 : 0 ≤ r0) (hr1 : r1 ≤ H) (hc0 : 0 ≤ c0) (hc1 : c1 ≤ W)
    (hbody : ∀ i j s, r0 ≤ i → i < r1 → c0 ≤ j → j < c1 → ShapeF s H W →
      body i j s = writeF s i j (g i j)) :
    ∃ p', forLoop r0 r1 (fun i p => forLoop c0 c1 (fun j q => body i j q) p) p0 = some p' ∧
      ShapeF p' H W ∧
      ∀ a b, readF p' a b =
        if r0 ≤ a ∧ a < r1 ∧ c0 ≤ b ∧ b < c1 then some (g a b) else readF p0 a b := by
  obtain ⟨p', hrun, ⟨hshape, hG⟩, hQ⟩ := scan_rect body
    (fun s => ShapeF s H W ∧ ∀ a b, readF s a b = readF p0 a b ∨
      ((r0 ≤ a ∧ a < r1 ∧ c0 ≤ b ∧ b < c1) ∧ readF s a b = some (g a b)))
    (fun a b s => readF s a b = some (g a b))
    r0 r1 c0 c1 p0 ⟨hp0, fun a b => Or.inl rfl⟩
    (by
      intro i j s hi0 hi1 hj0 hj1 ⟨hss, hsG⟩
      obtain ⟨s', hw, hs', hr'⟩ := writeF_spec hss i j (g i j) (by omega) (by omega)
        (by omega) (by omega)
      refine ⟨s', by rw [hbody i j s hi0 hi1 hj0 hj1 hss, hw], ⟨hs', ?_⟩, ?_, ?_⟩
      · intro a b
        rw [hr' a b]
        by_cases hab : a = i ∧ b = j
        · obtain ⟨rfl, rfl⟩ := hab
          right
          exact ⟨⟨hi0, hi1, hj0, hj1⟩, by rw [if_pos ⟨rfl, rfl⟩]⟩
        · rw [if_neg hab]; exact hsG a b
      · show readF s' i j = some (g i j)
        rw [hr' i j, if_pos ⟨rfl, rfl⟩]
      · intro a b hq
        show readF s' a b = some (g a b)
        have hq' : readF s a b = some (g a b) := hq
        rw [hr' a b]
        by_cases hab : a = i ∧ b = j
        · obtain ⟨rfl, rfl⟩ := hab
          rw [if_pos ⟨rfl, rfl⟩]
        · rw [if_neg hab]; exact hq')
  refine ⟨p', hrun, hshape, ?_⟩
  intro a b
  by_cases hin : r0 ≤ a ∧ a < r1 ∧ c0 ≤ b ∧ b < c1
  · rw [if_pos hin]; exact hQ a b hin.1 hin.2.1 hin.2.2.1 hin.2.2.2
  · rw [if_neg hin]
    rcases hG a b with h | ⟨h, _⟩
    · exact h
    · exact absurd h hin

/-! ## Gaussian blur -/

/-- The loops `for (k = -2; k <= 2; k++)` run their body for `-2, ..., 2`. -/
theorem forLoop_five {σ : Type} (body : Int → σ → Option σ) (s : σ) :
    forLoop (-2) (2 + 1) body s
      = (body (-2) s).bind (fun s => (body (-1) s).bind (fun s => (body 0 s).bind (fun s =>
          (body 1 s).bind (fun s => body 2 s)))) := by
  have e : ((2 : Int) + 1 - -2).toNat = 5 := by decide
  have a1 : (-2 : Int) + 1 = -1 := rfl
  have a2 : (-1 : Int) + 1 = 0 := rfl
  have a3 : (0 : Int) + 1 = 1 := rfl
  have a4 : (1 : Int) + 1 = 2 := rfl
  simp only [forLoop, e, loopFrom, a1, a2, a3, a4, Option.bind_some]

/-- One row of the accumulation of `gaussian_blur`: five reads of row `r`,
weighted by the five entries of a kernel row. -/
theorem gaussian_row_loop (p : Pixels) {H W : Nat} (hp : Shape p H W) (r j : Int)
    (hr0 : 0 ≤ r) (hr1 : r < H) (hj0 : 2 ≤ j) (hj1 : j + 2 < W)
    (K : List (List Int)) (a : Int) (w0 w1 w2 w3 w4 : Int)
    (h0 : kernelAt K a (-2 + 2) = some w0) (h1 : kernelAt K a (-1 + 2) = some w1)
    (h2 : kernelAt K a (0 + 2) = some w2) (h3 : kernelAt K a (1 + 2) = some w3)
    (h4 : kernelAt K a (2 + 2) = some w4) (s : Int) :
    forLoop (-2) (2 + 1) (fun l (sum : Int) =>
        match readPx p r (j + l), kernelAt K a (l + 2) with
        | some v, some w => some (sum + (v : Int) * w)
        | _, _ => none)
      s = some (s + w0 * (pixelAt p r (j - 2) : Int) + w1 * (pixelAt p r (j - 1) : Int)
          + w2 * (pixelAt p r j : Int) + w3 * (pixelAt p r (j + 1) : Int)
          + w4 * (pixelAt p r (j + 2) : Int)) := by
  have hr : ∀ b : Int, j - 2 ≤ b → b ≤ j + 2 → readPx p r b = some (pixelAt p r b) :=
    fun b hb0 hb1 => readPx_eq_pixelAt hp r b hr0 hr1 (by omega) (by omega)
  have e2 : j + -2 = j - 2 := by ring
  have e4 : j + -1 = j - 1 := by ring
  rw [forLoop_five]
  simp only [h0, h1, h2, h3, h4, e2, e4, add_zero,
    hr (j - 2) (by omega) (by omega), hr (j - 1) (by omega) (by omega),
    hr j (by omega) (by omega), hr (j + 1) (by omega) (by omega),
    hr (j + 2) (by omega) (by omega), Option.some_bind]
  congr 1
  ring

/-- The accumulation loops of `gaussian_blur` where the window fits. -/
theorem gaussian_sum_loop (p : Pixels) {H W : Nat} (hp : Shape p H W) (i j : Int)
    (hi0 : 2 ≤ i) (hi1 : i + 2 < H) (hj0 : 2 ≤ j) (hj1 : j + 2 < W) :
    forLoop (-2) (2 + 1) (fun k (sum : Int) =>
        forLoop (-2) (2 + 1) (fun l (sum : Int) =>
          match readPx p (i + k) (j + l),
            kernelAt [[2, 4, 5, 4, 2], [4, 9, 12, 9, 4], [5, 12, 15, 12, 5], [4, 9, 12, 9, 4], [2, 4, 5, 4, 2]]
              (k + 2) (l + 2) with
          | some v, some w => some (sum + (v : Int) * w)
          | _, _ => none)
          sum)
      (0 : Int) = some (gaussian_sum p i j) := by
  rw [forLoop_five]
  rw [gaussian_row_loop p hp (i + (-2)) j (by omega) (by omega) hj0 hj1
    [[2, 4, 5, 4, 2], [4, 9, 12, 9, 4], [5, 12, 15, 12, 5], [4, 9, 12, 9, 4], [2, 4, 5, 4, 2]]
    (-2 + 2)
    2 4 5 4 2 (by decide) (by decide) (by decide) (by decide) (by decide)]
  simp only [Option.some_bind]
  rw [gaussian_row_loop p hp (i + (-1)) j (by omega) (by omega) hj0 hj1
    [[2, 4, 5, 4, 2], [4, 9, 12, 9, 4], [5, 12, 15, 12, 5], [4, 9, 12, 9, 4], [2, 4, 5, 4, 2]]
    (-1 + 2)
    4 9 12 9 4 (by decide) (by decide) (by decide) (by decide) (by decide)]
  simp only [Option.some_bind]
  rw [gaussian_row_loop p hp (i + 0) j (by omega) (by omega) hj0 hj1
    [[2, 4, 5, 4, 2], [4, 9, 12, 9, 4], [5, 12, 15, 12, 5], [4, 9, 12, 9, 4], [2, 4, 5, 4, 2]]
    (0 + 2)
    5 12 15 12 5 (by decide) (by decide) (by decide) (by decide) (by decide)]
  simp only [Option.some_bind]
  rw [gaussian_row_loop p hp (i + 1) j (by omega) (by omega) hj0 hj1
    [[2, 4, 5, 4, 2], [4, 9, 12, 9, 4], [5, 12, 15, 12, 5], [4, 9, 12, 9, 4], [2, 4, 5, 4, 2]]
    (1 + 2)
    4 9 12 9 4 (by decide) (by decide) (by decide) (by decide) (by decide)]
  simp only [Option.some_bind]
  rw [gaussian_row_loop p hp (i + 2) j (by omega) (by omega) hj0 hj1
    [[2, 4, 5, 4, 2], [4, 9, 12, 9, 4], [5, 12, 15, 12, 5], [4, 9, 12, 9, 4], [2, 4, 5, 4, 2]]
    (2 + 2)
    2 4 5 4 2 (by decide) (by decide) (by decide) (by decide) (by decide)]
  have e1 : i + -2 = i - 2 := by ring
  have e3 : i + -1 = i - 1 := by ring
  rw [e1, e3, add_zero]
  simp only [gaussian_sum, gaussian_kernel, window5x5, List.flatten_cons,
    List.flatten_nil, List.cons_append, List.nil_append, List.append_nil,
    List.zipWith_cons_cons, List.zipWith_nil_right, List.sum_cons, List.sum_nil]
  refine congrArg some ?_
  ring

/-- What `gaussian_blur` leaves in a buffer of the image's size: the rounded
quotient of the weighted sum where the 5x5 window fits, the old value
elsewhere. -/
theorem gaussian_blur_spec (ops : FloatOps) (original : PGMImage) (blurred : FloatGrid)
    (h : WellFormed original)
    (hb : ShapeF blurred original.height.toNat original.width.toNat) :
    ∃ out, gaussian_blur ops original blurred = some out ∧
      ShapeF out original.height.toNat original.width.toNat ∧
      ∀ a b, readF out a b =
        if 2 ≤ a ∧ a < original.height - 2 ∧ 2 ≤ b ∧ b < original.width - 2 then
          some (ops.fl (ops.fl ((gaussian_sum original.pixels a b : Int) : ℚ)
            / ops.fl (((159 : Int) : ℚ))))
        else readF blurred a b := by
  have hs := shape_of_wellFormed h
  have hw0 : 0 ≤ original.width := h.1
  have hh0 : 0 ≤ original.height := h.2.1
  obtain ⟨out, hrun, hshape, hread⟩ := fill_rect_float
    (fun i j blurred =>
      (forLoop (-2) (2 + 1) (fun k (sum : Int) =>
          forLoop (-2) (2 + 1) (fun l (sum : Int) =>
            match readPx original.pixels (i + k) (j + l),
              kernelAt [[2, 4, 5, 4, 2], [4, 9, 12, 9, 4], [5, 12, 15, 12, 5],
                [4, 9, 12, 9, 4], [2, 4, 5, 4, 2]] (k + 2) (l + 2) with
            | some v, some w => some (sum + (v : Int) * w)
            | _, _ => none)
            sum)
        (0 : Int)).bind (fun sum =>
        writeF blurred i j (ops.fl (ops.fl (sum : ℚ) / ops.fl (((159 : Int) : ℚ))))))
    (fun a b => ops.fl (ops.fl ((gaussian_sum original.pixels a b : Int) : ℚ)
      / ops.fl (((159 : Int) : ℚ))))
    2 (original.height - 2) 2 (original.width - 2)
    original.height.toNat original.width.toNat blurred hb
    (by omega) (by omega) (by omega) (by omega)
    (by
      intro i j s hi0 hi1 hj0 hj1 _
      simp only []
      rw [gaussian_sum_loop original.pixels hs i j hi0 (by omega) hj0 (by omega)]
      rfl)
  exact ⟨out, hrun, hshape, hread⟩

/-- The 25 weights of the Gaussian kernel sum to 159, so the weighted sum of
a flat neighbourhood is 159 times the value. -/
theorem gaussian_sum_flat (p : Pixels) (i j : Int) (c : Nat)
    (hc : ∀ a b : Int, i - 2 ≤ a → a ≤ i + 2 → j - 2 ≤ b → b ≤ j + 2 → pixelAt p a b = c) :
    gaussian_sum p i j = 159 * (c : Int) := by
  simp only [gaussian_sum, gaussian_kernel, window5x5, List.flatten_cons,
    List.flatten_nil, List.cons_append, List.nil_append, List.append_nil,
    List.zipWith_cons_cons, List.zipWith_nil_right, List.sum_cons, List.sum_nil]
  rw [hc (i - 2) (j - 2) (by omega) (by omega) (by omega) (by omega),
    hc (i - 2) (j - 1) (by omega) (by omega) (by omega) (by omega),
    hc (i - 2) j (by omega) (by omega) (by omega) (by omega),
    hc (i - 2) (j + 1) (by omega) (by omega) (by omega) (by omega),
    hc (i - 2) (j + 2) (by omega) (by omega) (by omega) (by omega),
    hc (i - 1) (j - 2) (by omega) (by omega) (by omega) (by omega),
    hc (i - 1) (j - 1) (by omega) (by omega) (by omega) (by omega),
    hc (i - 1) j (by omega) (by omega) (by omega) (by omega),
    hc (i - 1) (j + 1) (by omega) (by omega) (by omega) (by omega),
    hc (i - 1) (j + 2) (by omega) (by omega) (by omega) (by omega),
    hc i (j - 2) (by omega) (by omega) (by omega) (by omega),
    hc i (j - 1) (by omega) (by omega) (by omega) (by omega),
    hc i j (by omega) (by omega) (by omega) (by omega),
    hc i (j + 1) (by omega) (by omega) (by omega) (by omega),
    hc i (j + 2) (by omega) (by omega) (by omega) (by omega),
    hc (i + 1) (j - 2) (by omega) (by omega) (by omega) (by omega),
    hc (i + 1) (j - 1) (by omega) (by omega) (by omega) (by omega),
    hc (i + 1) j (by omega) (by omega) (by omega) (by omega),
    hc (i + 1) (j + 1) (by omega) (by omega) (by omega) (by omega),
    hc (i + 1) (j + 2) (by omega) (by omega) (by omega) (by omega),
    hc (i + 2) (j - 2) (by omega) (by omega) (by omega) (by omega),
    hc (i + 2) (j - 1) (by omega) (by omega) (by omega) (by omega),
    hc (i + 2) j (by omega) (by omega) (by omega) (by omega),
    hc (i + 2) (j + 1) (by omega) (by omega) (by omega) (by omega),
    hc (i + 2) (j + 2) (by omega) (by omega) (by omega) (by omega)]
  ring

/-! ## The gradient and suppression stages of Canny -/

/-- A loop whose body always returns, returns. -/
theorem forLoop_total {σ : Type} (lo hi : Int) (body : Int → σ → Option σ)
    (hbody : ∀ k, lo ≤ k → k < hi → ∀ s, ∃ s', body k s = some s') (s : σ) :
    ∃ s', forLoop lo hi body s = some s' := by
  by_cases h : hi ≤ lo
  · exact ⟨s, forLoop_empty _ _ _ _ h⟩
  · obtain ⟨s', hs', -⟩ := forLoop_inv lo hi body (fun _ _ => True) s (by omega) trivial
      (fun k t h1 h2 _ => by
        obtain ⟨t', ht'⟩ := hbody k h1 h2 t
        exact ⟨t', ht', trivial⟩)
    exact ⟨s', hs'⟩

/-- A 3x3 table has an entry at every index pair of `0..2`. -/
theorem kernelAt_3x3 (x0 x1 x2 x3 x4 x5 x6 x7 x8 : Int) (a b : Int)
    (ha0 : 0 ≤ a) (ha1 : a ≤ 2) (hb0 : 0 ≤ b) (hb1 : b ≤ 2) :
    ∃ w, kernelAt [[x0, x1, x2], [x3, x4, x5], [x6, x7, x8]] a b = some w := by
  have ha : a = 0 ∨ a = 1 ∨ a = 2 := by omega
  have hb : b = 0 ∨ b = 1 ∨ b = 2 := by omega
  rcases ha with h | h | h <;> rcases hb with h' | h' | h' <;> subst h <;> subst h' <;>
    exact ⟨_, rfl⟩

/-- `compute_gradient_and_magnitude` on buffers of `H` rows of `W` cells
returns two buffers of that shape; the magnitudes are never negative. -/
theorem compute_gradient_and_magnitude_spec (ops : FloatOps)
    (hsqrt : ∀ x : ℚ, 0 ≤ ops.sqrtf x) (blurred magnitude angle : FloatGrid) (W H : Int)
    (hb : ShapeF blurred H.toNat W.toNat) (hm : ShapeF magnitude H.toNat W.toNat)
    (ha : ShapeF angle H.toNat W.toNat)
    (hm0 : ∀ a b v, readF magnitude a b = some v → 0 ≤ v) :
    ∃ m an, compute_gradient_and_magnitude ops blurred W H magnitude angle = some (m, an) ∧
      ShapeF m H.toNat W.toNat ∧ ShapeF an H.toNat W.toNat ∧
      ∀ a b v, readF m a b = some v → 0 ≤ v := by
  obtain ⟨st, hrun, ⟨h1, h2, h3⟩, -⟩ := scan_rect
    (fun i j (st : FloatGrid × FloatGrid × ℚ) =>
      (forLoop (-1) (1 + 1) (fun k (sums : ℚ × ℚ) =>
          forLoop (-1) (1 + 1) (fun l (sums : ℚ × ℚ) =>
            match readF blurred (i + k) (j + l),
              kernelAt [[-1, 0, 1], [-2, 0, 2], [-1, 0, 1]] (k + 1) (l + 1),
              kernelAt [[-1, -2, -1], [0, 0, 0], [1, 2, 1]] (k + 1) (l + 1) with
            | some pixel_val, some gx, some gy =>
              some (ops.fl (sums.1 + ops.fl (pixel_val * (gx : ℚ))),
                ops.fl (sums.2 + ops.fl (pixel_val * (gy : ℚ))))
            | _, _, _ => none)
            sums)
        ((0 : ℚ), (0 : ℚ))).bind (fun sums =>
        let gx_sum := sums.1
        let gy_sum := sums.2
        let m := ops.sqrtf (ops.fl (ops.fl (gx_sum * gx_sum) + ops.fl (gy_sum * gy_sum)))
        (writeF st.1 i j m).bind (fun magnitude =>
          (writeF st.2.1 i j (ops.atan2f_degrees gy_sum gx_sum)).map (fun angle =>
            (magnitude, angle, if m > st.2.2 then m else st.2.2)))))
    (fun st => ShapeF st.1 H.toNat W.toNat ∧ ShapeF st.2.1 H.toNat W.toNat ∧
      ∀ a b v, readF st.1 a b = some v → 0 ≤ v)
    (fun _ _ _ => True)
    1 (H - 1) 1 (W - 1) (magnitude, angle, (0 : ℚ)) ⟨hm, ha, hm0⟩
    (by
      intro i j st hi0 hi1 hj0 hj1 ⟨hs1, hs2, hs3⟩
      obtain ⟨sums, hsums⟩ := forLoop_total (-1) (1 + 1)
        (fun k (sums : ℚ × ℚ) =>
          forLoop (-1) (1 + 1) (fun l (sums : ℚ × ℚ) =>
            match readF blurred (i + k) (j + l),
              kernelAt [[-1, 0, 1], [-2, 0, 2], [-1, 0, 1]] (k + 1) (l + 1),
              kernelAt [[-1, -2, -1], [0, 0, 0], [1, 2, 1]] (k + 1) (l + 1) with
            | some pixel_val, some gx, some gy =>
              some (ops.fl (sums.1 + ops.fl (pixel_val * (gx : ℚ))),
                ops.fl (sums.2 + ops.fl (pixel_val * (gy : ℚ))))
            | _, _, _ => none)
            sums)
        (by
          intro k hk0 hk1 s
          apply forLoop_total
          intro l hl0 hl1 t
          obtain ⟨v, hv⟩ := (readF_some_iff_of_shape hb (i + k) (j + l)).mpr
            ⟨by omega, by omega, by omega, by omega⟩
          obtain ⟨gx, hgx⟩ := kernelAt_3x3 (-1) 0 1 (-2) 0 2 (-1) 0 1 (k + 1) (l + 1)
            (by omega) (by omega) (by omega) (by omega)
          obtain ⟨gy, hgy⟩ := kernelAt_3x3 (-1) (-2) (-1) 0 0 0 1 2 1 (k + 1) (l + 1)
            (by omega) (by omega) (by omega) (by omega)
          exact ⟨_, by rw [hv, hgx, hgy]⟩)
        ((0 : ℚ), (0 : ℚ))
      obtain ⟨m1, hw1, hsm1, hr1⟩ := writeF_spec hs1 i j
        (ops.sqrtf (ops.fl (ops.fl (sums.1 * sums.1) + ops.fl (sums.2 * sums.2))))
        (by omega) (by omega) (by omega) (by omega)
      obtain ⟨a1, hw2, hsa1, -⟩ := writeF_spec hs2 i j (ops.atan2f_degrees sums.2 sums.1)
        (by omega) (by omega) (by omega) (by omega)
      refine ⟨(m1, a1,
          if ops.sqrtf (ops.fl (ops.fl (sums.1 * sums.1) + ops.fl (sums.2 * sums.2))) > st.2.2
          then ops.sqrtf (ops.fl (ops.fl (sums.1 * sums.1) + ops.fl (sums.2 * sums.2)))
          else st.2.2),
        by simp only [hsums, Option.some_bind, hw1, hw2, Option.map_some'],
        ⟨hsm1, hsa1, ?_⟩, trivial, fun _ _ _ => trivial⟩
      intro a b v hv
      have hv' : readF m1 a b = some v := hv
      rw [hr1 a b] at hv'
      by_cases hab : a = i ∧ b = j
      · rw [if_pos hab] at hv'
        rw [← Option.some.inj hv']
        exact hsqrt _
      · rw [if_neg hab] at hv'
        exact hs3 a b v hv')
  refine ⟨st.1, st.2.1, ?_, h1, h2, h3⟩
  unfold compute_gradient_and_magnitude
  simp only []
  rw [hrun]
  rfl

/-- The conversion to `unsigned char` of a clamped magnitude is defined and
gives a byte. -/
theorem float_to_uchar_clamped (m : ℚ) (hm : 0 ≤ m) :
    ∃ v, float_to_uchar (min m 255) = some v ∧ v ≤ 255 := by
  have h1 : (-1 : ℚ) < min m 255 := lt_of_lt_of_le (by norm_num) (le_min hm (by norm_num))
  have h2 : min m 255 < 256 := lt_of_le_of_lt (min_le_right _ _) (by norm_num)
  refine ⟨(Rat.floor (min m 255)).toNat, by simp [float_to_uchar, h1, h2], ?_⟩
  have h3 : Rat.floor (min m 255) ≤ 255 := by
    by_contra hc
    have h4 : ((256 : Int) : ℚ) ≤ min m 255 := Rat.le_floor.mp (by omega)
    have h5 : ((256 : Int) : ℚ) = 256 := by norm_num
    rw [h5] at h4
    exact absurd h4 (not_le.mpr h2)
  omega

/-- `non_maximum_suppression` on buffers of `H` rows of `W` cells with
non-negative magnitudes returns a buffer of that shape. -/
theorem non_maximum_suppression_spec (ops : FloatOps) (mag angle : FloatGrid) (W H : Int)
    (suppressed : Pixels) (hm : ShapeF mag H.toNat W.toNat)
    (ha : ShapeF angle H.toNat W.toNat) (hs : Shape suppressed H.toNat W.toNat)
    (hm0 : ∀ a b v, readF mag a b = some v → 0 ≤ v) :
    ∃ out, non_maximum_suppression ops mag angle W H suppressed = some out ∧
      Shape out H.toNat W.toNat := by
  obtain ⟨out, hrun, hshape, -⟩ := scan_rect
    (fun i j suppressed =>
      (readF angle i j).bind (fun current_angle =>
        let current_angle := normalize_angle ops current_angle
        let qr : Option (ℚ × ℚ) :=
          if (current_angle ≥ 0 ∧ current_angle < 22.5) ∨
              (current_angle ≥ 157.5 ∧ current_angle ≤ 180) then
            (readF mag i (j + 1)).bind (fun q =>
              (readF mag i (j - 1)).map (fun r => (q, r)))
          else if current_angle ≥ 22.5 ∧ current_angle < 67.5 then
            (readF mag (i - 1) (j + 1)).bind (fun q =>
              (readF mag (i + 1) (j - 1)).map (fun r => (q, r)))
          else if current_angle ≥ 67.5 ∧ current_angle < 112.5 then
            (readF mag (i - 1) j).bind (fun q =>
              (readF mag (i + 1) j).map (fun r => (q, r)))
          else if current_angle ≥ 112.5 ∧ current_angle < 157.5 then
            (readF mag (i - 1) (j - 1)).bind (fun q =>
              (readF mag (i + 1) (j + 1)).map (fun r => (q, r)))
          else some ((255 : ℚ), (255 : ℚ))
        qr.bind (fun qr =>
          (readF mag i j).bind (fun m =>
            if m ≥ qr.1 ∧ m ≥ qr.2 then
              (float_to_uchar (min m 255)).bind (fun v => writePx suppressed i j v)
            else writePx suppressed i j 0))))
    (fun s => Shape s H.toNat W.toNat) (fun _ _ _ => True)
    1 (H - 1) 1 (W - 1) suppressed hs
    (by
      intro i j s hi0 hi1 hj0 hj1 hss
      have rd : ∀ a b : Int, i - 1 ≤ a → a ≤ i + 1 → j - 1 ≤ b → b ≤ j + 1 →
          ∃ v, readF mag a b = some v := fun a b h1 h2 h3 h4 =>
        (readF_some_iff_of_shape hm a b).mpr ⟨by omega, by omega, by omega, by omega⟩
      obtain ⟨ang, hang⟩ := (readF_some_iff_of_shape ha i j).mpr
        ⟨by omega, by omega, by omega, by omega⟩
      obtain ⟨m, hmv⟩ := rd i j (by omega) (by omega) (by omega) (by omega)
      obtain ⟨v1, h1⟩ := rd i (j + 1) (by omega) (by omega) (by omega) (by omega)
      obtain ⟨v2, h2⟩ := rd i (j - 1) (by omega) (by omega) (by omega) (by omega)
      obtain ⟨v3, h3⟩ := rd (i - 1) (j + 1) (by omega) (by omega) (by omega) (by omega)
      obtain ⟨v4, h4⟩ := rd (i + 1) (j - 1) (by omega) (by omega) (by omega) (by omega)
      obtain ⟨v5, h5⟩ := rd (i - 1) j (by omega) (by omega) (by omega) (by omega)
      obtain ⟨v6, h6⟩ := rd (i + 1) j (by omega) (by omega) (by omega) (by omega)
      obtain ⟨v7, h7⟩ := rd (i - 1) (j - 1) (by omega) (by omega) (by omega) (by omega)
      obtain ⟨v8, h8⟩ := rd (i + 1) (j + 1) (by omega) (by omega) (by omega) (by omega)
      obtain ⟨u, hu, -⟩ := float_to_uchar_clamped m (hm0 i j m hmv)
      obtain ⟨s1, hw1, hs1, -⟩ := writePx_spec hss i j u (by omega) (by omega) (by omega)
        (by omega)
      obtain ⟨s0, hw0, hs0, -⟩ := writePx_spec hss i j 0 (by omega) (by omega) (by omega)
        (by omega)
      have fin : ∀ qr : ℚ × ℚ, ∃ s', ((readF mag i j).bind (fun m =>
            if m ≥ qr.1 ∧ m ≥ qr.2 then
              (float_to_uchar (min m 255)).bind (fun v => writePx s i j v)
            else writePx s i j 0)) = some s' ∧ Shape s' H.toNat W.toNat := by
        intro qr
        rw [hmv]
        simp only [Option.some_bind]
        by_cases hc : m ≥ qr.1 ∧ m ≥ qr.2
        · exact ⟨s1, by rw [if_pos hc, hu]; exact hw1, hs1⟩
        · exact ⟨s0, by rw [if_neg hc]; exact hw0, hs0⟩
      simp only [hang, Option.some_bind, h1, h2, h3, h4, h5, h6, h7, h8, Option.map_some']
      split
      · obtain ⟨s', h, hs'⟩ := fin (v1, v2)
        exact ⟨s', h, hs', trivial, fun _ _ _ => trivial⟩
      · split
        · obtain ⟨s', h, hs'⟩ := fin (v3, v4)
          exact ⟨s', h, hs', trivial, fun _ _ _ => trivial⟩
        · split
          · obtain ⟨s', h, hs'⟩ := fin (v5, v6)
            exact ⟨s', h, hs', trivial, fun _ _ _ => trivial⟩
          · split
            · obtain ⟨s', h, hs'⟩ := fin (v7, v8)
              exact ⟨s', h, hs', trivial, fun _ _ _ => trivial⟩
            · obtain ⟨s', h, hs'⟩ := fin (255, 255)
              exact ⟨s', h, hs', trivial, fun _ _ _ => trivial⟩)
  exact ⟨out, hrun, hshape⟩

/-! ## Canny end to end, and the value range of every operation -/

theorem sample_ops_sound : sample_ops.Sound :=
  ⟨fun _ _ h => h, fun _ _ => rfl, fun _ => Nat.cast_nonneg _⟩

/-- The normalised angle of `non_maximum_suppression` lies in `[0, 180]`. -/
theorem normalize_angle_range (ops : FloatOps) (hops : ops.Sound) (a : ℚ)
    (h0 : -180 ≤ a) (h1 : a ≤ 180) :
    0 ≤ normalize_angle ops a ∧ normalize_angle ops a ≤ 180 := by
  have e0 : ops.fl 0 = 0 := by
    have := hops.2.1 0 (by norm_num)
    simpa using this
  have e180 : ops.fl 180 = 180 := by
    have := hops.2.1 180 (by norm_num)
    simpa using this
  unfold normalize_angle
  by_cases ha : a < 0
  · rw [if_pos ha]
    constructor
    · rw [← e0]
      exact hops.1 _ _ (by linarith)
    · rw [← e180]
      exact hops.1 _ _ (by linarith)
  · rw [if_neg ha]
    exact ⟨not_lt.mp ha, h1⟩

/-- A property of every successful read is a property of every stored
value. -/
theorem pixels_all_of_reads (p : Pixels) (P : Nat → Prop)
    (h : ∀ a b v, readPx p a b = some v → P v) : ∀ row ∈ p, ∀ v ∈ row, P v := by
  intro row hrow v hv
  obtain ⟨n, hn, hn'⟩ := List.mem_iff_getElem.mp hrow
  obtain ⟨m, hm, hm'⟩ := List.mem_iff_getElem.mp hv
  apply h (n : Int) (m : Int) v
  have e1 : p[n]? = some row := by rw [List.getElem?_eq_getElem hn, hn']
  have e2 : row[m]? = some v := by rw [List.getElem?_eq_getElem hm, hm']
  simp [readPx, e1, e2]

/-- A property of every stored value is a property of every successful
read. -/
theorem reads_all_of_pixels (p : Pixels) (P : Nat → Prop)
    (h : ∀ row ∈ p, ∀ v ∈ row, P v) : ∀ a b v, readPx p a b = some v → P v := by
  intro a b v hr
  unfold readPx at hr
  split at hr
  · split at hr
    · rename_i row hrow
      exact h row (List.getElem?_mem hrow) v (List.getElem?_mem hr)
    · simp at hr
  · simp at hr

/-- An image of the right row shape whose reads are bounded by its `max_val`
satisfies the Grid invariant. -/
theorem gridInvariant_of_reads (out : PGMImage) (H : Nat)
    (hs : Shape out.pixels H out.width.toNat)
    (hv : ∀ a b v, readPx out.pixels a b = some v → (v : Int) ≤ out.max_val) :
    GridInvariant out :=
  ⟨hs.2, pixels_all_of_reads out.pixels (fun v => (v : Int) ≤ out.max_val) hv⟩

/-- A sample inside an image that satisfies the Grid invariant is at most
`max_val`. -/
theorem pixelAt_le_max {img : PGMImage} (h : WellFormed img) (hinv : GridInvariant img)
    (a b : Int) (ha0 : 0 ≤ a) (ha1 : a < img.height) (hb0 : 0 ≤ b) (hb1 : b < img.width) :
    (pixelAt img.pixels a b : Int) ≤ img.max_val := by
  have hr := readPx_eq_pixelAt (shape_of_wellFormed h) a b ha0 (by omega) hb0 (by omega)
  exact reads_all_of_pixels img.pixels (fun v => (v : Int) ≤ img.max_val) hinv.2 a b _ hr

/-- `canny_edge_detector` on a loaded image, with enough fuel for the edge
tracking, returns an image of the same size and `max_val` whose pixels are
all 0 or 255. -/
theorem canny_edge_detector_spec (ops : FloatOps) (fuel : Nat) (img : PGMImage)
    (hops : ops.Sound) (h : WellFormed img)
    (hfuel : img.height.toNat * img.width.toNat < fuel) :
    ∃ out, canny_edge_detector ops fuel img = some out ∧
      out.width = img.width ∧ out.height = img.height ∧ out.max_val = img.max_val ∧
      Shape out.pixels img.height.toNat img.width.toNat ∧
      ∀ a b, 0 ≤ a → a < img.height → 0 ≤ b → b < img.width →
        readPx out.pixels a b = some 255 ∨ readPx out.pixels a b = some 0 := by
  have hzero : ∀ a b v, readF (create_float_array img.height img.width) a b = some v →
      0 ≤ v := by
    intro a b v hv
    have hb := (readF_some_iff_of_shape (shapeF_create_float_array img.height img.width)
      a b).mp ⟨v, hv⟩
    rw [readF_create_float_array _ _ a b hb.1 (by omega) hb.2.2.1 (by omega)] at hv
    rw [← Option.some.inj hv]
  obtain ⟨blurred, hblur, hbs, -⟩ := gaussian_blur_spec ops img
    (create_float_array img.height img.width) h (shapeF_create_float_array _ _)
  obtain ⟨m, an, hgrad, hms, has, hm0⟩ := compute_gradient_and_magnitude_spec ops hops.2.2
    blurred (create_float_array img.height img.width)
    (create_float_array img.height img.width) img.width img.height hbs
    (shapeF_create_float_array _ _) (shapeF_create_float_array _ _) hzero
  obtain ⟨sup, hnms, hsup⟩ := non_maximum_suppression_spec ops m an img.width img.height
    (create_new_image img img.width img.height).pixels hms has
    (shape_create_new_image _ _ _) hm0
  obtain ⟨mx, D, -, hhyst, hD, hchar⟩ := hysteresis_thresholding_spec fuel sup
    (create_new_image img img.width img.height).pixels img.width img.height hsup
    (shape_create_new_image _ _ _) hfuel
  refine ⟨{ create_new_image img img.width img.height with pixels := D }, ?_, rfl, rfl, rfl,
    hD, fun a b h1 h2 h3 h4 => (hchar a b h1 h2 h3 h4).2⟩
  unfold canny_edge_detector
  simp only []
  rw [hblur]
  simp only [Option.some_bind]
  rw [hgrad]
  simp only [Option.some_bind]
  rw [hnms]
  simp only [Option.some_bind]
  rw [hhyst]
  rfl

/-- The mean of a 3x3 window inside an image that satisfies the Grid
invariant is at most `max_val`. -/
theorem average_le_max {img : PGMImage} (h : WellFormed img) (hinv : GridInvariant img)
    (i j : Int) (hi0 : 1 ≤ i) (hi1 : i < img.height - 1) (hj0 : 1 ≤ j)
    (hj1 : j < img.width - 1) :
    ((to_uchar (Int.tdiv (((window3x3 img.pixels i j).sum : Nat) : Int) 9) : Nat) : Int)
      ≤ img.max_val := by
  rw [(average_value h i j).2.2]
  have b := fun a b h1 h2 h3 h4 => pixelAt_le_max h hinv a b h1 h2 h3 h4
  have b1 := b (i - 1) (j - 1) (by omega) (by omega) (by omega) (by omega)
  have b2 := b (i - 1) j (by omega) (by omega) (by omega) (by omega)
  have b3 := b (i - 1) (j + 1) (by omega) (by omega) (by omega) (by omega)
  have b4 := b i (j - 1) (by omega) (by omega) (by omega) (by omega)
  have b5 := b i j (by omega) (by omega) (by omega) (by omega)
  have b6 := b i (j + 1) (by omega) (by omega) (by omega) (by omega)
  have b7 := b (i + 1) (j - 1) (by omega) (by omega) (by omega) (by omega)
  have b8 := b (i + 1) j (by omega) (by omega) (by omega) (by omega)
  have b9 := b (i + 1) (j + 1) (by omega) (by omega) (by omega) (by omega)
  simp only [window3x3, List.sum_cons, List.sum_nil]
  omega

/-- The median of a 3x3 window inside an image that satisfies the Grid
invariant is at most `max_val`. -/
theorem median_le_max {img : PGMImage} (h : WellFormed img) (hinv : GridInvariant img)
    (i j : Int) (hi0 : 1 ≤ i) (hi1 : i < img.height - 1) (hj0 : 1 ≤ j)
    (hj1 : j < img.width - 1) :
    ((median_of_window img.pixels i j : Nat) : Int) ≤ img.max_val := by
  have b := fun a b h1 h2 h3 h4 => pixelAt_le_max h hinv a b h1 h2 h3 h4
  have hmem := (median_of_window_spec img.pixels i j).1
  simp only [window3x3, List.mem_cons, List.mem_singleton, List.not_mem_nil, or_false]
    at hmem
  rcases hmem with e | e | e | e | e | e | e | e | e <;> rw [e]
  · exact b (i - 1) (j - 1) (by omega) (by omega) (by omega) (by omega)
  · exact b (i - 1) j (by omega) (by omega) (by omega) (by omega)
  · exact b (i - 1) (j + 1) (by omega) (by omega) (by omega) (by omega)
  · exact b i (j - 1) (by omega) (by omega) (by omega) (by omega)
  · exact b i j (by omega) (by omega) (by omega) (by omega)
  · exact b i (j + 1) (by omega) (by omega) (by omega) (by omega)
  · exact b (i + 1) (j - 1) (by omega) (by omega) (by omega) (by omega)
  · exact b (i + 1) j (by omega) (by omega) (by omega) (by omega)
  · exact b (i + 1) (j + 1) (by omega) (by omega) (by omega) (by omega)

/-- An image that carries the input's `max_val`, has the shape of its own
dimensions and reads only bytes keeps rows and bytes. -/
theorem keepsRowsAndBytes_of_reads (img out : PGMImage) (H : Nat)
    (hmax : out.max_val = img.max_val) (hs : Shape out.pixels H out.width.toNat)
    (hv : ∀ a b v, readPx out.pixels a b = some v → v ≤ 255) :
    KeepsRowsAndBytes img (some out) := by
  refine ⟨out, rfl, hmax, hs.2, pixels_all_of_reads out.pixels (fun v => v ≤ 255) hv, ?_⟩
  intro h255
  refine gridInvariant_of_reads out H hs ?_
  intro a b v hr
  have := hv a b v hr
  omega

/-! ## The Grid invariant, operation by operation -/

theorem zoom_preserves_grid (img : PGMImage) (f : Int) (h : WellFormed img)
    (hinv : GridInvariant img) (hf : 1 ≤ f) :
    PreservesGrid (nearest_neighbor_zoom img
      (create_new_image img (img.width * f) (img.height * f)) f) := by
  obtain ⟨out, hrun, hw, -, hm, hs, hread⟩ := nearest_neighbor_zoom_spec img
    (create_new_image img (img.width * f) (img.height * f)) f h hf
    (shape_create_new_image _ _ _) (le_refl _) (le_refl _)
  refine ⟨out, hrun, gridInvariant_of_reads out _ (by rw [hw]; exact hs) ?_⟩
  intro a b v hr
  have hb := (readPx_some_iff_of_shape hs a b).mp ⟨v, hr⟩
  obtain ⟨v', h1, h2⟩ := hread a b hb.1 (by have := hb.2.1; omega) hb.2.2.1
    (by have := hb.2.2.2; omega)
  rw [h1] at hr
  rw [← Option.some.inj hr, hm]
  exact reads_all_of_pixels img.pixels (fun v => (v : Int) ≤ img.max_val) hinv.2 _ _ _ h2

theorem shrink_preserves_grid (img : PGMImage) (f : Int) (h : WellFormed img)
    (hinv : GridInvariant img) (hf : 1 ≤ f) :
    PreservesGrid (subsample_shrink img
      (create_new_image img (Int.tdiv img.width f) (Int.tdiv img.height f)) f) := by
  have e1 : Int.tdiv img.width f = img.width / f := Int.tdiv_eq_ediv h.1 (by omega)
  have e2 : Int.tdiv img.height f = img.height / f := Int.tdiv_eq_ediv h.2.1 (by omega)
  obtain ⟨out, hrun, hw, -, hm, hs, hread⟩ := subsample_shrink_spec img
    (create_new_image img (Int.tdiv img.width f) (Int.tdiv img.height f)) f h hf
    (shape_create_new_image _ _ _) (le_of_eq e2) (le_of_eq e1)
  refine ⟨out, hrun, gridInvariant_of_reads out _ (by rw [hw]; exact hs) ?_⟩
  intro a b v hr
  have hb := (readPx_some_iff_of_shape hs a b).mp ⟨v, hr⟩
  obtain ⟨v', h1, h2⟩ := hread a b hb.1 (by have := hb.2.1; omega) hb.2.2.1
    (by have := hb.2.2.2; omega)
  rw [h1] at hr
  rw [← Option.some.inj hr, hm]
  exact reads_all_of_pixels img.pixels (fun v => (v : Int) ≤ img.max_val) hinv.2 _ _ _ h2

theorem average_preserves_grid (img : PGMImage) (h : WellFormed img)
    (hinv : GridInvariant img) : PreservesGrid (average_filter img) := by
  obtain ⟨out, hrun, hw, -, hm, hs, hread⟩ := average_filter_spec img h
  refine ⟨out, hrun, gridInvariant_of_reads out _ (by rw [hw]; exact hs) ?_⟩
  intro a b v hr
  rw [hread a b] at hr
  rw [hm]
  by_cases hin : 1 ≤ a ∧ a < img.height - 1 ∧ 1 ≤ b ∧ b < img.width - 1
  · rw [if_pos hin] at hr
    rw [← Option.some.inj hr]
    exact average_le_max h hinv a b hin.1 hin.2.1 hin.2.2.1 hin.2.2.2
  · rw [if_neg hin] at hr
    exact reads_all_of_pixels img.pixels (fun v => (v : Int) ≤ img.max_val) hinv.2 _ _ _ hr

theorem median_preserves_grid (img : PGMImage) (h : WellFormed img)
    (hinv : GridInvariant img) : PreservesGrid (median_filter img) := by
  obtain ⟨out, hrun, hw, -, hm, hs, hread⟩ := median_filter_spec img h
  refine ⟨out, hrun, gridInvariant_of_reads out _ (by rw [hw]; exact hs) ?_⟩
  intro a b v hr
  rw [hread a b] at hr
  rw [hm]
  by_cases hin : 1 ≤ a ∧ a < img.height - 1 ∧ 1 ≤ b ∧ b < img.width - 1
  · rw [if_pos hin] at hr
    rw [← Option.some.inj hr]
    exact median_le_max h hinv a b hin.1 hin.2.1 hin.2.2.1 hin.2.2.2
  · rw [if_neg hin] at hr
    exact reads_all_of_pixels img.pixels (fun v => (v : Int) ≤ img.max_val) hinv.2 _ _ _ hr

theorem gradient_keeps_rows_and_bytes
    (x0 x1 x2 x3 x4 x5 x6 x7 x8 y0 y1 y2 y3 y4 y5 y6 y7 y8 : Int)
    (img : PGMImage) (h : WellFormed img) :
    KeepsRowsAndBytes img (gradient_edge_detection [[x0, x1, x2], [x3, x4, x5], [x6, x7, x8]]
      [[y0, y1, y2], [y3, y4, y5], [y6, y7, y8]] img) := by
  obtain ⟨out, hrun, hw, -, hm, hs, hread⟩ := gradient_edge_detection_range
    x0 x1 x2 x3 x4 x5 x6 x7 x8 y0 y1 y2 y3 y4 y5 y6 y7 y8 img h
  rw [hrun]
  refine keepsRowsAndBytes_of_reads img out _ hm (by rw [hw]; exact hs) ?_
  intro a b v hr
  have hb := (readPx_some_iff_of_shape hs a b).mp ⟨v, hr⟩
  obtain ⟨v', h1, h2, -⟩ := hread a b hb.1 (by have := hb.2.1; omega) hb.2.2.1
    (by have := hb.2.2.2; omega)
  rw [h1] at hr
  rw [← Option.some.inj hr]
  exact h2

theorem lbp_keeps_rows_and_bytes (img : PGMImage) (h : WellFormed img) :
    KeepsRowsAndBytes img (calculate_lbp img) := by
  obtain ⟨out, hrun, hw, -, hm, hs, hread⟩ := calculate_lbp_spec img h
  rw [hrun]
  refine keepsRowsAndBytes_of_reads img out _ hm (by rw [hw]; exact hs) ?_
  intro a b v hr
  have hb := (readPx_some_iff_of_shape hs a b).mp ⟨v, hr⟩
  rw [hread a b] at hr
  by_cases hin : 1 ≤ a ∧ a < img.height - 1 ∧ 1 ≤ b ∧ b < img.width - 1
  · rw [if_pos hin] at hr
    rw [← Option.some.inj hr]
    have := lbp_code_at_lt img.pixels a b
    omega
  · rw [if_neg hin] at hr
    have hz : readPx (create_new_image img img.width img.height).pixels a b = some 0 :=
      readPx_replicate _ _ a b hb.1 hb.2.1 hb.2.2.1 hb.2.2.2
    rw [hz] at hr
    rw [← Option.some.inj hr]
    omega

theorem canny_keeps_rows_and_bytes (ops : FloatOps) (fuel : Nat) (img : PGMImage)
    (hops : ops.Sound) (h : WellFormed img)
    (hfuel : img.height.toNat * img.width.toNat < fuel) :
    KeepsRowsAndBytes img (canny_edge_detector ops fuel img) := by
  obtain ⟨out, hrun, hw, -, hm, hs, hread⟩ := canny_edge_detector_spec ops fuel img hops h
    hfuel
  rw [hrun]
  refine keepsRowsAndBytes_of_reads img out _ hm (by rw [hw]; exact hs) ?_
  intro a b v hr
  have hb := (readPx_some_iff_of_shape hs a b).mp ⟨v, hr⟩
  rcases hread a b hb.1 (by have := hb.2.1; omega) hb.2.2.1 (by have := hb.2.2.2; omega)
    with e | e
  · rw [e] at hr
    rw [← Option.some.inj hr]
  · rw [e] at hr
    rw [← Option.some.inj hr]
    omega

/-! ## Shrinking twice, and accesses in range -/

/-- `subsample_shrink` into the output that `resize_image` creates returns a
loaded image of size `(w / f, h / f)` that reads as the source at the
multiples of `f`. -/
theorem subsample_shrink_wellFormed (img : PGMImage) (f : Int) (h : WellFormed img)
    (hf : 1 ≤ f) :
    ∃ out, subsample_shrink img
        (create_new_image img (Int.tdiv img.width f) (Int.tdiv img.height f)) f = some out ∧
      WellFormed out ∧ out.width = img.width / f ∧ out.height = img.height / f ∧
      out.max_val = img.max_val ∧
      ∀ i j, 0 ≤ i → i < img.height / f → 0 ≤ j → j < img.width / f →
        ∃ v, readPx out.pixels i j = some v ∧ readPx img.pixels (i * f) (j * f) = some v := by
  have hw0 : 0 ≤ img.width := h.1
  have hh0 : 0 ≤ img.height := h.2.1
  have e1 : Int.tdiv img.width f = img.width / f := Int.tdiv_eq_ediv hw0 (by omega)
  have e2 : Int.tdiv img.height f = img.height / f := Int.tdiv_eq_ediv hh0 (by omega)
  rw [e1, e2]
  obtain ⟨out, hrun, hw, hh, hm, hs, hread⟩ := subsample_shrink_spec img
    (create_new_image img (img.width / f) (img.height / f)) f h hf
    (shape_create_new_image _ _ _) (le_refl _) (le_refl _)
  have hw' : out.width = img.width / f := hw
  have hh' : out.height = img.height / f := hh
  have hs' : Shape out.pixels (img.height / f).toNat (img.width / f).toNat := hs
  have hwq : 0 ≤ img.width / f := Int.ediv_nonneg hw0 (by omega)
  have hhq : 0 ≤ img.height / f := Int.ediv_nonneg hh0 (by omega)
  refine ⟨out, hrun, ⟨by omega, by omega, by rw [hh']; exact hs'.1, ?_⟩, hw', hh', hm, hread⟩
  intro row hr
  refine ⟨by rw [hw']; exact hs'.2 row hr, ?_⟩
  refine pixels_all_of_reads out.pixels (fun v => v < 256) ?_ row hr
  intro a b v hv
  have hb := (readPx_some_iff_of_shape hs' a b).mp ⟨v, hv⟩
  obtain ⟨v', h1, h2⟩ := hread a b hb.1 (by have := hb.2.1; omega) hb.2.2.1
    (by have := hb.2.2.2; omega)
  rw [h1] at hv
  rw [← Option.some.inj hv]
  exact reads_all_of_pixels img.pixels (fun v => v < 256)
    (fun row hrow => (h.2.2.2 row hrow).2) _ _ _ h2

/-- Shrinking by 2 twice gives what shrinking by 4 gives. -/
theorem shrink_twice (img : PGMImage) (h : WellFormed img) :
    ∃ half quarter,
      subsample_shrink img
        (create_new_image img (Int.tdiv img.width 2) (Int.tdiv img.height 2)) 2 = some half ∧
      subsample_shrink half
        (create_new_image half (Int.tdiv half.width 2) (Int.tdiv half.height 2)) 2
          = some quarter ∧
      subsample_shrink img
        (create_new_image img (Int.tdiv img.width 4) (Int.tdiv img.height 4)) 4
          = some quarter ∧
      half.width = img.width / 2 ∧ half.height = img.height / 2 ∧
      quarter.width = img.width / 4 ∧ quarter.height = img.height / 4 := by
  obtain ⟨half, hrun1, hwf1, hw1, hh1, hm1, hr1⟩ :=
    subsample_shrink_wellFormed img 2 h (by omega)
  obtain ⟨quarter, hrun2, hwf2, hw2, hh2, hm2, hr2⟩ :=
    subsample_shrink_wellFormed half 2 hwf1 (by omega)
  obtain ⟨direct, hrun4, hwf4, hw4, hh4, hm4, hr4⟩ :=
    subsample_shrink_wellFormed img 4 h (by omega)
  have ew : quarter.width = img.width / 4 := by rw [hw2, hw1]; omega
  have eh : quarter.height = img.height / 4 := by rw [hh2, hh1]; omega
  have hpix : quarter.pixels = direct.pixels := by
    have s1 := shape_of_wellFormed hwf2
    have s2 := shape_of_wellFormed hwf4
    rw [eh, ew] at s1
    rw [hh4, hw4] at s2
    apply pixels_ext s1 s2
    intro i j hi0 hi1 hj0 hj1
    have hw0 : 0 ≤ img.width := h.1
    have hh0 : 0 ≤ img.height := h.2.1
    obtain ⟨v, hv1, hv2⟩ := hr2 i j hi0 (by rw [hh1]; omega) hj0 (by rw [hw1]; omega)
    obtain ⟨u, hu1, hu2⟩ := hr1 (i * 2) (j * 2) (by omega) (by omega) (by omega) (by omega)
    obtain ⟨t, ht1, ht2⟩ := hr4 i j hi0 (by omega) hj0 (by omega)
    have e1 : i * 2 * 2 = i * 4 := by ring
    have e2 : j * 2 * 2 = j * 4 := by ring
    rw [e1, e2] at hu2
    rw [hv1, ht1, ← ht2, hu2, ← hu1, hv2]
  have heq : quarter = direct := by
    cases quarter with
    | mk w q m p =>
      cases direct with
      | mk w' q' m' p' =>
        simp only [PGMImage.mk.injEq]
        exact ⟨ew.trans hw4.symm, eh.trans hh4.symm, (hm2.trans hm1).trans hm4.symm, hpix⟩
  refine ⟨half, quarter, hrun1, hrun2, ?_, hw1, hh1, ew, eh⟩
  rw [heq]
  exact hrun4

/-- A read of a buffer of `H` rows of `W` bytes fails exactly outside it. -/
theorem readPx_none_iff {p : Pixels} {H W : Nat} (hp : Shape p H W) (i j : Int) :
    readPx p i j = none ↔ ¬ (0 ≤ i ∧ i < H ∧ 0 ≤ j ∧ j < W) := by
  constructor
  · intro hn hin
    obtain ⟨v, hv⟩ := (readPx_some_iff_of_shape hp i j).mpr hin
    rw [hn] at hv
    cases hv
  · intro hout
    cases hr : readPx p i j with
    | none => rfl
    | some v => exact absurd ((readPx_some_iff_of_shape hp i j).mp ⟨v, hr⟩) hout

/-- A write into a buffer of `H` rows of `W` bytes fails exactly outside
it. -/
theorem writePx_none_iff {p : Pixels} {H W : Nat} (hp : Shape p H W) (i j : Int) (v : Nat) :
    writePx p i j v = none ↔ ¬ (0 ≤ i ∧ i < H ∧ 0 ≤ j ∧ j < W) := by
  constructor
  · intro hn hin
    obtain ⟨q, hq, -⟩ := writePx_spec hp i j v hin.1 hin.2.1 hin.2.2.1 hin.2.2.2
    rw [hn] at hq
    cases hq
  · intro hout
    unfold writePx
    split
    · rename_i hij
      split
      · rename_i row hrow
        split
        · rename_i hlt
          exfalso
          apply hout
          have hmem : row ∈ p := List.getElem?_mem hrow
          have hlen := hp.2 row hmem
          obtain ⟨hi, -⟩ := List.getElem?_eq_some_iff.mp hrow
          have := hp.1
          omega
        · rfl
      · rfl
    · rfl

/-- A read of a `float` buffer of `H` rows of `W` cells fails exactly outside
it. -/
theorem readF_none_iff {g : FloatGrid} {H W : Nat} (hg : ShapeF g H W) (i j : Int) :
    readF g i j = none ↔ ¬ (0 ≤ i ∧ i < H ∧ 0 ≤ j ∧ j < W) := by
  constructor
  · intro hn hin
    obtain ⟨v, hv⟩ := (readF_some_iff_of_shape hg i j).mpr hin
    rw [hn] at hv
    cases hv
  · intro hout
    cases hr : readF g i j with
    | none => rfl
    | some v => exact absurd ((readF_some_iff_of_shape hg i j).mp ⟨v, hr⟩) hout

/-- A write into a `float` buffer of `H` rows of `W` cells fails exactly
outside it. -/
theorem writeF_none_iff {g : FloatGrid} {H W : Nat} (hg : ShapeF g H W) (i j : Int) (v : ℚ) :
    writeF g i j v = none ↔ ¬ (0 ≤ i ∧ i < H ∧ 0 ≤ j ∧ j < W) := by
  constructor
  · intro hn hin
    obtain ⟨q, hq, -⟩ := writeF_spec hg i j v hin.1 hin.2.1 hin.2.2.1 hin.2.2.2
    rw [hn] at hq
    cases hq
  · intro hout
    unfold writeF
    split
    · rename_i hij
      split
      · rename_i row hrow
        split
        · rename_i hlt
          exfalso
          apply hout
          have hmem : row ∈ g := List.getElem?_mem hrow
          have hlen := hg.2 row hmem
          obtain ⟨hi, -⟩ := List.getElem?_eq_some_iff.mp hrow
          have := hg.1
          omega
        · rfl
      · rfl
    · rfl

/-! ## The direction buckets of non-maximum suppression -/

/-- Over `[0, 180]` exactly one of the four bucket conditions holds. -/
theorem bucket_exactly_one (a : ℚ) (h0 : 0 ≤ a) (h1 : a ≤ 180) :
    List.count true [decide (bucket_0 a), decide (bucket_45 a), decide (bucket_90 a),
      decide (bucket_135 a)] = 1 := by
  by_cases c1 : a < 22.5
  · have b0 : decide (bucket_0 a) = true := decide_eq_true (Or.inl ⟨h0, c1⟩)
    have b1 : decide (bucket_45 a) = false :=
      decide_eq_false (fun h => absurd c1 (not_lt.mpr h.1))
    have b2 : decide (bucket_90 a) = false :=
      decide_eq_false (fun h => by have := h.1; linarith)
    have b3 : decide (bucket_135 a) = false :=
      decide_eq_false (fun h => by have := h.1; linarith)
    rw [b0, b1, b2, b3]; rfl
  · by_cases c2 : a < 67.5
    · have b0 : decide (bucket_0 a) = false :=
        decide_eq_false (fun h => by
          rcases h with h | h
          · exact c1 h.2
          · have := h.1; linarith)
      have b1 : decide (bucket_45 a) = true := decide_eq_true ⟨not_lt.mp c1, c2⟩
      have b2 : decide (bucket_90 a) = false :=
        decide_eq_false (fun h => absurd c2 (not_lt.mpr h.1))
      have b3 : decide (bucket_135 a) = false :=
        decide_eq_false (fun h => by have := h.1; linarith)
      rw [b0, b1, b2, b3]; rfl
    · by_cases c3 : a < 112.5
      · have b0 : decide (bucket_0 a) = false :=
          decide_eq_false (fun h => by
            rcases h with h | h
            · exact c1 h.2
            · have := h.1; linarith)
        have b1 : decide (bucket_45 a) = false := decide_eq_false (fun h => c2 h.2)
        have b2 : decide (bucket_90 a) = true := decide_eq_true ⟨not_lt.mp c2, c3⟩
        have b3 : decide (bucket_135 a) = false :=
          decide_eq_false (fun h => absurd c3 (not_lt.mpr h.1))
        rw [b0, b1, b2, b3]; rfl
      · by_cases c4 : a < 157.5
        · have b0 : decide (bucket_0 a) = false :=
            decide_eq_false (fun h => by
              rcases h with h | h
              · exact c1 h.2
              · exact absurd c4 (not_lt.mpr h.1))
          have b1 : decide (bucket_45 a) = false := decide_eq_false (fun h => c2 h.2)
          have b2 : decide (bucket_90 a) = false := decide_eq_false (fun h => c3 h.2)
          have b3 : decide (bucket_135 a) = true := decide_eq_true ⟨not_lt.mp c3, c4⟩
          rw [b0, b1, b2, b3]; rfl
        · have b0 : decide (bucket_0 a) = true :=
            decide_eq_true (Or.inr ⟨not_lt.mp c4, h1⟩)
          have b1 : decide (bucket_45 a) = false := decide_eq_false (fun h => c2 h.2)
          have b2 : decide (bucket_90 a) = false := decide_eq_false (fun h => c3 h.2)
          have b3 : decide (bucket_135 a) = false := decide_eq_false (fun h => c4 h.2)
          rw [b0, b1, b2, b3]; rfl

/-- Over `[0, 180]` an angle outside the first three buckets is in the
fourth. -/
theorem bucket_135_of_not (a : ℚ) (h0 : 0 ≤ a) (h1 : a ≤ 180) (n0 : ¬ bucket_0 a)
    (n45 : ¬ bucket_45 a) (n90 : ¬ bucket_90 a) : bucket_135 a := by
  have c1 : ¬ a < 22.5 := fun c => n0 (Or.inl ⟨h0, c⟩)
  have c2 : ¬ a < 67.5 := fun c => n45 ⟨not_lt.mp c1, c⟩
  have c3 : ¬ a < 112.5 := fun c => n90 ⟨not_lt.mp c2, c⟩
  have c4 : a < 157.5 := by
    by_contra c
    exact n0 (Or.inr ⟨not_lt.mp c, h1⟩)
  exact ⟨not_lt.mp c3, c4⟩

/-- A property of every stored `float` is a property of every successful
read. -/
theorem readsF_all_of_cells (g : FloatGrid) (P : ℚ → Prop)
    (h : ∀ row ∈ g, ∀ v ∈ row, P v) : ∀ a b v, readF g a b = some v → P v := by
  intro a b v hr
  unfold readF at hr
  split at hr
  · split at hr
    · rename_i row hrow
      exact h row (List.getElem?_mem hrow) v (List.getElem?_mem hr)
    · simp at hr
  · simp at hr

/-- The keep-or-suppress statement of `non_maximum_suppression` for a
magnitude that is not negative. -/
theorem nms_cell (s : Pixels) (i j : Int) (m q r : ℚ) (hm : 0 ≤ m) :
    (if m ≥ q ∧ m ≥ r then
        (float_to_uchar (min m 255)).bind (fun (v : Nat) => writePx s i j v)
      else writePx s i j 0)
      = writePx s i j (if m ≥ q ∧ m ≥ r then (Rat.floor (min m 255)).toNat else 0) := by
  have h1 : (-1 : ℚ) < min m 255 := lt_of_lt_of_le (by norm_num) (le_min hm (by norm_num))
  have h2 : min m 255 < 256 := lt_of_le_of_lt (min_le_right _ _) (by norm_num)
  have e : float_to_uchar (min m 255) = some (Rat.floor (min m 255)).toNat := by
    unfold float_to_uchar
    rw [if_pos ⟨h1, h2⟩]
  by_cases hc : m ≥ q ∧ m ≥ r
  · rw [if_pos hc, if_pos hc, e, Option.some_bind]
  · rw [if_neg hc, if_neg hc]

/-- What `non_maximum_suppression` returns when every angle lies in
`[-180, 180]` and no magnitude is negative: at interior pixels the value
computed from the two neighbours along the direction of the angle, elsewhere
the pixel of the buffer it was given. -/
theorem non_maximum_suppression_pixels (ops : FloatOps) (mag angle : FloatGrid) (W H : Int)
    (suppressed : Pixels) (hops : ops.Sound) (hm : ShapeF mag H.toNat W.toNat)
    (ha : ShapeF angle H.toNat W.toNat) (hs : Shape suppressed H.toNat W.toNat)
    (hm0 : ∀ row ∈ mag, ∀ v ∈ row, (0 : ℚ) ≤ v)
    (hang : ∀ row ∈ angle, ∀ v ∈ row, (-180 : ℚ) ≤ v ∧ v ≤ 180) :
    ∃ out, non_maximum_suppression ops mag angle W H suppressed = some out ∧
      Shape out H.toNat W.toNat ∧
      ∀ i j, readPx out i j =
        if 1 ≤ i ∧ i < H - 1 ∧ 1 ≤ j ∧ j < W - 1 then some (nms_value ops mag angle i j)
        else readPx suppressed i j := by
  refine fill_rect_pixels
    (fun i j suppressed =>
      (readF angle i j).bind (fun current_angle =>
        let current_angle := normalize_angle ops current_angle
        let qr : Option (ℚ × ℚ) :=
          if (current_angle ≥ 0 ∧ current_angle < 22.5) ∨
              (current_angle ≥ 157.5 ∧ current_angle ≤ 180) then
            (readF mag i (j + 1)).bind (fun q =>
              (readF mag i (j - 1)).map (fun r => (q, r)))
          else if current_angle ≥ 22.5 ∧ current_angle < 67.5 then
            (readF mag (i - 1) (j + 1)).bind (fun q =>
              (readF mag (i + 1) (j - 1)).map (fun r => (q, r)))
          else if current_angle ≥ 67.5 ∧ current_angle < 112.5 then
            (readF mag (i - 1) j).bind (fun q =>
              (readF mag (i + 1) j).map (fun r => (q, r)))
          else if current_angle ≥ 112.5 ∧ current_angle < 157.5 then
            (readF mag (i - 1) (j - 1)).bind (fun q =>
              (readF mag (i + 1) (j + 1)).map (fun r => (q, r)))
          else some ((255 : ℚ), (255 : ℚ))
        qr.bind (fun qr =>
          (readF mag i j).bind (fun m =>
            if m ≥ qr.1 ∧ m ≥ qr.2 then
              (float_to_uchar (min m 255)).bind (fun v => writePx suppressed i j v)
            else writePx suppressed i j 0))))
    (fun i j => nms_value ops mag angle i j)
    1 (H - 1) 1 (W - 1) H.toNat W.toNat suppressed hs (by omega) (by omega) (by omega)
    (by omega) ?_
  intro i j s hi0 hi1 hj0 hj1 hss
  have rd : ∀ a b : Int, i - 1 ≤ a → a ≤ i + 1 → j - 1 ≤ b → b ≤ j + 1 →
      readF mag a b = some (floatAt mag a b) := fun a b h1 h2 h3 h4 =>
    readF_eq_floatAt hm a b (by omega) (by omega) (by omega) (by omega)
  have hra : readF angle i j = some (floatAt angle i j) :=
    readF_eq_floatAt ha i j (by omega) (by omega) (by omega) (by omega)
  have hrng := readsF_all_of_cells angle (fun v => (-180 : ℚ) ≤ v ∧ v ≤ 180) hang i j _ hra
  obtain ⟨r0, r1⟩ := normalize_angle_range ops hops (floatAt angle i j) hrng.1 hrng.2
  have hmn : (0 : ℚ) ≤ floatAt mag i j :=
    readsF_all_of_cells mag (fun v => (0 : ℚ) ≤ v) hm0 i j _
      (rd i j (by omega) (by omega) (by omega) (by omega))
  simp only [hra, Option.some_bind]
  unfold nms_value direction_neighbours
  simp only []
  by_cases c0 : bucket_0 (normalize_angle ops (floatAt angle i j))
  · rw [if_pos (show (normalize_angle ops (floatAt angle i j) ≥ 0 ∧
        normalize_angle ops (floatAt angle i j) < 22.5) ∨
        (normalize_angle ops (floatAt angle i j) ≥ 157.5 ∧
        normalize_angle ops (floatAt angle i j) ≤ 180) from c0), if_pos c0,
      rd i (j + 1) (by omega) (by omega) (by omega) (by omega),
      rd i (j - 1) (by omega) (by omega) (by omega) (by omega),
      rd i j (by omega) (by omega) (by omega) (by omega)]
    simp only [Option.some_bind, Option.map_some']
    exact nms_cell s i j _ _ _ hmn
  · rw [if_neg (show ¬ ((normalize_angle ops (floatAt angle i j) ≥ 0 ∧
        normalize_angle ops (floatAt angle i j) < 22.5) ∨
        (normalize_angle ops (floatAt angle i j) ≥ 157.5 ∧
        normalize_angle ops (floatAt angle i j) ≤ 180)) from c0), if_neg c0]
    by_cases c45 : bucket_45 (normalize_angle ops (floatAt angle i j))
    · rw [if_pos (show normalize_angle ops (floatAt angle i j) ≥ 22.5 ∧
          normalize_angle ops (floatAt angle i j) < 67.5 from c45), if_pos c45,
        rd (i - 1) (j + 1) (by omega) (by omega) (by omega) (by omega),
        rd (i + 1) (j - 1) (by omega) (by omega) (by omega) (by omega),
        rd i j (by omega) (by omega) (by omega) (by omega)]
      simp only [Option.some_bind, Option.map_some']
      exact nms_cell s i j _ _ _ hmn
    · rw [if_neg (show ¬ (normalize_angle ops (floatAt angle i j) ≥ 22.5 ∧
          normalize_angle ops (floatAt angle i j) < 67.5) from c45), if_neg c45]
      by_cases c90 : bucket_90 (normalize_angle ops (floatAt angle i j))
      · rw [if_pos (show normalize_angle ops (floatAt angle i j) ≥ 67.5 ∧
            normalize_angle ops (floatAt angle i j) < 112.5 from c90), if_pos c90,
          rd (i - 1) j (by omega) (by omega) (by omega) (by omega),
          rd (i + 1) j (by omega) (by omega) (by omega) (by omega),
          rd i j (by omega) (by omega) (by omega) (by omega)]
        simp only [Option.some_bind, Option.map_some']
        exact nms_cell s i j _ _ _ hmn
      · have c135 := bucket_135_of_not _ r0 r1 c0 c45 c90
        rw [if_neg (show ¬ (normalize_angle ops (floatAt angle i j) ≥ 67.5 ∧
            normalize_angle ops (floatAt angle i j) < 112.5) from c90), if_neg c90,
          if_pos (show normalize_angle ops (floatAt angle i j) ≥ 112.5 ∧
            normalize_angle ops (floatAt angle i j) < 157.5 from c135),
          rd (i - 1) (j - 1) (by omega) (by omega) (by omega) (by omega),
          rd (i + 1) (j + 1) (by omega) (by omega) (by omega) (by omega),
          rd i j (by omega) (by omega) (by omega) (by omega)]
        simp only [Option.some_bind, Option.map_some']
        exact nms_cell s i j _ _ _ hmn

theorem sample_mag3x3_nonneg : ∀ row ∈ sample_mag3x3, ∀ v ∈ row, (0 : ℚ) ≤ v := by
  intro row hr v hv
  simp only [sample_mag3x3, List.mem_cons, List.mem_singleton, List.not_mem_nil, or_false]
    at hr
  rcases hr with e | e | e <;> subst e <;>
    simp only [List.mem_cons, List.mem_singleton, List.not_mem_nil, or_false] at hv <;>
    rcases hv with e | e | e <;> subst e <;> norm_num

theorem sample_angle3x3_range :
    ∀ row ∈ sample_angle3x3, ∀ v ∈ row, (-180 : ℚ) ≤ v ∧ v ≤ 180 := by
  intro row hr v hv
  simp only [sample_angle3x3, List.mem_cons, List.mem_singleton, List.not_mem_nil, or_false]
    at hr
  rcases hr with e | e | e <;> subst e <;>
    simp only [List.mem_cons, List.mem_singleton, List.not_mem_nil, or_false] at hv <;>
    rcases hv with e | e | e <;> subst e <;> norm_num

/-! # The claims -/

/-- C1. For every loaded grid `src` of width `w` and height `h` and every
integer factor `f >= 2`, `nearest_neighbor_zoom` into a fresh output of size
`(w*f, h*f)` runs to completion and output pixel `(i, j)` holds source pixel
`(floor(i/f), floor(j/f))`, for every `0 <= i < h*f` and `0 <= j < w*f`. -/
theorem C1_zoom_pixel_mapping (src : PGMImage) (f : Int) (hsrc : WellFormed src)
    (hf : 2 ≤ f) :
    ∃ out, nearest_neighbor_zoom src
        (create_new_image src (src.width * f) (src.height * f)) f = some out ∧
      out.width = src.width * f ∧ out.height = src.height * f ∧
      ∀ i j, 0 ≤ i → i < src.height * f → 0 ≤ j → j < src.width * f →
        ∃ v, readPx out.pixels i j = some v ∧
          readPx src.pixels (Int.fdiv i f) (Int.fdiv j f) = some v := by
  obtain ⟨out, h1, h2, h3, -, -, h4⟩ := nearest_neighbor_zoom_spec src
    (create_new_image src (src.width * f) (src.height * f)) f hsrc (by omega)
    (shape_create_new_image _ _ _) (le_refl _) (le_refl _)
  refine ⟨out, h1, h2, h3, ?_⟩
  intro i j hi0 hi1 hj0 hj1
  rw [Int.fdiv_eq_ediv i (by omega), Int.fdiv_eq_ediv j (by omega)]
  exact h4 i j hi0 hi1 hj0 hj1

/-- The theorem of C1 at a concrete image. -/
theorem C1_zoom_pixel_mapping_witness :
    WellFormed sample2x2 ∧ (2 : Int) ≤ 3 ∧
      ∃ out, nearest_neighbor_zoom sample2x2
          (create_new_image sample2x2 (sample2x2.width * 3) (sample2x2.height * 3)) 3
            = some out ∧
        out.width = sample2x2.width * 3 ∧ out.height = sample2x2.height * 3 ∧
        ∀ i j, 0 ≤ i → i < sample2x2.height * 3 → 0 ≤ j → j < sample2x2.width * 3 →
          ∃ v, readPx out.pixels i j = some v ∧
            readPx sample2x2.pixels (Int.fdiv i 3) (Int.fdiv j 3) = some v :=
  ⟨by decide, by decide, C1_zoom_pixel_mapping sample2x2 3 (by decide) (by decide)⟩

/-- C2. For every loaded grid `src` of width `w` and height `h` and every
factor `f >= 1` dividing both, `subsample_shrink` into the fresh output that
`resize_image` creates for it runs to completion and yields a grid of size
`(w/f, h/f)` whose pixel `(i, j)` is source pixel `(i*f, j*f)`; and the menu
request `0.5` on any 4x4 image yields the 2x2 image of the source pixels
`(0,0)`, `(0,2)`, `(2,0)`, `(2,2)`. -/
theorem C2_shrink_pixel_mapping (src : PGMImage) (f : Int) (hsrc : WellFormed src)
    (hf : 1 ≤ f) (hw : f ∣ src.width) (hh : f ∣ src.height) :
    (∃ out, subsample_shrink src
        (create_new_image src (Int.tdiv src.width f) (Int.tdiv src.height f)) f = some out ∧
      out.width = src.width / f ∧ out.height = src.height / f ∧
      out.width * f = src.width ∧ out.height * f = src.height ∧
      Shape out.pixels (src.height / f).toNat (src.width / f).toNat ∧
      ∀ i j, 0 ≤ i → i < src.height / f → 0 ≤ j → j < src.width / f →
        ∃ v, readPx out.pixels i j = some v ∧
          readPx src.pixels (i * f) (j * f) = some v) ∧
    (∀ (m : Int) (a00 a01 a02 a03 a10 a11 a12 a13 a20 a21 a22 a23 a30 a31 a32 a33 : Nat),
      resize_image "0.5" ⟨4, 4, m, [[a00, a01, a02, a03], [a10, a11, a12, a13],
          [a20, a21, a22, a23], [a30, a31, a32, a33]]⟩
        = some (Outcome.done, ⟨2, 2, m, [[a00, a02], [a20, a22]]⟩)) := by
  have hw0 : 0 ≤ src.width := hsrc.1
  have hh0 : 0 ≤ src.height := hsrc.2.1
  have ew : Int.tdiv src.width f = src.width / f := Int.tdiv_eq_ediv hw0 (by omega)
  have eh : Int.tdiv src.height f = src.height / f := Int.tdiv_eq_ediv hh0 (by omega)
  refine ⟨?_, ?_⟩
  · rw [ew, eh]
    obtain ⟨out, h1, h2, h3, -, h5, h6⟩ := subsample_shrink_spec src
      (create_new_image src (src.width / f) (src.height / f)) f hsrc hf
      (shape_create_new_image _ _ _) (le_refl _) (le_refl _)
    have h2' : out.width = src.width / f := h2
    have h3' : out.height = src.height / f := h3
    refine ⟨out, h1, h2', h3', ?_, ?_, h5, h6⟩
    · rw [h2']; exact Int.ediv_mul_cancel hw
    · rw [h3']; exact Int.ediv_mul_cancel hh
  · intros; rfl

/-- The theorem of C2 at a concrete image. -/
theorem C2_shrink_pixel_mapping_witness :
    WellFormed sample4x4 ∧ (1 : Int) ≤ 2 ∧ (2 : Int) ∣ sample4x4.width ∧
      (2 : Int) ∣ sample4x4.height ∧
      (∃ out, subsample_shrink sample4x4
          (create_new_image sample4x4 (Int.tdiv sample4x4.width 2)
            (Int.tdiv sample4x4.height 2)) 2 = some out ∧
        out.width = sample4x4.width / 2 ∧ out.height = sample4x4.height / 2 ∧
        out.width * 2 = sample4x4.width ∧ out.height * 2 = sample4x4.height ∧
        Shape out.pixels (sample4x4.height / 2).toNat (sample4x4.width / 2).toNat ∧
        ∀ i j, 0 ≤ i → i < sample4x4.height / 2 → 0 ≤ j → j < sample4x4.width / 2 →
          ∃ v, readPx out.pixels i j = some v ∧
            readPx sample4x4.pixels (i * 2) (j * 2) = some v) :=
  ⟨by decide, by decide, by decide, by decide,
    (C2_shrink_pixel_mapping sample4x4 2 (by decide) (by decide) (by decide) (by decide)).1⟩

/-- C3. For every loaded grid `G` and every integer `f >= 2`, zooming `G` by
`f` with `nearest_neighbor_zoom` and then shrinking the result by `f` with
`subsample_shrink` restores `G`: both runs complete and the result has the
width, the height and every pixel of `G` (it is `G`). -/
theorem C3_zoom_then_shrink_restores (G : PGMImage) (f : Int) (hG : WellFormed G)
    (hf : 2 ≤ f) :
    ∃ Z S, nearest_neighbor_zoom G
        (create_new_image G (G.width * f) (G.height * f)) f = some Z ∧
      subsample_shrink Z
        (create_new_image Z (Int.tdiv Z.width f) (Int.tdiv Z.height f)) f = some S ∧
      S.width = G.width ∧ S.height = G.height ∧ S.pixels = G.pixels ∧ S = G := by
  obtain ⟨Z, hZ, hS⟩ := zoom_then_shrink G f hG (by omega)
  exact ⟨Z, G, hZ, hS, rfl, rfl, rfl, rfl⟩

/-- The theorem of C3 at a concrete image. -/
theorem C3_zoom_then_shrink_restores_witness :
    WellFormed sample3x5 ∧ (2 : Int) ≤ 2 ∧
      ∃ Z S, nearest_neighbor_zoom sample3x5
          (create_new_image sample3x5 (sample3x5.width * 2) (sample3x5.height * 2)) 2
            = some Z ∧
        subsample_shrink Z
          (create_new_image Z (Int.tdiv Z.width 2) (Int.tdiv Z.height 2)) 2 = some S ∧
        S.width = sample3x5.width ∧ S.height = sample3x5.height ∧
        S.pixels = sample3x5.pixels ∧ S = sample3x5 :=
  ⟨by decide, by decide, C3_zoom_then_shrink_restores sample3x5 2 (by decide) (by decide)⟩

/-- C4. In `resize_image` on a loaded image, a shrink request (`0.5` with
`f = 2`, `0.25` with `f = 4`) fails if and only if the current width or the
current height is not a multiple of `f`; when it fails, the current image
afterwards is the current image before (width, height, `max_val`, pixels). -/
theorem C4_shrink_fails_iff_not_divisible (img : PGMImage) (himg : WellFormed img) :
    (∃ r img', resize_image "0.5" img = some (r, img') ∧
        (r = Outcome.failed ↔ (¬ (2 : Int) ∣ img.width ∨ ¬ (2 : Int) ∣ img.height)) ∧
        (r = Outcome.failed → img' = img)) ∧
    (∃ r img', resize_image "0.25" img = some (r, img') ∧
        (r = Outcome.failed ↔ (¬ (4 : Int) ∣ img.width ∨ ¬ (4 : Int) ∣ img.height)) ∧
        (r = Outcome.failed → img' = img)) :=
  ⟨shrink_request img himg 2 (by decide) _ (resize_image_half img),
    shrink_request img himg 4 (by decide) _ (resize_image_quarter img)⟩

/-- The theorem of C4 at a concrete image. -/
theorem C4_shrink_fails_iff_not_divisible_witness :
    WellFormed sample3x5 ∧
      (∃ r img', resize_image "0.5" sample3x5 = some (r, img') ∧
          (r = Outcome.failed ↔
            (¬ (2 : Int) ∣ sample3x5.width ∨ ¬ (2 : Int) ∣ sample3x5.height)) ∧
          (r = Outcome.failed → img' = sample3x5)) ∧
      (∃ r img', resize_image "0.25" sample3x5 = some (r, img') ∧
          (r = Outcome.failed ↔
            (¬ (4 : Int) ∣ sample3x5.width ∨ ¬ (4 : Int) ∣ sample3x5.height)) ∧
          (r = Outcome.failed → img' = sample3x5)) :=
  ⟨by decide, C4_shrink_fails_iff_not_divisible sample3x5 (by decide)⟩

/-- C5, evaluated at the factor text `0.3333333333`.  The text is none of the
four supported ones, and it has 12 characters: with its terminating zero it
does not fit `char input_factor[10]`, the `scanf` of `resize_image` writes
past the array, and the run has no defined result (`none`), so the request
is not rejected with the image kept.  (Texts that fit the buffer, and the
filter and edge selectors, are covered by `unrecognized_option_rejected`.) -/
theorem C5_overlong_factor_text :
    "0.3333333333" ≠ "2" ∧ "0.3333333333" ≠ "3" ∧ "0.3333333333" ≠ "0.5" ∧
      "0.3333333333" ≠ "0.25" ∧ WellFormed sample2x2 ∧
      resize_image "0.3333333333" sample2x2 = none ∧
      resize_image "0.3333333333" sample2x2 ≠ some (Outcome.failed, sample2x2) := by
  decide

/-- C6. For every loaded grid `src`, `average_filter` runs to completion,
and at every interior pixel (row in `[1, height-2]`, column in
`[1, width-2]`) the output byte `v` is the C quotient `sum / 9` (truncating
division) of the sum of the nine samples of the 3x3 neighbourhood in `src`
itself; that quotient is below 256, so the conversion to `unsigned char`
stores it unchanged. -/
theorem C6_average_interior (src : PGMImage) (hsrc : WellFormed src) :
    ∃ out, average_filter src = some out ∧
      ∀ i j, 1 ≤ i → i ≤ src.height - 2 → 1 ≤ j → j ≤ src.width - 2 →
        ∃ v, readPx out.pixels i j = some v ∧
          (v : Int) = Int.tdiv (((window3x3 src.pixels i j).sum : Nat) : Int) 9 ∧
          v = (window3x3 src.pixels i j).sum / 9 ∧
          Int.tdiv (((window3x3 src.pixels i j).sum : Nat) : Int) 9 < 2 ^ 8 ∧
          to_uchar (Int.tdiv (((window3x3 src.pixels i j).sum : Nat) : Int) 9) = v := by
  obtain ⟨out, hrun, -, -, -, -, hread⟩ := average_filter_spec src hsrc
  refine ⟨out, hrun, ?_⟩
  intro i j hi0 hi1 hj0 hj1
  obtain ⟨e1, e2, e3⟩ := average_value hsrc i j
  refine ⟨(window3x3 src.pixels i j).sum / 9, ?_, e1.symm, rfl, ?_, e3⟩
  · rw [hread i j, if_pos ⟨hi0, by omega, hj0, by omega⟩, e3]
  · rw [e1]
    have h256 : (2 : Int) ^ 8 = 256 := by norm_num
    rw [h256]
    exact_mod_cast e2

/-- The theorem of C6 at a concrete image. -/
theorem C6_average_interior_witness :
    WellFormed sample4x4 ∧
      ∃ out, average_filter sample4x4 = some out ∧
        ∀ i j, 1 ≤ i → i ≤ sample4x4.height - 2 → 1 ≤ j → j ≤ sample4x4.width - 2 →
          ∃ v, readPx out.pixels i j = some v ∧
            (v : Int) = Int.tdiv (((window3x3 sample4x4.pixels i j).sum : Nat) : Int) 9 ∧
            v = (window3x3 sample4x4.pixels i j).sum / 9 ∧
            Int.tdiv (((window3x3 sample4x4.pixels i j).sum : Nat) : Int) 9 < 2 ^ 8 ∧
            to_uchar (Int.tdiv (((window3x3 sample4x4.pixels i j).sum : Nat) : Int) 9) = v :=
  ⟨by decide, C6_average_interior sample4x4 (by decide)⟩

/-- C7. For every loaded grid `src`, `median_filter` runs to completion, and
at every interior pixel the output byte `m` is the fifth smallest of the nine
samples of the 3x3 neighbourhood in `src`: it is one of the nine, at least
five of them are `<= m`, at least five are `>= m`, and it stands fifth when
the nine are listed in ascending order. -/
theorem C7_median_interior (src : PGMImage) (hsrc : WellFormed src) :
    ∃ out, median_filter src = some out ∧
      ∀ i j, 1 ≤ i → i ≤ src.height - 2 → 1 ≤ j → j ≤ src.width - 2 →
        ∃ m, readPx out.pixels i j = some m ∧
          m ∈ window3x3 src.pixels i j ∧
          5 ≤ (window3x3 src.pixels i j).countP (fun x => decide (x ≤ m)) ∧
          5 ≤ (window3x3 src.pixels i j).countP (fun x => decide (m ≤ x)) ∧
          m = ((window3x3 src.pixels i j).insertionSort (fun x y => x ≤ y)).getD 4 0 := by
  obtain ⟨out, hrun, -, -, -, -, hread⟩ := median_filter_spec src hsrc
  refine ⟨out, hrun, ?_⟩
  intro i j hi0 hi1 hj0 hj1
  refine ⟨median_of_window src.pixels i j, ?_, median_of_window_spec src.pixels i j⟩
  rw [hread i j, if_pos ⟨hi0, by omega, hj0, by omega⟩]

/-- The theorem of C7 at a concrete image. -/
theorem C7_median_interior_witness :
    WellFormed sample4x4 ∧
      ∃ out, median_filter sample4x4 = some out ∧
        ∀ i j, 1 ≤ i → i ≤ sample4x4.height - 2 → 1 ≤ j → j ≤ sample4x4.width - 2 →
          ∃ m, readPx out.pixels i j = some m ∧
            m ∈ window3x3 sample4x4.pixels i j ∧
            5 ≤ (window3x3 sample4x4.pixels i j).countP (fun x => decide (x ≤ m)) ∧
            5 ≤ (window3x3 sample4x4.pixels i j).countP (fun x => decide (m ≤ x)) ∧
            m = ((window3x3 sample4x4.pixels i j).insertionSort
              (fun x y => x ≤ y)).getD 4 0 :=
  ⟨by decide, C7_median_interior sample4x4 (by decide)⟩

/-- C8. For every loaded grid `G` of any size (width or height below 3
included), `average_filter` and `median_filter` run to completion and return
a grid of the same width, height and `max_val`, with rows of the same shape,
in which every pixel of the outermost ring (row 0, row `height-1`, column 0,
column `width-1`) is the pixel of `G` at that place. -/
theorem C8_filters_keep_border (G : PGMImage) (hG : WellFormed G) :
    ∃ a m, average_filter G = some a ∧ median_filter G = some m ∧
      (a.width = G.width ∧ a.height = G.height ∧ a.max_val = G.max_val) ∧
      (m.width = G.width ∧ m.height = G.height ∧ m.max_val = G.max_val) ∧
      Shape a.pixels G.height.toNat G.width.toNat ∧
      Shape m.pixels G.height.toNat G.width.toNat ∧
      ∀ i j, 0 ≤ i → i < G.height → 0 ≤ j → j < G.width →
        (i = 0 ∨ i = G.height - 1 ∨ j = 0 ∨ j = G.width - 1) →
        ∃ v, readPx G.pixels i j = some v ∧ readPx a.pixels i j = some v ∧
          readPx m.pixels i j = some v := by
  obtain ⟨a, ha, haw, hah, ham, has, har⟩ := average_filter_spec G hG
  obtain ⟨m, hm, hmw, hmh, hmm, hms, hmr⟩ := median_filter_spec G hG
  refine ⟨a, m, ha, hm, ⟨haw, hah, ham⟩, ⟨hmw, hmh, hmm⟩, has, hms, ?_⟩
  intro i j hi0 hi1 hj0 hj1 hring
  obtain ⟨v, hv⟩ := (readPx_some_iff_of_shape (shape_of_wellFormed hG) i j).mpr
    ⟨hi0, by omega, hj0, by omega⟩
  have hnot : ¬ (1 ≤ i ∧ i < G.height - 1 ∧ 1 ≤ j ∧ j < G.width - 1) := by omega
  exact ⟨v, hv, by rw [har i j, if_neg hnot, hv], by rw [hmr i j, if_neg hnot, hv]⟩

/-- The theorem of C8 at a concrete image. -/
theorem C8_filters_keep_border_witness :
    WellFormed sample2x2 ∧
      ∃ a m, average_filter sample2x2 = some a ∧ median_filter sample2x2 = some m ∧
        (a.width = sample2x2.width ∧ a.height = sample2x2.height ∧
          a.max_val = sample2x2.max_val) ∧
        (m.width = sample2x2.width ∧ m.height = sample2x2.height ∧
          m.max_val = sample2x2.max_val) ∧
        Shape a.pixels sample2x2.height.toNat sample2x2.width.toNat ∧
        Shape m.pixels sample2x2.height.toNat sample2x2.width.toNat ∧
        ∀ i j, 0 ≤ i → i < sample2x2.height → 0 ≤ j → j < sample2x2.width →
          (i = 0 ∨ i = sample2x2.height - 1 ∨ j = 0 ∨ j = sample2x2.width - 1) →
          ∃ v, readPx sample2x2.pixels i j = some v ∧ readPx a.pixels i j = some v ∧
            readPx m.pixels i j = some v :=
  ⟨by decide, C8_filters_keep_border sample2x2 (by decide)⟩

/-- C9. A flat image is a fixed point of averaging: for every loaded grid all
of whose pixels hold the same value `c`, `average_filter` returns the input
grid itself (same dimensions, `max_val`, every pixel `c`). -/
theorem C9_flat_image_fixed_point (G : PGMImage) (c : Nat) (hG : WellFormed G)
    (hflat : ∀ row ∈ G.pixels, ∀ v ∈ row, v = c) :
    average_filter G = some G := by
  obtain ⟨out, hrun, hw, hh, hm, hs, hread⟩ := average_filter_spec G hG
  have hGs := shape_of_wellFormed hG
  have hpix : out.pixels = G.pixels := by
    apply pixels_ext hs hGs
    intro i j hi0 hi1 hj0 hj1
    rw [hread i j]
    by_cases hint : 1 ≤ i ∧ i < G.height - 1 ∧ 1 ≤ j ∧ j < G.width - 1
    · rw [if_pos hint]
      have hc : ∀ a b : Int, i - 1 ≤ a → a ≤ i + 1 → j - 1 ≤ b → b ≤ j + 1 →
          pixelAt G.pixels a b = c := by
        intro a b h1 h2 h3 h4
        have := pixelAt_flat hGs c hflat a b (by omega) (by omega) (by omega) (by omega)
        simp [pixelAt, this]
      have hsum : (window3x3 G.pixels i j).sum = 9 * c := by
        simp only [window3x3, List.sum_cons, List.sum_nil]
        rw [hc (i - 1) (j - 1) (by omega) (by omega) (by omega) (by omega),
          hc (i - 1) j (by omega) (by omega) (by omega) (by omega),
          hc (i - 1) (j + 1) (by omega) (by omega) (by omega) (by omega),
          hc i (j - 1) (by omega) (by omega) (by omega) (by omega),
          hc i j (by omega) (by omega) (by omega) (by omega),
          hc i (j + 1) (by omega) (by omega) (by omega) (by omega),
          hc (i + 1) (j - 1) (by omega) (by omega) (by omega) (by omega),
          hc (i + 1) j (by omega) (by omega) (by omega) (by omega),
          hc (i + 1) (j + 1) (by omega) (by omega) (by omega) (by omega)]
        omega
      rw [(average_value hG i j).2.2, hsum,
        pixelAt_flat hGs c hflat i j hi0 hi1 hj0 hj1]
      congr 1
      omega
    · rw [if_neg hint]
  rw [hrun]
  cases out with
  | mk w h m p =>
    cases G with
    | mk w' h' m' p' =>
      simp only [PGMImage.mk.injEq] at *
      exact congrArg some (by
        simp only [PGMImage.mk.injEq]
        exact ⟨hw, hh, hm, hpix⟩)

/-- The theorem of C9 at a concrete image. -/
theorem C9_flat_image_fixed_point_witness :
    WellFormed flat5x5 ∧ (∀ row ∈ flat5x5.pixels, ∀ v ∈ row, v = 100) ∧
      average_filter flat5x5 = some flat5x5 :=
  ⟨by decide, by decide, C9_flat_image_fixed_point flat5x5 100 (by decide) (by decide)⟩

/-- C10. For every loaded grid `src`, `sobel_edge_detection` and
`prewitt_edge_detection` run to completion, and at every interior pixel the
Sobel output is `min(255, |Gx.I| + |Gy.I|)` for the Sobel kernels and the
Prewitt output is the same expression for the Prewitt kernels, `K.I` being
the integer sum of the 3x3 neighbourhood weighted by `K`; the two routines
are one routine (`gradient_edge_detection`) applied to the two kernel pairs,
so they differ in the kernel weights only. -/
theorem C10_sobel_prewitt_magnitude (src : PGMImage) (hsrc : WellFormed src) :
    (∃ so pr, sobel_edge_detection src = some so ∧ prewitt_edge_detection src = some pr ∧
      ∀ i j, 1 ≤ i → i ≤ src.height - 2 → 1 ≤ j → j ≤ src.width - 2 →
        (∃ v, readPx so.pixels i j = some v ∧ (v : Int) = min 255
          (|weighted_sum [[-1, 0, 1], [-2, 0, 2], [-1, 0, 1]] src.pixels i j|
            + |weighted_sum [[-1, -2, -1], [0, 0, 0], [1, 2, 1]] src.pixels i j|)) ∧
        (∃ v, readPx pr.pixels i j = some v ∧ (v : Int) = min 255
          (|weighted_sum [[-1, 0, 1], [-1, 0, 1], [-1, 0, 1]] src.pixels i j|
            + |weighted_sum [[-1, -1, -1], [0, 0, 0], [1, 1, 1]] src.pixels i j|))) ∧
    sobel_edge_detection = gradient_edge_detection
      [[-1, 0, 1], [-2, 0, 2], [-1, 0, 1]] [[-1, -2, -1], [0, 0, 0], [1, 2, 1]] ∧
    prewitt_edge_detection = gradient_edge_detection
      [[-1, 0, 1], [-1, 0, 1], [-1, 0, 1]] [[-1, -1, -1], [0, 0, 0], [1, 1, 1]] := by
  obtain ⟨so, hso, -, -, -, -, hsr⟩ :=
    gradient_edge_detection_spec (-1) 0 1 (-2) 0 2 (-1) 0 1 (-1) (-2) (-1) 0 0 0 1 2 1 src hsrc
  obtain ⟨pr, hpr, -, -, -, -, hprr⟩ :=
    gradient_edge_detection_spec (-1) 0 1 (-1) 0 1 (-1) 0 1 (-1) (-1) (-1) 0 0 0 1 1 1 src hsrc
  refine ⟨⟨so, pr, hso, hpr, ?_⟩, rfl, rfl⟩
  intro i j hi0 hi1 hj0 hj1
  have hint : 1 ≤ i ∧ i < src.height - 1 ∧ 1 ≤ j ∧ j < src.width - 1 := by omega
  have nonneg : ∀ a b : Int, 0 ≤ min 255 (|a| + |b|) := fun a b =>
    le_min (by decide) (add_nonneg (abs_nonneg a) (abs_nonneg b))
  refine ⟨⟨_, by rw [hsr i j, if_pos hint], ?_⟩, ⟨_, by rw [hprr i j, if_pos hint], ?_⟩⟩
  · exact Int.toNat_of_nonneg (nonneg _ _)
  · exact Int.toNat_of_nonneg (nonneg _ _)

/-- The theorem of C10 at a concrete image. -/
theorem C10_sobel_prewitt_magnitude_witness :
    WellFormed sample4x4 ∧
      ((∃ so pr, sobel_edge_detection sample4x4 = some so ∧
          prewitt_edge_detection sample4x4 = some pr ∧
        ∀ i j, 1 ≤ i → i ≤ sample4x4.height - 2 → 1 ≤ j → j ≤ sample4x4.width - 2 →
          (∃ v, readPx so.pixels i j = some v ∧ (v : Int) = min 255
            (|weighted_sum [[-1, 0, 1], [-2, 0, 2], [-1, 0, 1]] sample4x4.pixels i j|
              + |weighted_sum [[-1, -2, -1], [0, 0, 0], [1, 2, 1]] sample4x4.pixels i j|)) ∧
          (∃ v, readPx pr.pixels i j = some v ∧ (v : Int) = min 255
            (|weighted_sum [[-1, 0, 1], [-1, 0, 1], [-1, 0, 1]] sample4x4.pixels i j|
              + |weighted_sum [[-1, -1, -1], [0, 0, 0], [1, 1, 1]] sample4x4.pixels i j|))) ∧
      sobel_edge_detection = gradient_edge_detection
        [[-1, 0, 1], [-2, 0, 2], [-1, 0, 1]] [[-1, -2, -1], [0, 0, 0], [1, 2, 1]] ∧
      prewitt_edge_detection = gradient_edge_detection
        [[-1, 0, 1], [-1, 0, 1], [-1, 0, 1]] [[-1, -1, -1], [0, 0, 0], [1, 1, 1]]) :=
  ⟨by decide, C10_sobel_prewitt_magnitude sample4x4 (by decide)⟩

/-- C11. For every loaded grid, `sobel_edge_detection` and
`prewitt_edge_detection` run to completion; the output has the width and the
height of the input and rows of that shape, every output value lies in
`[0, 255]`, and every pixel of the outermost ring (row 0, row `height-1`,
column 0, column `width-1`) is 0, so that the whole output is 0 when the
width or the height is below 3. -/
theorem C11_gradient_range_and_border (src : PGMImage) (hsrc : WellFormed src) :
    ∃ so pr, sobel_edge_detection src = some so ∧ prewitt_edge_detection src = some pr ∧
      (so.width = src.width ∧ so.height = src.height) ∧
      (pr.width = src.width ∧ pr.height = src.height) ∧
      Shape so.pixels src.height.toNat src.width.toNat ∧
      Shape pr.pixels src.height.toNat src.width.toNat ∧
      ∀ i j, 0 ≤ i → i < src.height → 0 ≤ j → j < src.width →
        ∃ v u, readPx so.pixels i j = some v ∧ readPx pr.pixels i j = some u ∧
          (0 ≤ v ∧ v ≤ 255) ∧ (0 ≤ u ∧ u ≤ 255) ∧
          ((i = 0 ∨ i = src.height - 1 ∨ j = 0 ∨ j = src.width - 1) → v = 0 ∧ u = 0) ∧
          ((src.width < 3 ∨ src.height < 3) → v = 0 ∧ u = 0) := by
  obtain ⟨so, hso, hsw, hsh, -, hss, hsr⟩ :=
    gradient_edge_detection_range (-1) 0 1 (-2) 0 2 (-1) 0 1 (-1) (-2) (-1) 0 0 0 1 2 1
      src hsrc
  obtain ⟨pr, hpr, hpw, hph, -, hps, hprr⟩ :=
    gradient_edge_detection_range (-1) 0 1 (-1) 0 1 (-1) 0 1 (-1) (-1) (-1) 0 0 0 1 1 1
      src hsrc
  refine ⟨so, pr, hso, hpr, ⟨hsw, hsh⟩, ⟨hpw, hph⟩, hss, hps, ?_⟩
  intro i j hi0 hi1 hj0 hj1
  obtain ⟨v, hv, hv255, hv0⟩ := hsr i j hi0 hi1 hj0 hj1
  obtain ⟨u, hu, hu255, hu0⟩ := hprr i j hi0 hi1 hj0 hj1
  refine ⟨v, u, hv, hu, ⟨Nat.zero_le _, hv255⟩, ⟨Nat.zero_le _, hu255⟩, ?_, ?_⟩
  · intro hring
    have hn : ¬ (1 ≤ i ∧ i < src.height - 1 ∧ 1 ≤ j ∧ j < src.width - 1) := by omega
    exact ⟨hv0 hn, hu0 hn⟩
  · intro hsmall
    have hn : ¬ (1 ≤ i ∧ i < src.height - 1 ∧ 1 ≤ j ∧ j < src.width - 1) := by omega
    exact ⟨hv0 hn, hu0 hn⟩

/-- The theorem of C11 at a concrete image. -/
theorem C11_gradient_range_and_border_witness :
    WellFormed sample4x4 ∧
      ∃ so pr, sobel_edge_detection sample4x4 = some so ∧
        prewitt_edge_detection sample4x4 = some pr ∧
        (so.width = sample4x4.width ∧ so.height = sample4x4.height) ∧
        (pr.width = sample4x4.width ∧ pr.height = sample4x4.height) ∧
        Shape so.pixels sample4x4.height.toNat sample4x4.width.toNat ∧
        Shape pr.pixels sample4x4.height.toNat sample4x4.width.toNat ∧
        ∀ i j, 0 ≤ i → i < sample4x4.height → 0 ≤ j → j < sample4x4.width →
          ∃ v u, readPx so.pixels i j = some v ∧ readPx pr.pixels i j = some u ∧
            (0 ≤ v ∧ v ≤ 255) ∧ (0 ≤ u ∧ u ≤ 255) ∧
            ((i = 0 ∨ i = sample4x4.height - 1 ∨ j = 0 ∨ j = sample4x4.width - 1) →
              v = 0 ∧ u = 0) ∧
            ((sample4x4.width < 3 ∨ sample4x4.height < 3) → v = 0 ∧ u = 0) :=
  ⟨by decide, C11_gradient_range_and_border sample4x4 (by decide)⟩

/-- C12. For every loaded grid, `calculate_lbp` runs to completion; at every
interior pixel with centre value `c` the output is an 8-bit code whose bit
`7 - k` is set exactly when the `k`-th neighbour, in the order
`(-1,-1), (-1,0), (-1,1), (0,1), (1,1), (1,0), (1,-1), (0,-1)` of (row, column)
offsets, is `>= c`, for `k = 0..7`; and every border pixel of the output is 0. -/
theorem C12_lbp_code_bits (src : PGMImage) (hsrc : WellFormed src) :
    ∃ out, calculate_lbp src = some out ∧
      (∀ i j, 1 ≤ i → i ≤ src.height - 2 → 1 ≤ j → j ≤ src.width - 2 →
        ∃ code, readPx out.pixels i j = some code ∧ code < 256 ∧
          ∀ k : Nat, k < 8 →
            (Nat.testBit code (7 - k) = true ↔
              (lbp_neighbours src.pixels i j).getD k 0 ≥ pixelAt src.pixels i j)) ∧
      (∀ i j, 0 ≤ i → i < src.height → 0 ≤ j → j < src.width →
        (i = 0 ∨ i = src.height - 1 ∨ j = 0 ∨ j = src.width - 1) →
        readPx out.pixels i j = some 0) := by
  obtain ⟨out, hrun, -, -, -, -, hread⟩ := calculate_lbp_spec src hsrc
  refine ⟨out, hrun, ?_, ?_⟩
  · intro i j hi0 hi1 hj0 hj1
    refine ⟨lbp_code_at src.pixels i j, ?_, lbp_code_at_lt _ _ _, ?_⟩
    · rw [hread i j, if_pos ⟨hi0, by omega, hj0, by omega⟩]
    · intro k hk
      exact lbp_code_at_bits src.pixels i j k hk
  · intro i j hi0 hi1 hj0 hj1 hring
    have hn : ¬ (1 ≤ i ∧ i < src.height - 1 ∧ 1 ≤ j ∧ j < src.width - 1) := by omega
    rw [hread i j, if_neg hn]
    exact readPx_replicate _ _ i j hi0 (by omega) hj0 (by omega)

/-- The theorem of C12 at a concrete image. -/
theorem C12_lbp_code_bits_witness :
    WellFormed sample4x4 ∧
      ∃ out, calculate_lbp sample4x4 = some out ∧
        (∀ i j, 1 ≤ i → i ≤ sample4x4.height - 2 → 1 ≤ j → j ≤ sample4x4.width - 2 →
          ∃ code, readPx out.pixels i j = some code ∧ code < 256 ∧
            ∀ k : Nat, k < 8 →
              (Nat.testBit code (7 - k) = true ↔
                (lbp_neighbours sample4x4.pixels i j).getD k 0
                  ≥ pixelAt sample4x4.pixels i j)) ∧
        (∀ i j, 0 ≤ i → i < sample4x4.height → 0 ≤ j → j < sample4x4.width →
          (i = 0 ∨ i = sample4x4.height - 1 ∨ j = 0 ∨ j = sample4x4.width - 1) →
          readPx out.pixels i j = some 0) :=
  ⟨by decide, C12_lbp_code_bits sample4x4 (by decide)⟩

/-- C13 as stated fails: in the 3x3 image with centre 5 and border 0 the
interior pixels (there is one, the centre) all hold the same value, yet
`calculate_lbp` gives the code 0 there, not 255: the neighbours of an interior
pixel next to the border are border pixels. -/
theorem C13_uniform_interior_counterexample :
    WellFormed bright_centre3x3 ∧
      (∀ i j : Int, 1 ≤ i → i ≤ bright_centre3x3.height - 2 → 1 ≤ j →
        j ≤ bright_centre3x3.width - 2 → readPx bright_centre3x3.pixels i j = some 5) ∧
      ∃ out, calculate_lbp bright_centre3x3 = some out ∧
        readPx out.pixels 1 1 = some 0 ∧ readPx out.pixels 1 1 ≠ some 255 := by
  refine ⟨by decide, ?_, ⟨3, 3, 255, [[0, 0, 0], [0, 0, 0], [0, 0, 0]]⟩, by decide,
    by decide, by decide⟩
  intro i j hi0 hi1 hj0 hj1
  have hi : i = 1 := by
    have : bright_centre3x3.height = 3 := rfl
    omega
  have hj : j = 1 := by
    have : bright_centre3x3.width = 3 := rfl
    omega
  subst hi; subst hj
  rfl

/-- C13, amended.  For every loaded grid whose interior pixels (rows
`1..height-2`, columns `1..width-2`) all hold the same value `c` and whose
border pixels are all at least `c`, `calculate_lbp` gives the code 255 at
every interior pixel. -/
theorem C13_lbp_uniform_interior (src : PGMImage) (c : Nat) (hsrc : WellFormed src)
    (hint : ∀ i j, 1 ≤ i → i ≤ src.height - 2 → 1 ≤ j → j ≤ src.width - 2 →
      readPx src.pixels i j = some c)
    (hborder : ∀ i j, 0 ≤ i → i < src.height → 0 ≤ j → j < src.width →
      (i = 0 ∨ i = src.height - 1 ∨ j = 0 ∨ j = src.width - 1) →
      ∃ v, readPx src.pixels i j = some v ∧ c ≤ v) :
    ∃ out, calculate_lbp src = some out ∧
      ∀ i j, 1 ≤ i → i ≤ src.height - 2 → 1 ≤ j → j ≤ src.width - 2 →
        readPx out.pixels i j = some 255 := by
  obtain ⟨out, hrun, -, -, -, -, hread⟩ := calculate_lbp_spec src hsrc
  refine ⟨out, hrun, ?_⟩
  intro i j hi0 hi1 hj0 hj1
  rw [hread i j, if_pos ⟨hi0, by omega, hj0, by omega⟩]
  have hc : pixelAt src.pixels i j = c := by
    simp [pixelAt, hint i j hi0 hi1 hj0 hj1]
  have hall : ∀ a b : Int, 0 ≤ a → a < src.height → 0 ≤ b → b < src.width →
      pixelAt src.pixels a b ≥ c := by
    intro a b ha0 ha1 hb0 hb1
    by_cases hin : 1 ≤ a ∧ a ≤ src.height - 2 ∧ 1 ≤ b ∧ b ≤ src.width - 2
    · simp [pixelAt, hint a b hin.1 hin.2.1 hin.2.2.1 hin.2.2.2]
    · obtain ⟨v, hv, hcv⟩ := hborder a b ha0 ha1 hb0 hb1 (by omega)
      simp [pixelAt, hv, hcv]
  rw [lbp_code_at_all]
  intro a b h1 h2 h3 h4
  rw [hc]
  exact hall a b (by omega) (by omega) (by omega) (by omega)

/-- The theorem of C13 at the 5x5 image of constant value 100. -/
theorem C13_lbp_uniform_interior_witness :
    WellFormed flat5x5 ∧
      (∀ i j, 1 ≤ i → i ≤ flat5x5.height - 2 → 1 ≤ j → j ≤ flat5x5.width - 2 →
        readPx flat5x5.pixels i j = some 100) ∧
      (∀ i j, 0 ≤ i → i < flat5x5.height → 0 ≤ j → j < flat5x5.width →
        (i = 0 ∨ i = flat5x5.height - 1 ∨ j = 0 ∨ j = flat5x5.width - 1) →
        ∃ v, readPx flat5x5.pixels i j = some v ∧ 100 ≤ v) ∧
      ∃ out, calculate_lbp flat5x5 = some out ∧
        ∀ i j, 1 ≤ i → i ≤ flat5x5.height - 2 → 1 ≤ j → j ≤ flat5x5.width - 2 →
          readPx out.pixels i j = some 255 :=
  have hflat : ∀ i j : Int, 0 ≤ i → i < flat5x5.height → 0 ≤ j → j < flat5x5.width →
      readPx flat5x5.pixels i j = some 100 := fun i j hi0 hi1 hj0 hj1 =>
    pixelAt_flat (shape_of_wellFormed (by decide : WellFormed flat5x5)) 100 (by decide) i j
      hi0 (by have : flat5x5.height = 5 := rfl
              omega) hj0 (by have : flat5x5.width = 5 := rfl
                             omega)
  ⟨by decide,
    fun i j hi0 hi1 hj0 hj1 => hflat i j (by omega) (by omega) (by omega) (by omega),
    fun i j hi0 hi1 hj0 hj1 _ => ⟨100, hflat i j hi0 hi1 hj0 hj1, le_refl _⟩,
    C13_lbp_uniform_interior flat5x5 100 (by decide)
      (fun i j hi0 hi1 hj0 hj1 => hflat i j (by omega) (by omega) (by omega) (by omega))
      (fun i j hi0 hi1 hj0 hj1 _ => ⟨100, hflat i j hi0 hi1 hj0 hj1, le_refl _⟩)⟩

/-- C14, evaluated at the all-zero 3x3 suppressed buffer (what the Canny
pipeline hands over for an all-black image).  The maximum is 0, so both
thresholds are 0, and the test `suppressed[i][j] >= high_thresh` is `0 >= 0`:
every pixel is labelled strong and the final edge image is entirely 255, not
entirely zero.  (`hysteresis_all_zero` shows the same for every size.) -/
theorem C14_all_zero_suppressed_gives_all_255 :
    (∀ row ∈ zeros3x3, ∀ v ∈ row, v = 0) ∧
      hysteresis_thresholding 10 zeros3x3 3 3 zeros3x3
        = some [[255, 255, 255], [255, 255, 255], [255, 255, 255]] ∧
      hysteresis_thresholding 10 zeros3x3 3 3 zeros3x3 ≠ some zeros3x3 := by
  decide

/-- C16. Hysteresis edge tracking always terminates.  In a buffer of edge
labels of `H` rows of `W` cells, overwriting a weak label 100 by 255, as
`edge_tracking` does before each recursive call, lowers the number of weak
labels by one; for every start pixel `(x, y)`, `edge_tracking` returns as soon
as the bound on the recursion depth exceeds the number of weak labels; and
`hysteresis_thresholding` returns on every pair of such buffers as soon as
the bound exceeds the number of cells. -/
theorem C16_edge_tracking_terminates (W H : Int) (edges : Pixels)
    (hshape : Shape edges H.toNat W.toNat) :
    (∀ (nx ny : Int) (edges' : Pixels), readPx edges nx ny = some 100 →
        writePx edges nx ny (to_uchar 255) = some edges' →
        weak100 edges' + 1 = weak100 edges) ∧
    (∀ (x y : Int) (fuel : Nat), weak100 edges < fuel →
        ∃ edges', edge_tracking fuel edges x y W H 255 = some edges' ∧
          Shape edges' H.toNat W.toNat ∧ weak100 edges' ≤ weak100 edges) ∧
    (∀ (suppressed : Pixels) (fuel : Nat), Shape suppressed H.toNat W.toNat →
        H.toNat * W.toNat < fuel →
        ∃ final, hysteresis_thresholding fuel suppressed W H edges = some final ∧
          Shape final H.toNat W.toNat) := by
  refine ⟨?_, ?_, ?_⟩
  · intro nx ny edges' hold hw
    exact weak100_write hshape nx ny (to_uchar 255) hold (by decide) hw
  · intro x y fuel hfuel
    obtain ⟨e', hrun, hs', -, -, -, hcount⟩ := edge_tracking_spec W H fuel edges x y hshape hfuel
    exact ⟨e', hrun, hs', hcount⟩
  · intro suppressed fuel hs hfuel
    obtain ⟨m, D, -, hrun, hD, -⟩ :=
      hysteresis_thresholding_spec fuel suppressed edges W H hs hshape hfuel
    exact ⟨D, hrun, hD⟩

/-- The theorem of C16 at a concrete buffer of labels. -/
theorem C16_edge_tracking_terminates_witness :
    Shape [[0, 0, 0, 0], [0, 255, 100, 0], [0, 100, 100, 0], [0, 0, 0, 0]]
        (4 : Int).toNat (4 : Int).toNat ∧
      ((∀ (nx ny : Int) (edges' : Pixels),
          readPx [[0, 0, 0, 0], [0, 255, 100, 0], [0, 100, 100, 0], [0, 0, 0, 0]] nx ny
            = some 100 →
          writePx [[0, 0, 0, 0], [0, 255, 100, 0], [0, 100, 100, 0], [0, 0, 0, 0]] nx ny
            (to_uchar 255) = some edges' →
          weak100 edges' + 1
            = weak100 [[0, 0, 0, 0], [0, 255, 100, 0], [0, 100, 100, 0], [0, 0, 0, 0]]) ∧
      (∀ (x y : Int) (fuel : Nat),
          weak100 [[0, 0, 0, 0], [0, 255, 100, 0], [0, 100, 100, 0], [0, 0, 0, 0]] < fuel →
          ∃ edges', edge_tracking fuel
              [[0, 0, 0, 0], [0, 255, 100, 0], [0, 100, 100, 0], [0, 0, 0, 0]] x y 4 4 255
                = some edges' ∧
            Shape edges' (4 : Int).toNat (4 : Int).toNat ∧
            weak100 edges'
              ≤ weak100 [[0, 0, 0, 0], [0, 255, 100, 0], [0, 100, 100, 0], [0, 0, 0, 0]]) ∧
      (∀ (suppressed : Pixels) (fuel : Nat),
          Shape suppressed (4 : Int).toNat (4 : Int).toNat →
          (4 : Int).toNat * (4 : Int).toNat < fuel →
          ∃ final, hysteresis_thresholding fuel suppressed 4 4
              [[0, 0, 0, 0], [0, 255, 100, 0], [0, 100, 100, 0], [0, 0, 0, 0]] = some final ∧
            Shape final (4 : Int).toNat (4 : Int).toNat)) :=
  ⟨by decide, C16_edge_tracking_terminates 4 4 _ (by decide)⟩

/-- C17. For suppressed and output buffers of `H` rows of `W` cells, with
`high` and `low` the thresholds that `hysteresis_thresholding` computes from
the maximum `m` of the suppressed values, the routine returns (as soon as the
depth bound exceeds the number of cells) and the final pixel at `p` is 255
exactly when `suppressed[p] >= high`, or `p` is an interior pixel with
`low <= suppressed[p] < high` joined to an interior pixel with
`suppressed >= high` by a chain of 8-adjacent interior pixels that are weak
after the first; every other pixel is 0.  On the border ring the final pixel
is 255 exactly when `suppressed[p] >= high`: a weak border pixel is 0, and a
chain never starts outside the interior. -/
theorem C17_hysteresis_characterisation (fuel : Nat) (suppressed final_edges : Pixels)
    (W H : Int) (hs : Shape suppressed H.toNat W.toNat)
    (hf : Shape final_edges H.toNat W.toNat) (hfuel : H.toNat * W.toNat < fuel) :
    ∃ m final, IsMaxOf suppressed m ∧
      hysteresis_thresholding fuel suppressed W H final_edges = some final ∧
      ∀ a b, 0 ≤ a → a < H → 0 ≤ b → b < W →
        (readPx final a b = some 255 ↔
          IsEdge suppressed W H (high_threshold m) (low_threshold m) (a, b)) ∧
        (¬ IsEdge suppressed W H (high_threshold m) (low_threshold m) (a, b) →
          readPx final a b = some 0) ∧
        (¬ Interior W H (a, b) →
          (readPx final a b = some 255 ↔
            (pixelAt suppressed a b : Int) ≥ high_threshold m) ∧
          ((pixelAt suppressed a b : Int) < high_threshold m → readPx final a b = some 0)) := by
  obtain ⟨m, D, hm, hrun, -, hchar⟩ :=
    hysteresis_thresholding_spec fuel suppressed final_edges W H hs hf hfuel
  refine ⟨m, D, hm, hrun, ?_⟩
  intro a b ha0 ha1 hb0 hb1
  obtain ⟨hiff, hval⟩ := hchar a b ha0 ha1 hb0 hb1
  have hzero : ¬ IsEdge suppressed W H (high_threshold m) (low_threshold m) (a, b) →
      readPx D a b = some 0 := by
    intro hn
    rcases hval with h | h
    · exact absurd (hiff.mp h) hn
    · exact h
  have hborder : ¬ Interior W H (a, b) →
      (IsEdge suppressed W H (high_threshold m) (low_threshold m) (a, b) ↔
        (pixelAt suppressed a b : Int) ≥ high_threshold m) := by
    intro hni
    constructor
    · rintro (h | ⟨h, _⟩)
      · exact h
      · exact absurd h hni
    · intro h; exact Or.inl h
  refine ⟨hiff, hzero, fun hni => ⟨hiff.trans (hborder hni), ?_⟩⟩
  intro hlt
  apply hzero
  rw [hborder hni]
  omega

/-- The theorem of C17 at a concrete suppressed buffer. -/
theorem C17_hysteresis_characterisation_witness :
    Shape suppressed5x5 (5 : Int).toNat (5 : Int).toNat ∧
      Shape (List.replicate 5 (List.replicate 5 0)) (5 : Int).toNat (5 : Int).toNat ∧
      (5 : Int).toNat * (5 : Int).toNat < 26 ∧
      ∃ m final, IsMaxOf suppressed5x5 m ∧
        hysteresis_thresholding 26 suppressed5x5 5 5 (List.replicate 5 (List.replicate 5 0))
          = some final ∧
        ∀ a b, 0 ≤ a → a < 5 → 0 ≤ b → b < 5 →
          (readPx final a b = some 255 ↔
            IsEdge suppressed5x5 5 5 (high_threshold m) (low_threshold m) (a, b)) ∧
          (¬ IsEdge suppressed5x5 5 5 (high_threshold m) (low_threshold m) (a, b) →
            readPx final a b = some 0) ∧
          (¬ Interior 5 5 (a, b) →
            (readPx final a b = some 255 ↔
              (pixelAt suppressed5x5 a b : Int) ≥ high_threshold m) ∧
            ((pixelAt suppressed5x5 a b : Int) < high_threshold m →
              readPx final a b = some 0)) :=
  ⟨by decide, by decide, by decide,
    C17_hysteresis_characterisation 26 suppressed5x5 (List.replicate 5 (List.replicate 5 0))
      5 5 (by decide) (by decide) (by decide)⟩

/-- C18. The result of `hysteresis_thresholding` is binary: on suppressed and
output buffers of `H` rows of `W` cells the routine returns (as soon as the
depth bound exceeds the number of cells), the result has a value at every
position, and every value is 0 or 255; none is the provisional weak
label 100. -/
theorem C18_hysteresis_binary (fuel : Nat) (suppressed final_edges : Pixels)
    (W H : Int) (hs : Shape suppressed H.toNat W.toNat)
    (hf : Shape final_edges H.toNat W.toNat) (hfuel : H.toNat * W.toNat < fuel) :
    ∃ final, hysteresis_thresholding fuel suppressed W H final_edges = some final ∧
      Shape final H.toNat W.toNat ∧
      (∀ a b, 0 ≤ a → a < H → 0 ≤ b → b < W →
        readPx final a b = some 0 ∨ readPx final a b = some 255) ∧
      ∀ a b v, readPx final a b = some v → (v = 0 ∨ v = 255) ∧ v ≠ 100 := by
  obtain ⟨m, D, -, hrun, hD, hchar⟩ :=
    hysteresis_thresholding_spec fuel suppressed final_edges W H hs hf hfuel
  refine ⟨D, hrun, hD, fun a b h1 h2 h3 h4 => (hchar a b h1 h2 h3 h4).2.symm, ?_⟩
  intro a b v hv
  obtain ⟨h1, h2, h3, h4⟩ := (readPx_some_iff_of_shape hD a b).mp ⟨v, hv⟩
  rcases (hchar a b h1 (by omega) h3 (by omega)).2 with h | h
  · rw [hv] at h
    have := Option.some.inj h
    omega
  · rw [hv] at h
    have := Option.some.inj h
    omega

/-- The theorem of C18 at a concrete suppressed buffer. -/
theorem C18_hysteresis_binary_witness :
    Shape suppressed5x5 (5 : Int).toNat (5 : Int).toNat ∧
      Shape (List.replicate 5 (List.replicate 5 0)) (5 : Int).toNat (5 : Int).toNat ∧
      (5 : Int).toNat * (5 : Int).toNat < 26 ∧
      ∃ final, hysteresis_thresholding 26 suppressed5x5 5 5
          (List.replicate 5 (List.replicate 5 0)) = some final ∧
        Shape final (5 : Int).toNat (5 : Int).toNat ∧
        (∀ a b, 0 ≤ a → a < 5 → 0 ≤ b → b < 5 →
          readPx final a b = some 0 ∨ readPx final a b = some 255) ∧
        ∀ a b v, readPx final a b = some v → (v = 0 ∨ v = 255) ∧ v ≠ 100 :=
  ⟨by decide, by decide, by decide,
    C18_hysteresis_binary 26 suppressed5x5 (List.replicate 5 (List.replicate 5 0)) 5 5
      (by decide) (by decide) (by decide)⟩


/-- C15, as stated, fails: the 3x3 image of maximum value 100 with a vertical
step edge satisfies the Grid invariant, and `sobel_edge_detection` returns for
it an image that carries the maximum value 100 and holds 255 at the centre. -/
theorem C15_sobel_exceeds_max_value_counterexample :
    WellFormed dim_edge3x3 ∧ GridInvariant dim_edge3x3 ∧
      sobel_edge_detection dim_edge3x3
        = some ⟨3, 3, 100, [[0, 0, 0], [0, 255, 0], [0, 0, 0]]⟩ ∧
      ¬ GridInvariant ⟨3, 3, 100, [[0, 0, 0], [0, 255, 0], [0, 0, 0]]⟩ := by
  decide

/-- C15, amended. For every loaded grid that satisfies the Grid invariant:
zoom and shrink by a factor `f >= 1`, the mean filter and the median filter
run to completion and return a grid that satisfies the Grid invariant;
Sobel, Prewitt, LBP and Canny run to completion and return a grid that
carries the input's `max_val`, has rows of exactly its width and values in
`[0, 255]`, and so satisfies the Grid invariant when `max_val >= 255`. -/
theorem C15_grid_invariant (ops : FloatOps) (fuel : Nat) (img : PGMImage) (f : Int)
    (hops : ops.Sound) (himg : WellFormed img) (hinv : GridInvariant img) (hf : 1 ≤ f)
    (hfuel : img.height.toNat * img.width.toNat < fuel) :
    PreservesGrid (nearest_neighbor_zoom img
        (create_new_image img (img.width * f) (img.height * f)) f) ∧
      PreservesGrid (subsample_shrink img
        (create_new_image img (Int.tdiv img.width f) (Int.tdiv img.height f)) f) ∧
      PreservesGrid (average_filter img) ∧
      PreservesGrid (median_filter img) ∧
      KeepsRowsAndBytes img (sobel_edge_detection img) ∧
      KeepsRowsAndBytes img (prewitt_edge_detection img) ∧
      KeepsRowsAndBytes img (calculate_lbp img) ∧
      KeepsRowsAndBytes img (canny_edge_detector ops fuel img) := by
  refine ⟨zoom_preserves_grid img f himg hinv hf, shrink_preserves_grid img f himg hinv hf,
    average_preserves_grid img himg hinv, median_preserves_grid img himg hinv, ?_, ?_,
    lbp_keeps_rows_and_bytes img himg, canny_keeps_rows_and_bytes ops fuel img hops himg hfuel⟩
  · rw [sobel_eq_gradient]
    exact gradient_keeps_rows_and_bytes _ _ _ _ _ _ _ _ _ _ _ _ _ _ _ _ _ _ img himg
  · rw [prewitt_eq_gradient]
    exact gradient_keeps_rows_and_bytes _ _ _ _ _ _ _ _ _ _ _ _ _ _ _ _ _ _ img himg

/-- The theorem of C15 at the 4x4 sample image, factor 2. -/
theorem C15_grid_invariant_witness :
    sample_ops.Sound ∧ WellFormed sample4x4 ∧ GridInvariant sample4x4 ∧ (1 : Int) ≤ 2 ∧
      sample4x4.height.toNat * sample4x4.width.toNat < 17 ∧
      PreservesGrid (nearest_neighbor_zoom sample4x4
        (create_new_image sample4x4 (sample4x4.width * 2) (sample4x4.height * 2)) 2) ∧
      PreservesGrid (subsample_shrink sample4x4
        (create_new_image sample4x4 (Int.tdiv sample4x4.width 2)
          (Int.tdiv sample4x4.height 2)) 2) ∧
      PreservesGrid (average_filter sample4x4) ∧
      PreservesGrid (median_filter sample4x4) ∧
      KeepsRowsAndBytes sample4x4 (sobel_edge_detection sample4x4) ∧
      KeepsRowsAndBytes sample4x4 (prewitt_edge_detection sample4x4) ∧
      KeepsRowsAndBytes sample4x4 (calculate_lbp sample4x4) ∧
      KeepsRowsAndBytes sample4x4 (canny_edge_detector sample_ops 17 sample4x4) :=
  ⟨sample_ops_sound, by decide, by decide, by decide, by decide,
    C15_grid_invariant sample_ops 17 sample4x4 2 sample_ops_sound (by decide) (by decide)
      (by decide) (by decide)⟩

/-- C19. The 25 weights of the Gaussian 5x5 kernel sum to the divisor 159;
so for every loaded image whose pixels all hold the same value `c`, and for
floating-point operations as IEEE 754 gives them, `gaussian_blur` into a
fresh `float` buffer runs to completion and leaves exactly `c` (the exact
quotient `159*c / 159`) at every position with row in `[2, H-3]` and column
in `[2, W-3]`, and the value 0 at every position within 2 of a border. -/
theorem C19_gaussian_flat (ops : FloatOps) (img : PGMImage) (c : Nat)
    (hops : ops.Sound) (himg : WellFormed img)
    (hflat : ∀ row ∈ img.pixels, ∀ v ∈ row, v = c) :
    gaussian_kernel.flatten.sum = 159 ∧
      ∃ blurred, gaussian_blur ops img (create_float_array img.height img.width)
          = some blurred ∧
        ∀ i j, 0 ≤ i → i < img.height → 0 ≤ j → j < img.width →
          (2 ≤ i ∧ i ≤ img.height - 3 ∧ 2 ≤ j ∧ j ≤ img.width - 3 →
            gaussian_sum img.pixels i j = 159 * (c : Int) ∧
            readF blurred i j = some (c : ℚ)) ∧
          (¬ (2 ≤ i ∧ i ≤ img.height - 3 ∧ 2 ≤ j ∧ j ≤ img.width - 3) →
            readF blurred i j = some 0) := by
  refine ⟨by decide, ?_⟩
  obtain ⟨out, hrun, -, hread⟩ := gaussian_blur_spec ops img
    (create_float_array img.height img.width) himg (shapeF_create_float_array _ _)
  refine ⟨out, hrun, ?_⟩
  have hs := shape_of_wellFormed himg
  intro i j hi0 hi1 hj0 hj1
  refine ⟨?_, ?_⟩
  · intro hin
    have hc : ∀ a b : Int, i - 2 ≤ a → a ≤ i + 2 → j - 2 ≤ b → b ≤ j + 2 →
        pixelAt img.pixels a b = c := by
      intro a b h1 h2 h3 h4
      have := pixelAt_flat hs c hflat a b (by omega) (by omega) (by omega) (by omega)
      simp [pixelAt, this]
    have hsum := gaussian_sum_flat img.pixels i j c hc
    have hc256 : c < 256 := by
      have := pixelAt_lt himg i j
      rwa [hc i j (by omega) (by omega) (by omega) (by omega)] at this
    refine ⟨hsum, ?_⟩
    rw [hread i j, if_pos ⟨hin.1, by omega, hin.2.2.1, by omega⟩, hsum]
    have e1 : ops.fl (((159 * (c : Int) : Int)) : ℚ) = ((159 * (c : Int) : Int) : ℚ) := by
      apply hops.2.1
      rw [abs_of_nonneg (by omega)]
      have : (2 : Int) ^ 24 = 16777216 := by norm_num
      omega
    have e2 : ops.fl (((159 : Int)) : ℚ) = ((159 : Int) : ℚ) := by
      apply hops.2.1
      norm_num
    have e3 : ops.fl (((c : Int)) : ℚ) = ((c : Int) : ℚ) := by
      apply hops.2.1
      rw [abs_of_nonneg (by omega)]
      have : (2 : Int) ^ 24 = 16777216 := by norm_num
      omega
    rw [e1, e2]
    have e4 : ((159 * (c : Int) : Int) : ℚ) / ((159 : Int) : ℚ) = ((c : Int) : ℚ) := by
      push_cast
      field_simp
    rw [e4, e3]
    norm_cast
  · intro hout
    rw [hread i j, if_neg (by omega)]
    exact readF_create_float_array _ _ i j hi0 hi1 hj0 hj1

/-- The theorem of C19 at the flat 5x5 image of value 100. -/
theorem C19_gaussian_flat_witness :
    sample_ops.Sound ∧ WellFormed flat5x5 ∧
      (∀ row ∈ flat5x5.pixels, ∀ v ∈ row, v = 100) ∧
      gaussian_kernel.flatten.sum = 159 ∧
      ∃ blurred, gaussian_blur sample_ops flat5x5
          (create_float_array flat5x5.height flat5x5.width) = some blurred ∧
        ∀ i j, 0 ≤ i → i < flat5x5.height → 0 ≤ j → j < flat5x5.width →
          (2 ≤ i ∧ i ≤ flat5x5.height - 3 ∧ 2 ≤ j ∧ j ≤ flat5x5.width - 3 →
            gaussian_sum flat5x5.pixels i j = 159 * ((100 : Nat) : Int) ∧
            readF blurred i j = some ((100 : Nat) : ℚ)) ∧
          (¬ (2 ≤ i ∧ i ≤ flat5x5.height - 3 ∧ 2 ≤ j ∧ j ≤ flat5x5.width - 3) →
            readF blurred i j = some 0) :=
  ⟨sample_ops_sound, by decide, by decide,
    C19_gaussian_flat sample_ops flat5x5 100 sample_ops_sound (by decide) (by decide)⟩

/-- C20, as stated, fails: the angle 180 is in the range of `atan2` in
degrees, it is not negative, so the normalisation leaves it at 180, which is
not in `[0, 180)`. -/
theorem C20_angle_180_counterexample :
    ¬ (∀ (ops : FloatOps) (a : ℚ), ops.Sound → -180 ≤ a → a ≤ 180 →
        0 ≤ normalize_angle ops a ∧ normalize_angle ops a < 180) := by
  intro hall
  have h := (hall sample_ops 180 sample_ops_sound (by norm_num) (by norm_num)).2
  have e : normalize_angle sample_ops 180 = 180 := by
    unfold normalize_angle
    rw [if_neg (by norm_num)]
  rw [e] at h
  exact lt_irrefl _ h

/-- C20, amended. In `non_maximum_suppression`, for every gradient angle `a`
with `-180 <= a <= 180`, the normalised angle (`a + 180` rounded to `float`
when `a` is negative, `a` otherwise) lies in the closed interval `[0, 180]`,
and it is `a` itself, so 180 at `a = 180`, when `a` is not negative. -/
theorem C20_normalized_angle_range (ops : FloatOps) (a : ℚ) (hops : ops.Sound)
    (h0 : -180 ≤ a) (h1 : a ≤ 180) :
    0 ≤ normalize_angle ops a ∧ normalize_angle ops a ≤ 180 ∧
      (0 ≤ a → normalize_angle ops a = a) := by
  obtain ⟨r0, r1⟩ := normalize_angle_range ops hops a h0 h1
  refine ⟨r0, r1, ?_⟩
  intro ha
  unfold normalize_angle
  rw [if_neg (not_lt.mpr ha)]

/-- The theorem of C20 at the angle -45. -/
theorem C20_normalized_angle_range_witness :
    sample_ops.Sound ∧ (-180 : ℚ) ≤ -45 ∧ (-45 : ℚ) ≤ 180 ∧
      0 ≤ normalize_angle sample_ops (-45) ∧ normalize_angle sample_ops (-45) ≤ 180 ∧
      (0 ≤ (-45 : ℚ) → normalize_angle sample_ops (-45) = -45) :=
  ⟨sample_ops_sound, by norm_num, by norm_num,
    C20_normalized_angle_range sample_ops (-45) sample_ops_sound (by norm_num) (by norm_num)⟩


/-- C21. In `non_maximum_suppression`, for every gradient angle `a` with
`-180 <= a <= 180`, after the normalisation (180 added to a negative angle)
exactly one of the four direction-bucket conditions holds; and on magnitude
and angle buffers of `H` rows of `W` cells, with no negative magnitude and
every angle in `[-180, 180]`, the routine runs to completion and the value it
stores at every interior pixel is the one computed with `q` and `r` read from
the magnitude grid at the two neighbours along the bucket's direction: the
placeholders `q = r = 255` take no part in any comparison.  Pixels outside
the interior are left as they were. -/
theorem C21_direction_buckets (ops : FloatOps) (mag angle : FloatGrid) (W H : Int)
    (suppressed : Pixels) (hops : ops.Sound) (hm : ShapeF mag H.toNat W.toNat)
    (ha : ShapeF angle H.toNat W.toNat) (hs : Shape suppressed H.toNat W.toNat)
    (hm0 : ∀ row ∈ mag, ∀ v ∈ row, (0 : ℚ) ≤ v)
    (hang : ∀ row ∈ angle, ∀ v ∈ row, (-180 : ℚ) ≤ v ∧ v ≤ 180) :
    (∀ a : ℚ, -180 ≤ a → a ≤ 180 →
      List.count true [decide (bucket_0 (normalize_angle ops a)),
        decide (bucket_45 (normalize_angle ops a)),
        decide (bucket_90 (normalize_angle ops a)),
        decide (bucket_135 (normalize_angle ops a))] = 1) ∧
    ∃ out, non_maximum_suppression ops mag angle W H suppressed = some out ∧
      ∀ i j, readPx out i j =
        if 1 ≤ i ∧ i < H - 1 ∧ 1 ≤ j ∧ j < W - 1 then some (nms_value ops mag angle i j)
        else readPx suppressed i j := by
  refine ⟨?_, ?_⟩
  · intro a h0 h1
    obtain ⟨r0, r1⟩ := normalize_angle_range ops hops a h0 h1
    exact bucket_exactly_one _ r0 r1
  · obtain ⟨out, hrun, -, hread⟩ := non_maximum_suppression_pixels ops mag angle W H
      suppressed hops hm ha hs hm0 hang
    exact ⟨out, hrun, hread⟩

/-- The theorem of C21 at concrete 3x3 buffers. -/
theorem C21_direction_buckets_witness :
    sample_ops.Sound ∧ ShapeF sample_mag3x3 (3 : Int).toNat (3 : Int).toNat ∧
      ShapeF sample_angle3x3 (3 : Int).toNat (3 : Int).toNat ∧
      Shape zeros3x3 (3 : Int).toNat (3 : Int).toNat ∧
      (∀ row ∈ sample_mag3x3, ∀ v ∈ row, (0 : ℚ) ≤ v) ∧
      (∀ row ∈ sample_angle3x3, ∀ v ∈ row, (-180 : ℚ) ≤ v ∧ v ≤ 180) ∧
      (∀ a : ℚ, -180 ≤ a → a ≤ 180 →
        List.count true [decide (bucket_0 (normalize_angle sample_ops a)),
          decide (bucket_45 (normalize_angle sample_ops a)),
          decide (bucket_90 (normalize_angle sample_ops a)),
          decide (bucket_135 (normalize_angle sample_ops a))] = 1) ∧
      ∃ out, non_maximum_suppression sample_ops sample_mag3x3 sample_angle3x3 3 3 zeros3x3
          = some out ∧
        ∀ i j, readPx out i j =
          if 1 ≤ i ∧ i < (3 : Int) - 1 ∧ 1 ≤ j ∧ j < (3 : Int) - 1 then
            some (nms_value sample_ops sample_mag3x3 sample_angle3x3 i j)
          else readPx zeros3x3 i j :=
  ⟨sample_ops_sound, by decide, by decide, by decide, sample_mag3x3_nonneg,
    sample_angle3x3_range,
    C21_direction_buckets sample_ops sample_mag3x3 sample_angle3x3 3 3 zeros3x3
      sample_ops_sound (by decide) (by decide) (by decide) sample_mag3x3_nonneg
      sample_angle3x3_range⟩

/-- C22. In the bounds-checked embedding a read or a write of a buffer of `H`
rows of `W` cells has no result exactly when its row index is outside
`[0, H-1]` or its column index outside `[0, W-1]`, and a routine has no result
as soon as one of its accesses has none.  For every loaded grid of any size
(so for every grid of width and height at least 1, grids smaller than 3x3 or
5x5 included) `average_filter`, `median_filter`, `sobel_edge_detection`,
`prewitt_edge_detection`, `calculate_lbp`, `gaussian_blur` into a buffer of
the grid's size, `nearest_neighbor_zoom` for `f >= 1` and `subsample_shrink`
into an output of size `(width/f, height/f)` all have a result: none of their
accesses is out of range. -/
theorem C22_accesses_in_range (ops : FloatOps) (img : PGMImage) (f : Int)
    (himg : WellFormed img) (hf : 1 ≤ f) :
    (∀ (p : Pixels) (H W : Nat) (i j : Int) (v : Nat), Shape p H W →
      (readPx p i j = none ↔ ¬ (0 ≤ i ∧ i < H ∧ 0 ≤ j ∧ j < W)) ∧
      (writePx p i j v = none ↔ ¬ (0 ≤ i ∧ i < H ∧ 0 ≤ j ∧ j < W))) ∧
    (∀ (g : FloatGrid) (H W : Nat) (i j : Int) (v : ℚ), ShapeF g H W →
      (readF g i j = none ↔ ¬ (0 ≤ i ∧ i < H ∧ 0 ≤ j ∧ j < W)) ∧
      (writeF g i j v = none ↔ ¬ (0 ≤ i ∧ i < H ∧ 0 ≤ j ∧ j < W))) ∧
    (∃ out, average_filter img = some out) ∧
    (∃ out, median_filter img = some out) ∧
    (∃ out, sobel_edge_detection img = some out) ∧
    (∃ out, prewitt_edge_detection img = some out) ∧
    (∃ out, calculate_lbp img = some out) ∧
    (∃ out, gaussian_blur ops img (create_float_array img.height img.width) = some out) ∧
    (∃ out, nearest_neighbor_zoom img
      (create_new_image img (img.width * f) (img.height * f)) f = some out) ∧
    (∃ out, subsample_shrink img
      (create_new_image img (Int.tdiv img.width f) (Int.tdiv img.height f)) f = some out) := by
  refine ⟨fun p H W i j v hp => ⟨readPx_none_iff hp i j, writePx_none_iff hp i j v⟩,
    fun g H W i j v hg => ⟨readF_none_iff hg i j, writeF_none_iff hg i j v⟩,
    ?_, ?_, ?_, ?_, ?_, ?_, ?_, ?_⟩
  · obtain ⟨out, h, -⟩ := average_filter_spec img himg
    exact ⟨out, h⟩
  · obtain ⟨out, h, -⟩ := median_filter_spec img himg
    exact ⟨out, h⟩
  · obtain ⟨out, h, -⟩ := gradient_edge_detection_spec (-1) 0 1 (-2) 0 2 (-1) 0 1
      (-1) (-2) (-1) 0 0 0 1 2 1 img himg
    exact ⟨out, h⟩
  · obtain ⟨out, h, -⟩ := gradient_edge_detection_spec (-1) 0 1 (-1) 0 1 (-1) 0 1
      (-1) (-1) (-1) 0 0 0 1 1 1 img himg
    exact ⟨out, h⟩
  · obtain ⟨out, h, -⟩ := calculate_lbp_spec img himg
    exact ⟨out, h⟩
  · obtain ⟨out, h, -⟩ := gaussian_blur_spec ops img
      (create_float_array img.height img.width) himg (shapeF_create_float_array _ _)
    exact ⟨out, h⟩
  · obtain ⟨out, h, -⟩ := nearest_neighbor_zoom_spec img
      (create_new_image img (img.width * f) (img.height * f)) f himg hf
      (shape_create_new_image _ _ _) (le_refl _) (le_refl _)
    exact ⟨out, h⟩
  · obtain ⟨out, h, -⟩ := subsample_shrink_wellFormed img f himg hf
    exact ⟨out, h⟩

/-- The theorem of C22 at the 2x2 sample image, factor 2. -/
theorem C22_accesses_in_range_witness :
    WellFormed sample2x2 ∧ (1 : Int) ≤ 2 ∧
      ((∀ (p : Pixels) (H W : Nat) (i j : Int) (v : Nat), Shape p H W →
        (readPx p i j = none ↔ ¬ (0 ≤ i ∧ i < H ∧ 0 ≤ j ∧ j < W)) ∧
        (writePx p i j v = none ↔ ¬ (0 ≤ i ∧ i < H ∧ 0 ≤ j ∧ j < W))) ∧
      (∀ (g : FloatGrid) (H W : Nat) (i j : Int) (v : ℚ), ShapeF g H W →
        (readF g i j = none ↔ ¬ (0 ≤ i ∧ i < H ∧ 0 ≤ j ∧ j < W)) ∧
        (writeF g i j v = none ↔ ¬ (0 ≤ i ∧ i < H ∧ 0 ≤ j ∧ j < W))) ∧
      (∃ out, average_filter sample2x2 = some out) ∧
      (∃ out, median_filter sample2x2 = some out) ∧
      (∃ out, sobel_edge_detection sample2x2 = some out) ∧
      (∃ out, prewitt_edge_detection sample2x2 = some out) ∧
      (∃ out, calculate_lbp sample2x2 = some out) ∧
      (∃ out, gaussian_blur sample_ops sample2x2
        (create_float_array sample2x2.height sample2x2.width) = some out) ∧
      (∃ out, nearest_neighbor_zoom sample2x2
        (create_new_image sample2x2 (sample2x2.width * 2) (sample2x2.height * 2)) 2
          = some out) ∧
      (∃ out, subsample_shrink sample2x2
        (create_new_image sample2x2 (Int.tdiv sample2x2.width 2)
          (Int.tdiv sample2x2.height 2)) 2 = some out)) :=
  ⟨by decide, by decide, C22_accesses_in_range sample_ops sample2x2 2 (by decide) (by decide)⟩

/-- C23. Shrinking by 0.5 twice equals shrinking by 0.25 once: for every
loaded grid whose width and height are both divisible by 4, `subsample_shrink`
with factor 2 into the output `resize_image` creates, applied to the grid and
then to its result, returns the very grid (width `w/4`, height `h/4`, same
`max_val`, same pixels) that `subsample_shrink` with factor 4 returns; and so
do the menu requests `0.5`, `0.5` against the request `0.25`. -/
theorem C23_shrink_twice_equals_quarter (img : PGMImage) (himg : WellFormed img)
    (hw : 4 ∣ img.width) (hh : 4 ∣ img.height) :
    ∃ half quarter,
      subsample_shrink img
        (create_new_image img (Int.tdiv img.width 2) (Int.tdiv img.height 2)) 2 = some half ∧
      subsample_shrink half
        (create_new_image half (Int.tdiv half.width 2) (Int.tdiv half.height 2)) 2
          = some quarter ∧
      subsample_shrink img
        (create_new_image img (Int.tdiv img.width 4) (Int.tdiv img.height 4)) 4
          = some quarter ∧
      quarter.width = img.width / 4 ∧ quarter.height = img.height / 4 ∧
      resize_image "0.5" img = some (Outcome.done, half) ∧
      resize_image "0.5" half = some (Outcome.done, quarter) ∧
      resize_image "0.25" img = some (Outcome.done, quarter) := by
  obtain ⟨half, quarter, h1, h2, h4, hw1, hh1, hw2, hh2⟩ := shrink_twice img himg
  have hw0 : 0 ≤ img.width := himg.1
  have hh0 : 0 ≤ img.height := himg.2.1
  have t1 : Int.tmod img.width 2 = 0 := by
    rw [Int.tmod_eq_emod hw0 (by omega)]; omega
  have t2 : Int.tmod img.height 2 = 0 := by
    rw [Int.tmod_eq_emod hh0 (by omega)]; omega
  have t3 : Int.tmod half.width 2 = 0 := by
    rw [Int.tmod_eq_emod (by omega) (by omega), hw1]; omega
  have t4 : Int.tmod half.height 2 = 0 := by
    rw [Int.tmod_eq_emod (by omega) (by omega), hh1]; omega
  have t5 : Int.tmod img.width 4 = 0 := by
    rw [Int.tmod_eq_emod hw0 (by omega)]; omega
  have t6 : Int.tmod img.height 4 = 0 := by
    rw [Int.tmod_eq_emod hh0 (by omega)]; omega
  refine ⟨half, quarter, h1, h2, h4, hw2, hh2, ?_, ?_, ?_⟩
  · rw [resize_image_half, if_neg (by rw [t1, t2]; simp), h1]; rfl
  · rw [resize_image_half, if_neg (by rw [t3, t4]; simp), h2]; rfl
  · rw [resize_image_quarter, if_neg (by rw [t5, t6]; simp), h4]; rfl

/-- The theorem of C23 at an image of width 8 and height 4. -/
theorem C23_shrink_twice_equals_quarter_witness :
    WellFormed sample8x4 ∧ (4 : Int) ∣ sample8x4.width ∧ (4 : Int) ∣ sample8x4.height ∧
      ∃ half quarter,
        subsample_shrink sample8x4
          (create_new_image sample8x4 (Int.tdiv sample8x4.width 2)
            (Int.tdiv sample8x4.height 2)) 2 = some half ∧
        subsample_shrink half
          (create_new_image half (Int.tdiv half.width 2) (Int.tdiv half.height 2)) 2
            = some quarter ∧
        subsample_shrink sample8x4
          (create_new_image sample8x4 (Int.tdiv sample8x4.width 4)
            (Int.tdiv sample8x4.height 4)) 4 = some quarter ∧
        quarter.width = sample8x4.width / 4 ∧ quarter.height = sample8x4.height / 4 ∧
        resize_image "0.5" sample8x4 = some (Outcome.done, half) ∧
        resize_image "0.5" half = some (Outcome.done, quarter) ∧
        resize_image "0.25" sample8x4 = some (Outcome.done, quarter) :=
  ⟨by decide, by decide, by decide,
    C23_shrink_twice_equals_quarter sample8x4 (by decide) (by decide) (by decide)⟩

/-- C24. For every array of 9 values, `sort_nine` runs to completion and
leaves an array of 9 values that is sorted in non-decreasing order and is a
permutation of the original (the same multiset); if the original values are
bytes, so are the sorted ones. -/
theorem C24_sort_nine_sorted_permutation (arr : List Nat) (h9 : arr.length = 9) :
    ∃ out, sort_nine arr = some out ∧ out.length = 9 ∧
      List.Sorted (fun x y : Nat => x ≤ y) out ∧
      (∀ a b : Nat, a < b → b < 9 → out.getD a 0 ≤ out.getD b 0) ∧
      out.Perm arr ∧ (out : Multiset Nat) = (arr : Multiset Nat) ∧
      ((∀ v ∈ arr, v < 256) → ∀ v ∈ out, v < 256) := by
  obtain ⟨out, hrun, hlen, hperm, hle⟩ := sort_nine_spec arr h9
  refine ⟨out, hrun, hlen, ?_, hle, hperm, Multiset.coe_eq_coe.mpr hperm, ?_⟩
  · apply List.pairwise_iff_getElem.mpr
    intro a b ha hb hab
    have := hle a b hab (by omega)
    rwa [List.getD_eq_getElem _ _ ha, List.getD_eq_getElem _ _ hb] at this
  · intro hb v hv
    exact hb v (hperm.mem_iff.mp hv)

/-- The theorem of C24 at the array 9, 8, ..., 1. -/
theorem C24_sort_nine_sorted_permutation_witness :
    [9, 8, 7, 6, 5, 4, 3, 2, 1].length = 9 ∧
      ∃ out, sort_nine [9, 8, 7, 6, 5, 4, 3, 2, 1] = some out ∧ out.length = 9 ∧
        List.Sorted (fun x y : Nat => x ≤ y) out ∧
        (∀ a b : Nat, a < b → b < 9 → out.getD a 0 ≤ out.getD b 0) ∧
        out.Perm [9, 8, 7, 6, 5, 4, 3, 2, 1] ∧
        (out : Multiset Nat) = (([9, 8, 7, 6, 5, 4, 3, 2, 1] : List Nat) : Multiset Nat) ∧
        ((∀ v ∈ [9, 8, 7, 6, 5, 4, 3, 2, 1], v < 256) → ∀ v ∈ out, v < 256) :=
  ⟨rfl, C24_sort_nine_sorted_permutation [9, 8, 7, 6, 5, 4, 3, 2, 1] rfl⟩

end PGM
